import Mathlib

/-!
The task runner `nigel`: candidate model, hash partitioning, ignored list,
prompt and command interpolation.

A shallow embedding of `candidate.go`, `executor.go` and the argument handling
of `main.go` (package `main` of the `nigel` task runner) together with the
properties its specification states about them.

Conventions of the embedding.

* Go `string`/`[]byte` values are modelled by Lean `String`s, i.e. the
  development assumes the texts handled are valid UTF-8; where the code looks
  at bytes (MD5, the scanner's token limit) the UTF-8 encoding of the string
  is used.
* Go `int` enumerations are modelled by `Int`, so that values outside the
  declared constants can be talked about.
* Library routines the code calls (`crypto/md5`, `math/big`, `encoding/json`,
  `bufio.Scanner`, `strings.TrimSpace`, `strings.ReplaceAll`, `strings.Join`,
  `strings.Split`, `strings.HasPrefix`, `strconv.Atoi`) are modelled by
  executable definitions that follow their documented behaviour; `int` has
  64 bits.
* The file system is passed explicitly: the content of `ignored.log` is an
  `Option String` (`none` when the file does not exist) and the outcome of an
  I/O operation that may fail is an explicit argument.
-/

namespace Nigel

/-! ## Data model (`candidate.go`, lines 14-27) -/

/-- Candidate is a work item from the candidate source output: `Key` and the
list `Elements` of its strings. -/
structure Candidate where
  Key : String
  Elements : List String
  deriving DecidableEq, Repr

/-- HashFilter is a Go `int` enumeration. -/
abbrev HashFilter := Int

/-- HashFilterNone is `iota` = 0. -/
def HashFilterNone : HashFilter := 0

/-- HashFilterEvens is 1. -/
def HashFilterEvens : HashFilter := 1

/-- HashFilterOdds is 2. -/
def HashFilterOdds : HashFilter := 2

/-! ## `crypto/md5` and `math/big` (RFC 1321) -/

/-- Per-round left-rotation amounts of MD5. -/
def md5Shifts : List Nat :=
  [7, 12, 17, 22, 7, 12, 17, 22, 7, 12, 17, 22, 7, 12, 17, 22,
   5, 9, 14, 20, 5, 9, 14, 20, 5, 9, 14, 20, 5, 9, 14, 20,
   4, 11, 16, 23, 4, 11, 16, 23, 4, 11, 16, 23, 4, 11, 16, 23,
   6, 10, 15, 21, 6, 10, 15, 21, 6, 10, 15, 21, 6, 10, 15, 21]

/-- The sine-derived additive constants of MD5. -/
def md5Consts : List Nat :=
  [0xd76aa478, 0xe8c7b756, 0x242070db, 0xc1bdceee, 0xf57c0faf, 0x4787c62a, 0xa8304613, 0xfd469501,
   0x698098d8, 0x8b44f7af, 0xffff5bb1, 0x895cd7be, 0x6b901122, 0xfd987193, 0xa679438e, 0x49b40821,
   0xf61e2562, 0xc040b340, 0x265e5a51, 0xe9b6c7aa, 0xd62f105d, 0x02441453, 0xd8a1e681, 0xe7d3fbc8,
   0x21e1cde6, 0xc33707d6, 0xf4d50d87, 0x455a14ed, 0xa9e3e905, 0xfcefa3f8, 0x676f02d9, 0x8d2a4c8a,
   0xfffa3942, 0x8771f681, 0x6d9d6122, 0xfde5380c, 0xa4beea44, 0x4bdecfa9, 0xf6bb4b60, 0xbebfbc70,
   0x289b7ec6, 0xeaa127fa, 0xd4ef3085, 0x04881d05, 0xd9d4d039, 0xe6db99e5, 0x1fa27cf8, 0xc4ac5665,
   0xf4292244, 0x432aff97, 0xab9423a7, 0xfc93a039, 0x655b59c3, 0x8f0ccc92, 0xffeff47d, 0x85845dd1,
   0x6fa87e4f, 0xfe2ce6e0, 0xa3014314, 0x4e0811a1, 0xf7537e82, 0xbd3af235, 0x2ad7d2bb, 0xeb86d391]

/-- Modulus of 32-bit words. -/
def word32 : Nat := 4294967296

/-- Bitwise complement of a 32-bit word. -/
def not32 (x : Nat) : Nat := x ^^^ 4294967295

/-- Left rotation of a 32-bit word. -/
def rotl32 (x s : Nat) : Nat := ((x <<< s) % word32) ||| (x >>> (32 - s))

/-- Little-endian bytes of a number, `n` of them. -/
def leBytes : Nat → Nat → List Nat
  | 0, _ => []
  | n + 1, x => (x % 256) :: leBytes n (x / 256)

/-- Little-endian 32-bit word at byte offset `4 * i` of a block. -/
def leWord (block : List Nat) (i : Nat) : Nat :=
  block.getD (4 * i) 0 + 256 * block.getD (4 * i + 1) 0
    + 65536 * block.getD (4 * i + 2) 0 + 16777216 * block.getD (4 * i + 3) 0

/-- MD5 padding: a `0x80` byte, zero bytes up to 56 mod 64, then the bit length
as 8 little-endian bytes. -/
def md5Pad (msg : List Nat) : List Nat :=
  msg ++ [128] ++ List.replicate ((119 - msg.length % 64) % 64) 0
    ++ leBytes 8 ((8 * msg.length) % 18446744073709551616)

/-- Cut a byte list into 64-byte blocks (`n` of them). -/
def md5Blocks : Nat → List Nat → List (List Nat)
  | 0, _ => []
  | n + 1, bytes => bytes.take 64 :: md5Blocks n (bytes.drop 64)

/-- MD5 working state `(a, b, c, d)`. -/
abbrev Md5State := Nat × Nat × Nat × Nat

/-- One of the 64 steps of the MD5 compression function. -/
def md5Step (block : List Nat) (st : Md5State) (i : Nat) : Md5State :=
  let (a, b, c, d) := st
  let f :=
    if i < 16 then (b &&& c) ||| (not32 b &&& d)
    else if i < 32 then (d &&& b) ||| (not32 d &&& c)
    else if i < 48 then b ^^^ c ^^^ d
    else c ^^^ (b ||| not32 d)
  let g :=
    if i < 16 then i
    else if i < 32 then (5 * i + 1) % 16
    else if i < 48 then (3 * i + 5) % 16
    else (7 * i) % 16
  let t := (f + a + md5Consts.getD i 0 + leWord block g) % word32
  (d, (b + rotl32 t (md5Shifts.getD i 0)) % word32, b, c)

/-- MD5 compression of one block into the chaining value. -/
def md5Compress (h : Md5State) (block : List Nat) : Md5State :=
  let (a, b, c, d) := (List.range 64).foldl (md5Step block) h
  ((h.1 + a) % word32, (h.2.1 + b) % word32, (h.2.2.1 + c) % word32, (h.2.2.2 + d) % word32)

/-- The 16-byte digest `md5.Sum(data)`. -/
def md5Sum (data : List Nat) : List Nat :=
  let padded := md5Pad data
  let (a, b, c, d) :=
    (md5Blocks (padded.length / 64) padded).foldl md5Compress
      (1732584193, 4023233417, 2562383102, 271733878)
  leBytes 4 a ++ leBytes 4 b ++ leBytes 4 c ++ leBytes 4 d

/-- The bytes `[]byte(s)` of a string (its UTF-8 encoding). -/
def stringBytes (s : String) : List Nat :=
  (s.toList.flatMap String.utf8EncodeChar).map UInt8.toNat

/-- `new(big.Int).SetBytes(b)`: the bytes read as a big-endian unsigned integer. -/
def bigIntSetBytes (b : List Nat) : Nat :=
  b.foldl (fun acc x => acc * 256 + x) 0

/-- `x.Bit(i)` of a non-negative `big.Int`. -/
def bigIntBit (x i : Nat) : Nat := (x / 2 ^ i) % 2

/-! ## `FilterByHash` (`candidate.go`, lines 68-86) -/

/-- The local `isEven` of the loop body of `FilterByHash`. -/
def isEven (c : Candidate) : Bool :=
  let hash := md5Sum (stringBytes c.Key)
  let hashInt := bigIntSetBytes hash
  bigIntBit hashInt 0 == 0

/-- The condition under which the loop of `FilterByHash` appends `c`. -/
def keeps ( filter : HashFilter) (c : Candidate) : Bool :=
  (filter == HashFilterEvens && isEven c) || (filter == HashFilterOdds && !isEven c)

/-- FilterByHash filters candidates by MD5 hash parity. -/
def FilterByHash (candidates : List Candidate) ( filter : HashFilter) : List Candidate :=
  if filter == HashFilterNone then candidates
  else candidates.filter (keeps filter)

/-! ## `encoding/json` -/

/-- A decoded JSON value. Numbers keep their source text. -/
inductive JSON where
  | null
  | bool (b : Bool)
  | num (text : String)
  | str (s : String)
  | arr (items : List JSON)
  | obj (fields : List (String × JSON))
  deriving Repr

/-- Outcome of a parsing routine: a value and the unread input, a syntax
error, or exhaustion of the recursion budget. -/
inductive Parse (α : Type) where
  | done (v : α) (rest : List Char)
  | syntaxError
  | outOfFuel
  deriving Repr

/-- The four JSON whitespace characters. -/
def isJsonSpace (c : Char) : Bool :=
  c == ' ' || c == '\t' || c == '\r' || c == '\n'

/-- Skip JSON whitespace. -/
def skipWs : List Char → List Char
  | [] => []
  | c :: cs => if isJsonSpace c then skipWs cs else c :: cs

/-- Value of a hexadecimal digit. -/
def hexVal (c : Char) : Option Nat :=
  if '0' ≤ c ∧ c ≤ '9' then some (c.toNat - 48)
  else if 'a' ≤ c ∧ c ≤ 'f' then some (c.toNat - 87)
  else if 'A' ≤ c ∧ c ≤ 'F' then some (c.toNat - 55)
  else none

/-- The number written by four hexadecimal digits (`getu4` without the `\u`). -/
def hex4 (a b c d : Char) : Option Nat :=
  match hexVal a, hexVal b, hexVal c, hexVal d with
  | some x, some y, some z, some w => some (4096 * x + 256 * y + 16 * z + w)
  | _, _, _, _ => none

/-- `getu4`: the code unit of a `\uXXXX` escape at the head of the input. -/
def getu4 : List Char → Option Nat
  | '\\' :: 'u' :: a :: b :: c :: d :: _ => hex4 a b c d
  | _ => none

/-- `utf16.IsSurrogate`. -/
def isSurrogate (r : Nat) : Bool := 0xd800 ≤ r && r < 0xe000

/-- `utf16.DecodeRune` on a high and a low code unit; `none` stands for the
replacement character result. -/
def decodeSurrogates (r1 : Nat) (r2 : Option Nat) : Option Nat :=
  match r2 with
  | some r2 =>
    if 0xd800 ≤ r1 ∧ r1 < 0xdc00 ∧ 0xdc00 ≤ r2 ∧ r2 < 0xe000 then
      some ((r1 - 0xd800) * 1024 + (r2 - 0xdc00) + 0x10000)
    else none
  | none => none

/-- The body of a JSON string literal after its opening quote, decoded as by
`unquote`: escapes are resolved, a `\u` surrogate pair is combined and an
unpaired surrogate becomes U+FFFD. Control characters and unknown escapes are
syntax errors. -/
def parseStringBody : Nat → List Char → List Char → Parse String
  | 0, _, _ => .outOfFuel
  | fuel + 1, cs, acc =>
    match cs with
    | [] => .syntaxError
    | '"' :: rest => .done (String.mk acc.reverse) rest
    | '\\' :: 'u' :: a :: b :: c :: d :: rest =>
      match hex4 a b c d with
      | none => .syntaxError
      | some rr =>
        if isSurrogate rr then
          match decodeSurrogates rr (getu4 rest) with
          | some dec => parseStringBody fuel (rest.drop 6) (Char.ofNat dec :: acc)
          | none => parseStringBody fuel rest (Char.ofNat 0xfffd :: acc)
        else parseStringBody fuel rest (Char.ofNat rr :: acc)
    | '\\' :: e :: rest =>
      if e = '"' then parseStringBody fuel rest ('"' :: acc)
      else if e = '\\' then parseStringBody fuel rest ('\\' :: acc)
      else if e = '/' then parseStringBody fuel rest ('/' :: acc)
      else if e = 'b' then parseStringBody fuel rest (Char.ofNat 8 :: acc)
      else if e = 'f' then parseStringBody fuel rest (Char.ofNat 12 :: acc)
      else if e = 'n' then parseStringBody fuel rest ('\n' :: acc)
      else if e = 'r' then parseStringBody fuel rest ('\r' :: acc)
      else if e = 't' then parseStringBody fuel rest ('\t' :: acc)
      else .syntaxError
    | c :: rest =>
      if c = '\\' then .syntaxError
      else if c.toNat < 32 then .syntaxError
      else parseStringBody fuel rest (c :: acc)

/-- A JSON digit. -/
def isDigit (c : Char) : Bool := '0' ≤ c && c ≤ '9'

/-- Split off the longest prefix of digits. -/
def spanDigits : List Char → List Char × List Char
  | [] => ([], [])
  | c :: cs =>
    if isDigit c then ((spanDigits cs).1.cons c, (spanDigits cs).2) else ([], c :: cs)

/-- The integer part of a number: `0` or a non-zero digit followed by digits. -/
def parseIntPart : List Char → Option (List Char × List Char)
  | '0' :: rest => some (['0'], rest)
  | c :: rest =>
    if isDigit c then some (c :: (spanDigits rest).1, (spanDigits rest).2) else none
  | [] => none

/-- The optional fraction of a number: `.` and at least one digit. -/
def parseFracPart : List Char → Option (List Char × List Char)
  | '.' :: rest =>
    match spanDigits rest with
    | ([], _) => none
    | (ds, rest') => some ('.' :: ds, rest')
  | cs => some ([], cs)

/-- Digits of an exponent, at least one. -/
def parseExpDigits (pre : List Char) (cs : List Char) : Option (List Char × List Char) :=
  match spanDigits cs with
  | ([], _) => none
  | (ds, rest) => some (pre ++ ds, rest)

/-- The optional exponent of a number: `e` or `E`, an optional sign, digits. -/
def parseExpPart : List Char → Option (List Char × List Char)
  | [] => some ([], [])
  | e :: rest =>
    if e = 'e' ∨ e = 'E' then
      match rest with
      | [] => none
      | s :: rest' =>
        if s = '+' ∨ s = '-' then parseExpDigits [e, s] rest' else parseExpDigits [e] rest
    else some ([], e :: rest)

/-- A JSON number, kept as its source text. -/
def parseNumber (cs : List Char) : Parse JSON :=
  let body : List Char → List Char → Parse JSON := fun sign cs =>
    match parseIntPart cs with
    | none => .syntaxError
    | some (i, r1) =>
      match parseFracPart r1 with
      | none => .syntaxError
      | some (f, r2) =>
        match parseExpPart r2 with
        | none => .syntaxError
        | some (e, r3) => .done (.num (String.mk (sign ++ i ++ f ++ e))) r3
  match cs with
  | '-' :: rest => body ['-'] rest
  | _ => body [] cs

/-- The scanner's `maxNestingDepth`. -/
def maxNestingDepth : Nat := 10000

/-- The rest of a literal name (`true`, `false`, `null`) after its first
letter. -/
def parseLiteral (word : List Char) (v : JSON) (cs : List Char) : Parse JSON :=
  if word.isPrefixOf cs then .done v (cs.drop word.length) else .syntaxError

mutual

/-- One JSON value at the head of the input, chosen by its first character as
in the scanner's `stateBeginValue`; `depth` counts the arrays and objects
already open. -/
def parseValue : Nat → Nat → List Char → Parse JSON
  | 0, _, _ => .outOfFuel
  | fuel + 1, depth, cs =>
    match cs with
    | [] => .syntaxError
    | c :: rest =>
      if c = '"' then
        match parseStringBody (rest.length + 1) rest [] with
        | .done s rest' => .done (.str s) rest'
        | .syntaxError => .syntaxError
        | .outOfFuel => .outOfFuel
      else if c = '[' then
        if maxNestingDepth ≤ depth then .syntaxError
        else
          match skipWs rest with
          | ']' :: rest' => .done (.arr []) rest'
          | rest' => parseElements fuel (depth + 1) rest' []
      else if c = '{' then
        if maxNestingDepth ≤ depth then .syntaxError
        else
          match skipWs rest with
          | '}' :: rest' => .done (.obj []) rest'
          | rest' => parseMembers fuel (depth + 1) rest' []
      else if c = 't' then parseLiteral ['r', 'u', 'e'] (.bool true) rest
      else if c = 'f' then parseLiteral ['a', 'l', 's', 'e'] (.bool false) rest
      else if c = 'n' then parseLiteral ['u', 'l', 'l'] .null rest
      else parseNumber cs

/-- The elements of an array after `[`, up to and including `]`; `acc` holds
the elements read so far, last first. -/
def parseElements : Nat → Nat → List Char → List JSON → Parse JSON
  | 0, _, _, _ => .outOfFuel
  | fuel + 1, depth, cs, acc =>
    match parseValue fuel depth cs with
    | .done v rest =>
      match skipWs rest with
      | ',' :: rest' => parseElements fuel depth (skipWs rest') (v :: acc)
      | ']' :: rest' => .done (.arr (v :: acc).reverse) rest'
      | _ => .syntaxError
    | .syntaxError => .syntaxError
    | .outOfFuel => .outOfFuel

/-- The members of an object after `{`, up to and including `}`. -/
def parseMembers : Nat → Nat → List Char → List (String × JSON) → Parse JSON
  | 0, _, _, _ => .outOfFuel
  | fuel + 1, depth, cs, acc =>
    match cs with
    | '"' :: rest =>
      match parseStringBody (rest.length + 1) rest [] with
      | .done k rest1 =>
        match skipWs rest1 with
        | ':' :: rest2 =>
          match parseValue fuel depth (skipWs rest2) with
          | .done v rest3 =>
            match skipWs rest3 with
            | ',' :: rest4 => parseMembers fuel depth (skipWs rest4) ((k, v) :: acc)
            | '}' :: rest4 => .done (.obj ((k, v) :: acc).reverse) rest4
            | _ => .syntaxError
          | .syntaxError => .syntaxError
          | .outOfFuel => .outOfFuel
        | _ => .syntaxError
      | .syntaxError => .syntaxError
      | .outOfFuel => .outOfFuel
    | _ => .syntaxError

end

/-- A whole JSON text: one value surrounded by optional whitespace
(`checkValid` followed by decoding). The recursion budget is twice the length
of the text, which the parser never exhausts (`parseDocument_fuel`). -/
def parseDocument (cs : List Char) : Parse JSON :=
  match parseValue (2 * cs.length + 2) 0 (skipWs cs) with
  | .done v rest =>
    match skipWs rest with
    | [] => .done v []
    | _ => .syntaxError
  | .syntaxError => .syntaxError
  | .outOfFuel => .outOfFuel

/-- The JSON value a text decodes to, if it is valid JSON. -/
def jsonDecode (data : String) : Option JSON :=
  match parseDocument data.toList with
  | .done v _ => some v
  | _ => none

/-- `json.Unmarshal(data, &raw)` for `raw []json.RawMessage`: an array yields
its elements, `null` leaves `raw` nil, every other value is a type error. -/
def unmarshalRawMessages : JSON → Option (List JSON)
  | .arr items => some items
  | .null => some []
  | _ => none

/-- `json.Unmarshal(item, &str)` for a fresh `str string`: a JSON string is
stored, `null` has no effect and is no error, every other value is a type
error. -/
def unmarshalString : JSON → Option String
  | .str s => some s
  | .null => some ""
  | _ => none

/-- Decoding the elements of a JSON array into the elements of a `[]string`. -/
def unmarshalStrings : List JSON → Option (List String)
  | [] => some []
  | x :: xs =>
    match unmarshalString x, unmarshalStrings xs with
    | some s, some ss => some (s :: ss)
    | _, _ => none

/-- `json.Unmarshal(item, &arr)` for a fresh `arr []string`. -/
def unmarshalStringSlice : JSON → Option (List String)
  | .arr items => unmarshalStrings items
  | .null => some []
  | _ => none

/-! ## `ParseCandidates` (`candidate.go`, lines 29-66) -/

deriving instance DecidableEq for Except

/-- The two errors `ParseCandidates` returns. -/
inductive ParseError where
  /-- `failed to parse JSON array: ...` -/
  | jsonArray
  /-- `candidate must be string or array of strings` -/
  | elementType
  deriving DecidableEq, Repr

/-- The loop of `ParseCandidates` over the raw items; `candidates` is the
slice built so far. -/
def parseItems : List JSON → List Candidate → Except ParseError (List Candidate)
  | [], candidates => .ok candidates
  | item :: rest, candidates =>
    match unmarshalString item with
    | some str => parseItems rest (candidates ++ [{ Key := str, Elements := [str] }])
    | none =>
      match unmarshalStringSlice item with
      | some arr =>
        match arr with
        | [] => parseItems rest candidates
        | first :: _ => parseItems rest (candidates ++ [{ Key := first, Elements := arr }])
      | none => .error .elementType

/-- ParseCandidates parses the JSON output from a candidate source. -/
def ParseCandidates (jsonData : String) : Except ParseError (List Candidate) :=
  match (jsonDecode jsonData).bind unmarshalRawMessages with
  | none => .error .jsonArray
  | some raw => parseItems raw []

/-! ## `strings.TrimSpace` and `bufio.Scanner` -/

/-- `unicode.IsSpace`. -/
def isSpace (c : Char) : Bool :=
  let n := c.toNat
  (9 ≤ n && n ≤ 13) || n == 32 || n == 0x85 || n == 0xa0 || n == 0x1680
    || (0x2000 ≤ n && n ≤ 0x200a) || n == 0x2028 || n == 0x2029 || n == 0x202f
    || n == 0x205f || n == 0x3000

/-- Drop leading white space. -/
def trimLeft : List Char → List Char
  | [] => []
  | c :: cs => if isSpace c then trimLeft cs else c :: cs

/-- `strings.TrimSpace` on a list of characters. -/
def trimSpaceChars (cs : List Char) : List Char :=
  (trimLeft (trimLeft cs).reverse).reverse

/-- `strings.TrimSpace`. -/
def trimSpace (s : String) : String := String.mk (trimSpaceChars s.toList)

/-- The segments of a text between its line feeds. -/
def splitLines : List Char → List (List Char)
  | [] => [[]]
  | c :: cs =>
    if c = '\n' then [] :: splitLines cs
    else
      match splitLines cs with
      | [] => [[c]]
      | l :: ls => (c :: l) :: ls

/-- Remove the segment after the last line feed when it is empty: at the end of
the input `bufio.ScanLines` returns no token for no data. -/
def dropFinalEmpty : List (List Char) → List (List Char)
  | [] => []
  | [l] => if l.isEmpty then [] else [l]
  | l :: ls => l :: dropFinalEmpty ls

/-- `dropCR`: remove one trailing carriage return. -/
def dropCR (l : List Char) : List Char :=
  if l.getLast? = some '\r' then l.dropLast else l

/-- `bufio.MaxScanTokenSize`. -/
def maxScanTokenSize : Nat := 65536

/-- Number of bytes of the UTF-8 encoding of a text. -/
def byteLength (l : List Char) : Nat := (l.map Char.utf8Size).sum

/-- A `bufio.Scanner` with the default `ScanLines` split function run to the
end of a text: the tokens it returns, or `none` when `scanner.Err()` is
`ErrTooLong` because a line does not fit the 64 KiB buffer. -/
def scanLines (content : List Char) : Option (List (List Char)) :=
  let raw := dropFinalEmpty (splitLines content)
  if raw.all (fun l => byteLength l < maxScanTokenSize) then some (raw.map dropCR) else none

/-! ## `IgnoredList` (`candidate.go`, lines 88-142) -/

/-- IgnoredList manages the list of already-processed candidates. The Go map
`entries map[string]bool` only ever holds `true`; it is modelled by the list
of its keys, without duplicates, in insertion order. -/
structure IgnoredList where
  path : String
  entries : List String
  deriving DecidableEq, Repr

/-- `entries[key] = true`. -/
def setEntry (entries : List String) (key : String) : List String :=
  if key ∈ entries then entries else entries ++ [key]

/-- What `os.Open(path)` and the reads that follow produce. -/
inductive OpenResult where
  /-- An error for which `os.IsNotExist` holds. -/
  | notExist
  /-- Any other error of `os.Open`. -/
  | openError
  /-- The file was opened; `content` is what can be read from it and
  `readError` tells whether a read fails with an I/O error. -/
  | opened (content : String) (readError : Bool)
  deriving DecidableEq, Repr

/-- The two errors `NewIgnoredList` returns. -/
inductive LoadError where
  /-- `failed to read ignored list: ...` -/
  | read
  /-- `failed to open ignored list: ...` -/
  | open_
  deriving DecidableEq, Repr

/-- The body of the `for scanner.Scan()` loop of `NewIgnoredList`. -/
def loadLine (entries : List String) (text : List Char) : List String :=
  let line := trimSpace (String.mk text)
  if line ≠ "" then setEntry entries line else entries

/-- NewIgnoredList loads `ignored.log` of the task directory. The path is
`filepath.Join(taskDir, "ignored.log")`; its cleaning of the path is not
modelled. -/
def NewIgnoredList (taskDir : String) (file : OpenResult) : Except LoadError IgnoredList :=
  let path := taskDir ++ "/ignored.log"
  match file with
  | .opened content readError =>
    if readError then .error .read
    else
      match scanLines content.toList with
      | none => .error .read
      | some lines => .ok { path := path, entries := lines.foldl loadLine [] }
  | .notExist => .ok { path := path, entries := [] }
  | .openError => .error .open_

/-- Contains reports whether `key` is in the list. -/
def IgnoredList.Contains (l : IgnoredList) (key : String) : Bool :=
  decide (key ∈ l.entries)

/-- What the operating system does with the `os.OpenFile` and the
`fmt.Fprintln` of one `Add`. -/
inductive AppendIO where
  /-- `os.OpenFile` fails; nothing is created or written. -/
  | openFails
  /-- The file is opened (created if absent) and the write fails after
  `written` characters. -/
  | writeFails (written : Nat)
  /-- Both succeed. -/
  | succeeds
  deriving DecidableEq, Repr

/-- The two errors `Add` returns. -/
inductive AddError where
  /-- `failed to open ignored list for writing: ...` -/
  | open_
  /-- `failed to write to ignored list: ...` -/
  | write
  deriving DecidableEq, Repr

/-- Result of `Add`: the returned error, the list and the file afterwards. -/
structure AddResult where
  err : Option AddError
  list : IgnoredList
  disk : Option String
  deriving DecidableEq, Repr

/-- Add records `key`: `disk` is the content of the file at `l.path` before
the call (`none` if it does not exist). -/
def IgnoredList.Add (l : IgnoredList) (disk : Option String) (io : AppendIO) (key : String) :
    AddResult :=
  if l.Contains key then { err := none, list := l, disk := disk }
  else
    match io with
    | .openFails => { err := some .open_, list := l, disk := disk }
    | .writeFails written =>
      { err := some .write, list := l,
        disk := some (disk.getD "" ++ String.mk ((key ++ "\n").toList.take written)) }
    | .succeeds =>
      { err := none, list := { l with entries := setEntry l.entries key },
        disk := some (disk.getD "" ++ (key ++ "\n")) }

/-! ## `SelectCandidate` (`candidate.go`, lines 144-152) -/

/-- SelectCandidate returns the first candidate not in the ignored list, `none`
standing for the nil pointer. -/
def SelectCandidate : List Candidate → IgnoredList → Option Candidate
  | [], _ => none
  | c :: candidates, ignored =>
    if !ignored.Contains c.Key then some c else SelectCandidate candidates ignored

/-! ## `strings.ReplaceAll`, `strings.Join`, `fmt.Sprintf` -/

/-- The scan of `strings.ReplaceAll` for a non-empty `old`: left to right,
`skip` counts the characters of a match just replaced that are still to be
passed over, so that matches do not overlap and inserted text is not scanned. -/
def replaceAux (old new : List Char) : Nat → List Char → List Char
  | _, [] => []
  | skip + 1, _ :: cs => replaceAux old new skip cs
  | 0, c :: cs =>
    if old.isPrefixOf (c :: cs) then new ++ replaceAux old new (old.length - 1) cs
    else c :: replaceAux old new 0 cs

/-- `strings.ReplaceAll` on lists of characters; an empty `old` matches at the
beginning of the text and after each character. -/
def replaceAllChars (s old new : List Char) : List Char :=
  if old.isEmpty then new ++ s.flatMap (fun c => c :: new) else replaceAux old new 0 s

/-- `strings.ReplaceAll(s, old, new)`. -/
def replaceAll (s old new : String) : String :=
  String.mk (replaceAllChars s.toList old.toList new.toList)

/-- `strings.Join(elems, sep)`. -/
def stringsJoin : List String → String → String
  | [], _ => ""
  | [a], _ => a
  | a :: rest, sep => a ++ sep ++ stringsJoin rest sep

/-- `fmt.Sprintf("$ARGUMENT_%d", n)` for a non-negative `n`. -/
def argumentPlaceholder (n : Nat) : String := "$ARGUMENT_" ++ Nat.repr n

/-! ## `executor.go`, lines 97-136 -/

/-- shellQuote returns a shell-safe quoted string. -/
def shellQuote (s : String) : String :=
  "'" ++ replaceAll s "'" "'\"'\"'" ++ "'"

/-- The `for i, elem := range candidate.Elements` loop of `InterpolatePrompt`,
from index `i` on. -/
def argumentLoop : Nat → List String → String → String
  | _, [], result => result
  | i, elem :: rest, result =>
    argumentLoop (i + 1) rest (replaceAll result (argumentPlaceholder (i + 1)) elem)

/-- InterpolatePrompt replaces template variables with candidate values. -/
def InterpolatePrompt (template : String) (candidate : Candidate) : String :=
  let result := template
  let result :=
    match candidate.Elements with
    | first :: _ => replaceAll result "$ARGUMENT" first
    | [] => result
  let result := argumentLoop 0 candidate.Elements result
  if candidate.Elements.length > 1 then
    replaceAll result "$REMAINING_ARGUMENTS" (stringsJoin (candidate.Elements.drop 1) ", ")
  else replaceAll result "$REMAINING_ARGUMENTS" ""

/-- InterpolateCommand replaces template variables in commands. -/
def InterpolateCommand (command : String) (candidate : Candidate) (taskName : String) :
    String :=
  let result := replaceAll command "$CANDIDATE" candidate.Key
  replaceAll result "$TASK_NAME" taskName

/-! ## Templates, as the specification speaks of them -/

/-- The text `tok` occurs in the text (`strings.Contains`). -/
def occursIn (tok : List Char) : List Char → Bool
  | [] => tok.isPrefixOf []
  | c :: cs => tok.isPrefixOf (c :: cs) || occursIn tok cs

/-- No placeholder begins in the text: every `$` is its last character or is
followed by a character other than `A` and `R`. -/
def dollarsInert : List Char → Bool
  | [] => true
  | c :: cs =>
    (c != '$' ||
      (match cs with
        | [] => true
        | d :: _ => d != 'A' && d != 'R')) && dollarsInert cs

/-- Every `$` of the text that does not begin an occurrence of `$ARGUMENT` is
its last character or is followed by a character other than `A`, `R` and
`$`: a `$` that is no placeholder cannot become the beginning of one. -/
def strayDollarsInert : List Char → Bool
  | [] => true
  | c :: cs =>
    (c != '$' || "$ARGUMENT".toList.isPrefixOf (c :: cs) ||
      (match cs with
        | [] => true
        | d :: _ => d != 'A' && d != 'R' && d != '$')) && strayDollarsInert cs

/-! ## The repeat mode of the tracker -/

/-- Modelled from the spec: the tracker with a repeat maximum (`SetMaxRepeat`,
and `Contains` and `Add` in repeat mode), which `candidate.go` does not have;
only its tests are among the sources. The state is the loaded list, an
attempt counter per key and the configured repeat maximum (0 = disabled). -/
structure Tracker where
  list : IgnoredList
  attempts : String → Nat
  maxRepeat : Nat

/-- Modelled from the spec: a freshly loaded list is a tracker in simple mode
with no recorded attempts. -/
def Tracker.ofList (l : IgnoredList) : Tracker :=
  { list := l, attempts := fun _ => 0, maxRepeat := 0 }

/-- Modelled from the spec: `SetMaxRepeat(n)` configures the repeat maximum; "a
key loaded from disk before repeat mode is enabled is treated as already at
maximum". -/
def Tracker.SetMaxRepeat (t : Tracker) (n : Nat) : Tracker :=
  { t with
    maxRepeat := n
    attempts := fun k => if t.list.Contains k then n else t.attempts k }

/-- Modelled from the spec: `Contains(key)` is "in simple mode, true iff key is
in the loaded set. In repeat mode, true iff the key's recorded attempt count
is ≥ the configured maximum". -/
def Tracker.Contains (t : Tracker) (key : String) : Bool :=
  if t.maxRepeat = 0 then t.list.Contains key else decide (t.maxRepeat ≤ t.attempts key)

/-- Result of the tracker's `Add`. -/
structure TrackerResult where
  err : Option AddError
  tracker : Tracker
  disk : Option String

/-- Modelled from the spec: `Add(key)` "in simple mode, appends the key to the
file (unless already present) and marks it present in memory"; "in repeat
mode, increments the in-memory attempt counter for the key; only once the
counter reaches the configured maximum is the key appended to the file". -/
def Tracker.Add (t : Tracker) (disk : Option String) (io : AppendIO) (key : String) :
    TrackerResult :=
  if t.maxRepeat = 0 then
    let r := t.list.Add disk io key
    { err := r.err, tracker := { t with list := r.list }, disk := r.disk }
  else
    let count := t.attempts key + 1
    let t1 : Tracker := { t with attempts := fun k => if k = key then count else t.attempts k }
    if count = t.maxRepeat then
      let r := t.list.Add disk io key
      { err := r.err, tracker := { t1 with list := r.list }, disk := r.disk }
    else { err := none, tracker := t1, disk := disk }

/-- A parsing result that is not `outOfFuel` and, when it is a value, leaves
fewer than `n` characters unread. -/
def Parse.consumes {α : Type} (r : Parse α) (n : Nat) : Prop :=
  match r with
  | .done _ rest => rest.length < n
  | .syntaxError => True
  | .outOfFuel => False

/-! ## Lines of a text, as the specification speaks of them -/

/-- `line` is a line of `text`: a stretch of `text` without line feed that
begins at the start of the text or right after a line feed, and ends at the
end of the text or right before a line feed. -/
def IsLineOf (text line : List Char) : Prop :=
  '\n' ∉ line ∧ ∃ pre post, text = pre ++ line ++ post ∧
    (pre = [] ∨ ∃ p, pre = p ++ ['\n']) ∧ (post = [] ∨ ∃ q, post = '\n' :: q)

/-- Lines put together again, a line feed between two neighbours. -/
def joinLines : List (List Char) → List Char
  | [] => []
  | [l] => l
  | l :: ls => l ++ '\n' :: joinLines ls

/-! ## The select-then-record loop -/

/-- Number of candidates of `candidates` whose key the list does not contain. -/
def pendingCount (candidates : List Candidate) (l : IgnoredList) : Nat :=
  (candidates.filter (fun c => !l.Contains c.Key)).length

/-- Select-then-`Add` repeated over a fixed candidate list, every `Add`
succeeding: whether `SelectCandidate` returns nil after at most `n` rounds. -/
def exhaustedWithin (candidates : List Candidate) : Nat → IgnoredList → Option String → Bool
  | 0, l, _ => (SelectCandidate candidates l).isNone
  | n + 1, l, disk =>
    match SelectCandidate candidates l with
    | none => true
    | some c =>
      exhaustedWithin candidates n (l.Add disk .succeeds c.Key).list
        (l.Add disk .succeeds c.Key).disk

/-- The file at the path of the list as `os.Open` finds it when no I/O error
occurs. -/
def onDisk : Option String → OpenResult
  | none => .notExist
  | some content => .opened content false

/-! ## Reading a quoted shell word -/

/-- Quoting state of a shell that reads a word. -/
inductive QuoteState where
  /-- Outside quotes. -/
  | unquoted
  /-- Inside single quotes. -/
  | single
  /-- Inside double quotes. -/
  | double
  deriving DecidableEq, Repr

/-- The POSIX quoting rules for a word made of quoted parts only: single
quotes keep every character literal up to the next single quote; inside double
quotes a single quote is literal and the text runs up to the next double
quote. `acc` is the value read so far. The result is `none` for a text these
rules do not cover: a character outside quotes, a `$`, a backquote or a
backslash inside double quotes, or a quote left open. -/
def readQuoted : QuoteState → List Char → List Char → Option (List Char)
  | .unquoted, [], acc => some acc
  | .unquoted, c :: cs, acc =>
    if c = '\'' then readQuoted .single cs acc
    else if c = '"' then readQuoted .double cs acc
    else none
  | .single, [], _ => none
  | .single, c :: cs, acc =>
    if c = '\'' then readQuoted .unquoted cs acc else readQuoted .single cs (acc ++ [c])
  | .double, [], _ => none
  | .double, c :: cs, acc =>
    if c = '"' then readQuoted .unquoted cs acc
    else if c = '$' ∨ c = '\x60' ∨ c = '\\' then none
    else readQuoted .double cs (acc ++ [c])

/-- The value of the one word a text of quoted parts is read as; the empty
text is no word. -/
def shellWord (text : String) : Option String :=
  match text.toList with
  | [] => none
  | cs => (readQuoted .unquoted cs []).map String.mk

/-! ## The `--shard` flag (`main.go`, lines 58-73) -/

/-- `strings.Split(s, sep)` for a separator of one character: the stretches of
the text between the separators. -/
def stringsSplit (sep : Char) : List Char → List (List Char)
  | [] => [[]]
  | c :: cs =>
    if c = sep then [] :: stringsSplit sep cs
    else
      match stringsSplit sep cs with
      | [] => [[c]]
      | l :: ls => (c :: l) :: ls

/-- The value of a run of decimal digits after `acc`, `none` if a character
is not a digit. -/
def parseDigits : List Char → Nat → Option Nat
  | [], acc => some acc
  | c :: cs, acc =>
    if '0' ≤ c ∧ c ≤ '9' then parseDigits cs (acc * 10 + (c.toNat - '0'.toNat)) else none

/-- `strconv.Atoi` with a 64-bit `int`: an optional sign, then one decimal
digit or more; `none` stands for its syntax and range errors. -/
def Atoi (s : String) : Option Int :=
  let signed : Bool × List Char :=
    match s.toList with
    | '-' :: rest => (true, rest)
    | '+' :: rest => (false, rest)
    | cs => (false, cs)
  if signed.2.isEmpty then none
  else
    match parseDigits signed.2 0 with
    | none => none
    | some n =>
      if signed.1 then (if n ≤ 2 ^ 63 then some (-(n : Int)) else none)
      else (if n < 2 ^ 63 then some (n : Int) else none)

/-- HashPartition as `main.go` builds it; the type itself is declared in a
file that is not among the sources. -/
structure HashPartition where
  WorkerCount : Int
  WorkerIndex : Int
  deriving DecidableEq, Repr

/-- The two startup errors of the `--shard` flag. -/
inductive ShardError where
  /-- `--shard must be in format INDEX/TOTAL (e.g. 1/4)` -/
  | format
  /-- `invalid shard values` -/
  | values
  deriving DecidableEq, Repr

/-- The part of `main` that parses and validates the shard flag. `noFilter`
is the value of `NoFilter()`, which is not among the sources; an error stands
for the message and `os.Exit(1)`. -/
def shardPartition (noFilter : HashPartition) (shardFlag : String) :
    Except ShardError HashPartition :=
  if shardFlag ≠ "" then
    let parts := (stringsSplit '/' shardFlag.toList).map String.mk
    if parts.length ≠ 2 then .error .format
    else
      match Atoi (trimSpace (parts.getD 0 "")), Atoi (trimSpace (parts.getD 1 "")) with
      | some index, some total =>
        if total < 1 ∨ index < 1 ∨ index > total then .error .values
        else .ok { WorkerCount := total, WorkerIndex := index - 1 }
      | _, _ => .error .values
  else .ok noFilter

/-! ## `reorderArgs` (`main.go`, lines 123-150) -/

/-- `strings.HasPrefix(s, prefix)`. -/
def hasPrefix (s pre : String) : Bool := pre.toList.isPrefixOf s.toList

/-- The `switch arg` of `reorderArgs`: the flags that take a value. -/
def takesValue (arg : String) : Bool :=
  decide (arg ∈ ["-limit", "--limit", "-time-limit", "--time-limit",
    "-task-timeout", "--task-timeout", "-claude-command", "--claude-command",
    "-shard", "--shard"])

/-- The loop of `reorderArgs` over the arguments from index `i` on; `flags`
and `positional` are the slices built so far. -/
def reorderLoop : List String → List String → List String → List String × List String
  | [], flags, positional => (flags, positional)
  | [arg], flags, positional =>
    if hasPrefix arg "-" then (flags ++ [arg], positional) else (flags, positional ++ [arg])
  | arg :: next :: rest, flags, positional =>
    if hasPrefix arg "-" then
      if !hasPrefix next "-" && takesValue arg then
        reorderLoop rest (flags ++ [arg] ++ [next]) positional
      else reorderLoop (next :: rest) (flags ++ [arg]) positional
    else reorderLoop (next :: rest) flags (positional ++ [arg])

/-- reorderArgs moves flags before positional arguments so Go's flag package
can parse them. -/
def reorderArgs (args : List String) : List String :=
  (reorderLoop args [] []).1 ++ (reorderLoop args [] []).2

/-! ## Arguments, as the specification speaks of them -/

/-- The arguments that neither begin with `-` nor directly follow a flag that
takes a value, in input order; `afterValueFlag` tells whether the argument
before the first one is such a flag. -/
def positionalArgs : Bool → List String → List String
  | _, [] => []
  | afterValueFlag, arg :: rest =>
    if !hasPrefix arg "-" && !afterValueFlag then arg :: positionalArgs (takesValue arg) rest
    else positionalArgs (takesValue arg) rest

/-- The remaining arguments, in input order. -/
def flagArgs : Bool → List String → List String
  | _, [] => []
  | afterValueFlag, arg :: rest =>
    if !hasPrefix arg "-" && !afterValueFlag then flagArgs (takesValue arg) rest
    else arg :: flagArgs (takesValue arg) rest

/-! ## Backoff -/

/-- A minute in nanoseconds, the unit of `time.Duration`. -/
def minute : Nat := 60 * 1000000000

/-- An hour in nanoseconds. -/
def hour : Nat := 60 * minute

/-- Modelled from the spec: `calculateBackoff(level)` of the runner, which is
not among the sources (only `TestCalculateBackoff` is): "exponential,
`delay = base * 2^level` capped at a maximum", with the "reference constants:
base = 5 minutes, cap = 1 hour". The level is a count of consecutive rate
limits, a natural number. -/
def calculateBackoff (level : Nat) : Nat :=
  let delay := 5 * minute * 2 ^ level
  if delay > hour then hour else delay

/-! ## The streaming classifier -/

/-- Modelled from the spec: the events of the line-oriented stream protocol
as the classifier tells them apart; the types `streamEvent` and
`contentBlockDelta` they are decoded into are not among the sources. -/
inductive StreamEvent where
  /-- A `content_block_delta` event with a `text_delta` payload. -/
  | contentBlockDelta (text : String)
  /-- A `message_stop` event. -/
  | messageStop
  /-- Any other line: another event, a delta of another type, a line that
  does not decode. -/
  | other
  deriving DecidableEq, Repr

/-- State of the classifier: whether the current message has produced
content, what the streaming observer received and what the log received. -/
structure StreamState where
  messageHasContent : Bool
  streamed : String
  logged : String
  deriving DecidableEq, Repr

/-- Modelled from the spec: the processing of one stream event by the newer
`RunClaudeCommand`, which is not among the sources; the test
`TestStreamingWithEmptyMessages` replays it in `processEventWithState`. "A
`content_block_delta` event with a non-empty `text_delta` payload is forwarded
immediately to a streaming observer and appended to the log sink; a
`message_stop` event emits exactly one trailing newline to both, but only if
the message actually produced content"; "this accumulator state resets at each
`message_stop`". -/
def processEvent (st : StreamState) : StreamEvent → StreamState
  | .contentBlockDelta text =>
    if text ≠ "" then
      { messageHasContent := true, streamed := st.streamed ++ text, logged := st.logged ++ text }
    else st
  | .messageStop =>
    if st.messageHasContent then
      { messageHasContent := false, streamed := st.streamed ++ "\n",
        logged := st.logged ++ "\n" }
    else { st with messageHasContent := false }
  | .other => st

/-- The classifier run over the events of one subprocess execution. -/
def processEvents (events : List StreamEvent) : StreamState :=
  events.foldl processEvent { messageHasContent := false, streamed := "", logged := "" }

/-- The texts of the deltas of a stretch of events, put together in order. -/
def deltaText : List StreamEvent → String
  | [] => ""
  | .contentBlockDelta text :: rest => text ++ deltaText rest
  | _ :: rest => deltaText rest

/-! ## Shard specifications, as the specification speaks of them -/

/-- The text splits on `/` into exactly two parts that, trimmed of white
space, parse as the integers `index` and `total`. -/
def IsShardSpec (s : String) (index total : Int) : Prop :=
  ∃ a b : List Char, s.toList = a ++ '/' :: b ∧ '/' ∉ a ∧ '/' ∉ b ∧
    Atoi (trimSpace (String.mk a)) = some index ∧ Atoi (trimSpace (String.mk b)) = some total

/-! ## Properties of `FilterByHash` -/

set_option maxRecDepth 100000 in
/-- The model of `md5.Sum` reproduces digests of the RFC 1321 test suite. -/
theorem md5Sum_test_suite :
    md5Sum (stringBytes "")
        = [0xd4, 0x1d, 0x8c, 0xd9, 0x8f, 0x00, 0xb2, 0x04,
           0xe9, 0x80, 0x09, 0x98, 0xec, 0xf8, 0x42, 0x7e] ∧
      md5Sum (stringBytes "a")
        = [0x0c, 0xc1, 0x75, 0xb9, 0xc0, 0xf1, 0xb6, 0xa8,
           0x31, 0xc3, 0x99, 0xe2, 0x69, 0x77, 0x26, 0x61] ∧
      md5Sum (stringBytes "message digest")
        = [0xf9, 0x6b, 0x69, 0x7d, 0x7c, 0xb7, 0x93, 0x8d,
           0x52, 0x5a, 0x2f, 0x31, 0xaa, 0xf1, 0x61, 0xd0] ∧
      md5Sum (stringBytes
          "12345678901234567890123456789012345678901234567890123456789012345678901234567890")
        = [0x57, 0xed, 0xf4, 0xa2, 0x2b, 0xe3, 0xc9, 0x55,
           0xac, 0x49, 0xda, 0x2e, 0x21, 0x07, 0xb6, 0x7a] := by
  refine ⟨?_, ?_, ?_, ?_⟩ <;> decide

set_option maxRecDepth 100000 in
/-- The keys `a` and `e` fall into different partitions. -/
theorem FilterByHash_example :
    FilterByHash [⟨"a", ["a"]⟩, ⟨"e", ["e"]⟩] HashFilterEvens = [⟨"e", ["e"]⟩] ∧
      FilterByHash [⟨"a", ["a"]⟩, ⟨"e", ["e"]⟩] HashFilterOdds = [⟨"a", ["a"]⟩] := by
  decide

/-- With `HashFilterEvens` the loop keeps exactly the candidates with `isEven`. -/
theorem FilterByHash_evens (cs : List Candidate) :
    FilterByHash cs HashFilterEvens = cs.filter isEven := by
  have hk : keeps HashFilterEvens = isEven := by
    funext c
    simp [keeps, HashFilterEvens, HashFilterOdds]
  rw [FilterByHash, hk, if_neg (by decide)]

/-- With `HashFilterOdds` the loop keeps exactly the candidates without `isEven`. -/
theorem FilterByHash_odds (cs : List Candidate) :
    FilterByHash cs HashFilterOdds = cs.filter (fun c => !isEven c) := by
  have hk : keeps HashFilterOdds = fun c => !isEven c := by
    funext c
    simp [keeps, HashFilterEvens, HashFilterOdds]
  rw [FilterByHash, hk, if_neg (by decide)]

/-- The parity of a candidate is a function of its `Key`. -/
theorem isEven_congr (a b : Candidate) (h : a.Key = b.Key) : isEven a = isEven b := by
  simp [isEven, h]

/-- Claim C1. The two partitions `FilterByHash cs HashFilterEvens` and
`FilterByHash cs HashFilterOdds` are disjoint and complete: every candidate of
`cs` is in exactly one of them, their lengths add up to the length of `cs`, no
`Key` occurs in both, and together they are a rearrangement of `cs` (every
candidate occurs in them as often as in `cs`). -/
theorem FilterByHash_partition (cs : List Candidate) :
    (∀ c ∈ cs,
        (c ∈ FilterByHash cs HashFilterEvens ∧ c ∉ FilterByHash cs HashFilterOdds) ∨
        (c ∉ FilterByHash cs HashFilterEvens ∧ c ∈ FilterByHash cs HashFilterOdds)) ∧
      (FilterByHash cs HashFilterEvens).length + (FilterByHash cs HashFilterOdds).length
        = cs.length ∧
      (∀ a ∈ FilterByHash cs HashFilterEvens, ∀ b ∈ FilterByHash cs HashFilterOdds,
        a.Key ≠ b.Key) ∧
      List.Perm (FilterByHash cs HashFilterEvens ++ FilterByHash cs HashFilterOdds) cs := by
  rw [FilterByHash_evens, FilterByHash_odds]
  refine ⟨?_, ?_, ?_, ?_⟩
  · intro c hc
    cases hp : isEven c
    · right
      simp [List.mem_filter, hc, hp]
    · left
      simp [List.mem_filter, hc, hp]
  · have h := (List.filter_append_perm isEven cs).length_eq
    simpa [List.length_append] using h
  · intro a ha b hb hkey
    have h1 : isEven a = true := (List.mem_filter.mp ha).2
    have h2 : (!isEven b) = true := (List.mem_filter.mp hb).2
    rw [isEven_congr a b hkey] at h1
    simp [h1] at h2
  · exact List.filter_append_perm isEven cs

/-- Claim C2. Without a filter (`HashFilterNone`) `FilterByHash` returns its
input unchanged. -/
theorem FilterByHash_none (cs : List Candidate) :
    FilterByHash cs HashFilterNone = cs := by
  simp [FilterByHash]

/-- Claim C3. For every filter value the result of `FilterByHash` is a
sublist of the input: its members are candidates of the input, unmodified and
in their input order. -/
theorem FilterByHash_sublist (cs : List Candidate) ( filter : HashFilter) :
    List.Sublist (FilterByHash cs filter) cs := by
  unfold FilterByHash
  split
  · exact List.Sublist.refl cs
  · exact List.filter_sublist cs

/-! ## Properties of `ParseCandidates` -/

/-- The slice built so far is only ever appended to. -/
theorem parseItems_acc (items : List JSON) (acc : List Candidate) :
    parseItems items acc = (parseItems items []).map (fun cs => acc ++ cs) := by
  induction items generalizing acc with
  | nil => simp [parseItems, Except.map]
  | cons item rest ih =>
    unfold parseItems
    cases hs : unmarshalString item with
    | some str =>
      simp only []
      rw [ih (acc ++ _), ih ([] ++ _)]
      cases parseItems rest [] <;> simp [Except.map]
    | none =>
      cases ha : unmarshalStringSlice item with
      | none => simp [Except.map]
      | some arr =>
        cases arr with
        | nil => simpa using ih acc
        | cons first more =>
          simp only []
          rw [ih (acc ++ _), ih ([] ++ _)]
          cases parseItems rest [] <;> simp [Except.map]

/-- The loop over a concatenation is the loop over its parts in sequence. -/
theorem parseItems_append (xs ys : List JSON) (acc : List Candidate) :
    parseItems (xs ++ ys) acc = (parseItems xs acc).bind (parseItems ys) := by
  induction xs generalizing acc with
  | nil => simp [parseItems, Except.bind]
  | cons item rest ih =>
    simp only [List.cons_append]
    unfold parseItems
    cases hs : unmarshalString item with
    | some str => simpa using ih _
    | none =>
      cases ha : unmarshalStringSlice item with
      | none => simp [Except.bind]
      | some arr =>
        cases arr with
        | nil => simpa using ih _
        | cons first more => simpa using ih _

/-- The only error of the loop is `candidate must be string or array of strings`. -/
theorem parseItems_error (items : List JSON) (acc : List Candidate) (e : ParseError)
    (h : parseItems items acc = .error e) : e = .elementType := by
  induction items generalizing acc with
  | nil => simp [parseItems] at h
  | cons item rest ih =>
    unfold parseItems at h
    cases hs : unmarshalString item with
    | some str => rw [hs] at h; exact ih _ h
    | none =>
      rw [hs] at h
      cases ha : unmarshalStringSlice item with
      | none => rw [ha] at h; injection h with h; exact h.symm
      | some arr =>
        rw [ha] at h
        cases arr with
        | nil => exact ih _ h
        | cons first more => exact ih _ h

/-- An item that is neither accepted as a string nor as an array of strings
fails the whole loop, wherever it stands. -/
theorem parseItems_reject (items : List JSON) (acc : List Candidate) (x : JSON)
    (hx : x ∈ items) (hs : unmarshalString x = none) (ha : unmarshalStringSlice x = none) :
    parseItems items acc = .error .elementType := by
  induction items generalizing acc with
  | nil => cases hx
  | cons item rest ih =>
    rcases List.mem_cons.mp hx with rfl | hmem
    · unfold parseItems
      simp [hs, ha]
    · unfold parseItems
      cases hs' : unmarshalString item with
      | some str => exact ih _ hmem
      | none =>
        cases ha' : unmarshalStringSlice item with
        | none => rfl
        | some arr =>
          cases arr with
          | nil => exact ih _ hmem
          | cons first more => exact ih _ hmem

/-- The loop over string items appends one candidate per string. -/
theorem parseItems_strings (ss : List String) (acc : List Candidate) :
    parseItems (ss.map JSON.str) acc
      = .ok (acc ++ ss.map (fun s => { Key := s, Elements := [s] })) := by
  induction ss generalizing acc with
  | nil => simp [parseItems]
  | cons s rest ih =>
    simp only [List.map_cons]
    unfold parseItems
    simp [unmarshalString, ih]

/-- Decoding an array of JSON strings into a `[]string` gives the strings. -/
theorem unmarshalStrings_strings (ss : List String) :
    unmarshalStrings (ss.map JSON.str) = some ss := by
  induction ss with
  | nil => rfl
  | cons s rest ih => simp [unmarshalStrings, unmarshalString, ih]

/-- Claim C4. A text that decodes to a JSON array of the strings `ss` parses
without error to one candidate per string, in order, the `Key` (and only
element) of each being its string; the empty array gives no candidates. -/
theorem ParseCandidates_strings (jsonData : String) (ss : List String)
    (h : jsonDecode jsonData = some (.arr (ss.map JSON.str))) :
    ParseCandidates jsonData = .ok (ss.map (fun s => { Key := s, Elements := [s] })) ∧
      (ss.map (fun s => ({ Key := s, Elements := [s] } : Candidate))).length = ss.length ∧
      (ss.map (fun s => ({ Key := s, Elements := [s] } : Candidate))).map Candidate.Key = ss := by
  refine ⟨?_, by simp, ?_⟩
  · simp [ParseCandidates, h, unmarshalRawMessages, parseItems_strings]
  · simp [List.map_map, Function.comp_def]

/-- Witness of C4: the array of the first test case, and the empty array. -/
theorem ParseCandidates_strings_witness :
    ParseCandidates "[\"file1.go\", \"file2.go\", \"file3.go\"]"
        = .ok [⟨"file1.go", ["file1.go"]⟩, ⟨"file2.go", ["file2.go"]⟩,
            ⟨"file3.go", ["file3.go"]⟩] ∧
      ParseCandidates "[]" = .ok [] :=
  ⟨(ParseCandidates_strings "[\"file1.go\", \"file2.go\", \"file3.go\"]"
      ["file1.go", "file2.go", "file3.go"] rfl).1,
   (ParseCandidates_strings "[]" [] rfl).1⟩

/-- Counterexample to C5 as stated: the element `["file1.go", "line 10"]`
yields the key `file1.go`, its first string, and not the serialized array
`["file1.go","line 10"]`. -/
theorem ParseCandidates_array_key_counterexample :
    ParseCandidates "[[\"file1.go\", \"line 10\"], [\"file2.go\", \"line 20\"]]"
        = .ok [⟨"file1.go", ["file1.go", "line 10"]⟩, ⟨"file2.go", ["file2.go", "line 20"]⟩] ∧
      ¬ (∃ cs, ParseCandidates "[[\"file1.go\", \"line 10\"], [\"file2.go\", \"line 20\"]]"
          = .ok cs ∧ ∃ c ∈ cs, c.Key = "[\"file1.go\",\"line 10\"]") := by
  have h : ParseCandidates "[[\"file1.go\", \"line 10\"], [\"file2.go\", \"line 20\"]]"
      = .ok [⟨"file1.go", ["file1.go", "line 10"]⟩, ⟨"file2.go", ["file2.go", "line 20"]⟩] := rfl
  refine ⟨h, ?_⟩
  rintro ⟨cs, hcs, c, hc, hkey⟩
  rw [h] at hcs
  injection hcs with hcs
  subst hcs
  simp only [List.mem_cons, List.mem_nil_iff, or_false] at hc
  rcases hc with rfl | rfl
  · exact absurd hkey (by decide)
  · exact absurd hkey (by decide)

/-- Claim C5, amended. An element of the input array that is a non-empty JSON
array of strings contributes, between the candidates of the elements before
it and those of the elements after it, one candidate whose `Key` is the first
string of the array and whose `Elements` are its strings in order; the parse
fails only if another element is rejected. -/
theorem ParseCandidates_array_element (jsonData : String) (pre post : List JSON)
    (first : String) (more : List String)
    (h : jsonDecode jsonData
      = some (.arr (pre ++ JSON.arr ((first :: more).map JSON.str) :: post))) :
    ParseCandidates jsonData =
      match parseItems pre [], parseItems post [] with
      | .ok before, .ok after =>
        .ok (before ++ { Key := first, Elements := first :: more } :: after)
      | _, _ => .error .elementType := by
  have hitem : ∀ acc, parseItems (JSON.arr ((first :: more).map JSON.str) :: post) acc
      = parseItems post (acc ++ [{ Key := first, Elements := first :: more }]) := by
    intro acc
    have hu := unmarshalStrings_strings (first :: more)
    rw [parseItems]
    simp only [unmarshalString, unmarshalStringSlice, hu]
  simp only [ParseCandidates, h, unmarshalRawMessages, Option.bind]
  rw [parseItems_append]
  cases hb : parseItems pre [] with
  | error e =>
    have := parseItems_error _ _ _ hb
    subst this
    simp [Except.bind]
  | ok before =>
    simp only [Except.bind]
    rw [hitem, parseItems_acc]
    cases ha : parseItems post [] with
    | error e =>
      have := parseItems_error _ _ _ ha
      subst this
      simp [Except.map]
    | ok after => simp [Except.map]

/-- Witness of C5 amended: the mixed-format test case. -/
theorem ParseCandidates_array_element_witness :
    ParseCandidates "[\"simple.go\", [\"complex.go\", \"extra\", \"data\"]]"
      = .ok [⟨"simple.go", ["simple.go"]⟩, ⟨"complex.go", ["complex.go", "extra", "data"]⟩] :=
  ParseCandidates_array_element "[\"simple.go\", [\"complex.go\", \"extra\", \"data\"]]"
    [JSON.str "simple.go"] [] "complex.go" ["extra", "data"] rfl

/-- Counterexample to C6 as stated: an object element gets no key at all, the
parse fails; this for either order of the fields. -/
theorem ParseCandidates_object_counterexample :
    ParseCandidates "[\x7b\"file\":\"test.go\",\"line\":10\x7d]" = .error .elementType ∧
      ParseCandidates "[\x7b\"line\":10,\"file\":\"test.go\"\x7d]" = .error .elementType ∧
      ¬ (∃ cs, ParseCandidates "[\x7b\"file\":\"test.go\",\"line\":10\x7d]" = .ok cs ∧
          ∃ c ∈ cs, c.Key = "\x7b\"file\":\"test.go\",\"line\":10\x7d") := by
  have h : ParseCandidates "[\x7b\"file\":\"test.go\",\"line\":10\x7d]" = .error .elementType := rfl
  refine ⟨h, rfl, ?_⟩
  rintro ⟨cs, hcs, -⟩
  rw [h] at hcs
  cases hcs

/-- Claim C6, amended. A JSON object is not a supported element: an input
array with an object among its elements is rejected with the error
`candidate must be string or array of strings`, and no candidates are
returned. -/
theorem ParseCandidates_object_element (jsonData : String) (items : List JSON)
    (fields : List (String × JSON))
    (h : jsonDecode jsonData = some (.arr items)) (hobj : JSON.obj fields ∈ items) :
    ParseCandidates jsonData = .error .elementType := by
  simp only [ParseCandidates, h, unmarshalRawMessages, Option.bind]
  exact parseItems_reject items [] _ hobj rfl rfl

/-- Witness of C6 amended: an object after a string. -/
theorem ParseCandidates_object_element_witness :
    ParseCandidates "[\"a.go\", \x7b\"file\": \"other.go\"\x7d]" = .error .elementType :=
  ParseCandidates_object_element "[\"a.go\", \x7b\"file\": \"other.go\"\x7d]"
    [JSON.str "a.go", JSON.obj [("file", JSON.str "other.go")]]
    [("file", JSON.str "other.go")] rfl (by simp)

/-- A number or a boolean among the elements fails the whole parse. -/
theorem ParseCandidates_number_or_bool (jsonData : String) (items : List JSON) (x : JSON)
    (h : jsonDecode jsonData = some (.arr items)) (hx : x ∈ items)
    (hkind : (∃ t, x = JSON.num t) ∨ (∃ b, x = JSON.bool b)) :
    ParseCandidates jsonData = .error .elementType := by
  simp only [ParseCandidates, h, unmarshalRawMessages, Option.bind]
  rcases hkind with ⟨t, rfl⟩ | ⟨b, rfl⟩
  · exact parseItems_reject items [] _ hx rfl rfl
  · exact parseItems_reject items [] _ hx rfl rfl

/-- Claim C7, the code at the failing input. `json.Unmarshal` of `null` into a
Go `string` "has no effect on the value and produces no error", so a `null`
element is not rejected: `[null]` parses to one candidate with the empty key,
and `["a", null]` to two candidates. -/
theorem ParseCandidates_null_element :
    ParseCandidates "[null]" = .ok [⟨"", [""]⟩] ∧
      ParseCandidates "[\"a\", null]" = .ok [⟨"a", ["a"]⟩, ⟨"", [""]⟩] ∧
      ParseCandidates "[123, 456]" = .error .elementType ∧
      ParseCandidates "[\"a\", true]" = .error .elementType :=
  ⟨rfl, rfl, rfl, rfl⟩

/-- Counterexample to C8 as stated: plain text is not split into lines but
rejected. -/
theorem ParseCandidates_plain_text_counterexample :
    jsonDecode "single.go" = none ∧
      ParseCandidates "single.go" = .error .jsonArray ∧
      ParseCandidates "file1.go\nfile2.go\nfile3.go\n" = .error .jsonArray ∧
      ParseCandidates "single.go" ≠ .ok [⟨"single.go", ["single.go"]⟩] := by
  refine ⟨rfl, rfl, rfl, ?_⟩
  decide

/-- Claim C8, amended. There is no plain-text fallback: an input that does not
decode as a JSON array (and is not the JSON text `null`) makes
`ParseCandidates` return the error `failed to parse JSON array` and no
candidates. -/
theorem ParseCandidates_not_array (jsonData : String)
    (harr : ∀ items, jsonDecode jsonData ≠ some (.arr items))
    (hnull : jsonDecode jsonData ≠ some .null) :
    ParseCandidates jsonData = .error .jsonArray := by
  unfold ParseCandidates
  cases hd : jsonDecode jsonData with
  | none => rfl
  | some v =>
    cases v with
    | arr items => exact absurd hd (harr items)
    | null => exact absurd hd hnull
    | _ => rfl

/-- Witness of C8 amended: a text that is no JSON, and a JSON object. -/
theorem ParseCandidates_not_array_witness :
    ParseCandidates "not json" = .error .jsonArray ∧
      ParseCandidates "\x7b\"a\": [\"b\"]\x7d" = .error .jsonArray := by
  refine ⟨ParseCandidates_not_array "not json" ?_ ?_,
    ParseCandidates_not_array "\x7b\"a\": [\"b\"]\x7d" ?_ ?_⟩
  · intro items hitems
    have hd : jsonDecode "not json" = none := rfl
    rw [hd] at hitems
    cases hitems
  · intro hnull
    have hd : jsonDecode "not json" = none := rfl
    rw [hd] at hnull
    cases hnull
  · intro items hitems
    have hd : jsonDecode "\x7b\"a\": [\"b\"]\x7d" = some (.obj [("a", .arr [.str "b"])]) := rfl
    rw [hd] at hitems
    cases hitems
  · intro hnull
    have hd : jsonDecode "\x7b\"a\": [\"b\"]\x7d" = some (.obj [("a", .arr [.str "b"])]) := rfl
    rw [hd] at hnull
    cases hnull

/-! ## Lines: the scanner's segments are the lines of the text -/

/-- A text always has at least one segment. -/
theorem splitLines_ne_nil (cs : List Char) : splitLines cs ≠ [] := by
  cases cs with
  | nil => simp [splitLines]
  | cons c cs =>
    unfold splitLines
    split
    · simp
    · split <;> simp

/-- No segment contains a line feed. -/
theorem splitLines_no_lf (cs : List Char) : ∀ l ∈ splitLines cs, '\n' ∉ l := by
  induction cs with
  | nil => simp [splitLines]
  | cons c cs ih =>
    unfold splitLines
    split
    · intro l hl
      rcases List.mem_cons.mp hl with rfl | hl
      · simp
      · exact ih l hl
    · rename_i hc
      split
      · rename_i heq
        exact absurd heq (splitLines_ne_nil cs)
      · rename_i l ls heq
        rw [heq] at ih
        intro t ht
        rcases List.mem_cons.mp ht with rfl | ht
        · intro hmem
          rcases List.mem_cons.mp hmem with h | h
          · exact hc h.symm
          · exact ih l (List.mem_cons_self _ _) h
        · exact ih t (List.mem_cons_of_mem _ ht)

/-- Joining the segments gives the text back. -/
theorem joinLines_splitLines (cs : List Char) : joinLines (splitLines cs) = cs := by
  induction cs with
  | nil => simp [splitLines, joinLines]
  | cons c cs ih =>
    unfold splitLines
    split
    · rename_i hc
      cases hs : splitLines cs with
      | nil => exact absurd hs (splitLines_ne_nil cs)
      | cons l ls =>
        rw [hs] at ih
        simp [joinLines, ih, hc]
    · split
      · rename_i heq
        exact absurd heq (splitLines_ne_nil cs)
      · rename_i l ls heq
        rw [heq] at ih
        cases ls with
        | nil => simpa [joinLines] using ih
        | cons l2 ls2 =>
          simp only [joinLines] at ih ⊢
          simp [ih]

/-- Where the first line feed of a text stands is determined by the text. -/
theorem lf_split (a b p x : List Char) (ha : '\n' ∉ a)
    (h : a ++ '\n' :: b = p ++ '\n' :: x) :
    (p = a ∧ x = b) ∨ ∃ q, p = a ++ '\n' :: q ∧ b = q ++ '\n' :: x := by
  induction a generalizing p with
  | nil =>
    cases p with
    | nil =>
      left
      simp only [List.nil_append, List.cons.injEq, true_and] at h
      exact ⟨rfl, h.symm⟩
    | cons d p' =>
      right
      simp only [List.nil_append, List.cons_append, List.cons.injEq] at h
      exact ⟨p', by rw [← h.1]; rfl, h.2⟩
  | cons c a' ih =>
    have hc : c ≠ '\n' := fun hc => ha (by simp [hc])
    have ha' : '\n' ∉ a' := fun hm => ha (List.mem_cons_of_mem _ hm)
    cases p with
    | nil =>
      simp only [List.cons_append, List.nil_append, List.cons.injEq] at h
      exact absurd h.1 hc
    | cons d p' =>
      simp only [List.cons_append, List.cons.injEq] at h
      rcases ih p' ha' h.2 with ⟨h1, h2⟩ | ⟨q, h1, h2⟩
      · left
        exact ⟨by rw [h.1, h1], h2⟩
      · right
        exact ⟨q, by rw [h.1, h1]; rfl, h2⟩

/-- The lines of a text joined from line-feed-free segments are exactly the
segments. -/
theorem isLineOf_joinLines (segs : List (List Char)) (hne : segs ≠ [])
    (hlf : ∀ l ∈ segs, '\n' ∉ l) (t : List Char) :
    IsLineOf (joinLines segs) t ↔ t ∈ segs := by
  induction segs with
  | nil => exact absurd rfl hne
  | cons s rest ih =>
    have hs : '\n' ∉ s := hlf s (List.mem_cons_self _ _)
    cases rest with
    | nil =>
      simp only [joinLines, List.mem_singleton]
      constructor
      · rintro ⟨-, pre, post, heq, hpre, hpost⟩
        have hpre' : pre = [] := by
          rcases hpre with h | ⟨p, h⟩
          · exact h
          · exact absurd (by rw [heq, h]; simp) hs
        have hpost' : post = [] := by
          rcases hpost with h | ⟨q, h⟩
          · exact h
          · exact absurd (by rw [heq, h]; simp) hs
        rw [heq, hpre', hpost']
        simp
      · rintro rfl
        exact ⟨hs, [], [], by simp, Or.inl rfl, Or.inl rfl⟩
    | cons s2 rest2 =>
      have ih' := ih (by simp) (fun l hl => hlf l (List.mem_cons_of_mem _ hl))
      simp only [joinLines] at ih' ⊢
      constructor
      · rintro ⟨hnl, pre, post, heq, hpre, hpost⟩
        rcases hpre with hpre | ⟨p, hpre⟩
        · subst hpre
          rcases hpost with hpost | ⟨q, hpost⟩
          · subst hpost
            exfalso
            apply hnl
            have : t = s ++ '\n' :: joinLines (s2 :: rest2) := by simpa using heq.symm
            rw [this]
            simp
          · subst hpost
            have heq' : s ++ '\n' :: joinLines (s2 :: rest2) = t ++ '\n' :: q := by
              simpa using heq
            rcases lf_split s _ t q hs heq' with ⟨h1, -⟩ | ⟨r, h1, -⟩
            · rw [h1]
              exact List.mem_cons_self _ _
            · exfalso
              apply hnl
              rw [h1]
              simp
        · subst hpre
          have heq' : s ++ '\n' :: joinLines (s2 :: rest2) = p ++ '\n' :: (t ++ post) := by
            simpa using heq
          apply List.mem_cons_of_mem
          apply ih'.mp
          rcases lf_split s _ p (t ++ post) hs heq' with ⟨-, h2⟩ | ⟨r, -, h2⟩
          · exact ⟨hnl, [], post, by simpa using h2.symm, Or.inl rfl, hpost⟩
          · exact ⟨hnl, r ++ ['\n'], post, by simpa using h2, Or.inr ⟨r, rfl⟩, hpost⟩
      · intro hmem
        rcases List.mem_cons.mp hmem with rfl | hmem
        · exact ⟨hs, [], '\n' :: joinLines (s2 :: rest2), by simp, Or.inl rfl,
            Or.inr ⟨_, rfl⟩⟩
        · obtain ⟨hnl, pre, post, heq, hpre, hpost⟩ := ih'.mpr hmem
          refine ⟨hnl, s ++ '\n' :: pre, post, by simp [heq], ?_, hpost⟩
          rcases hpre with hpre | ⟨r, hpre⟩
          · exact Or.inr ⟨s, by simp [hpre]⟩
          · exact Or.inr ⟨s ++ '\n' :: r, by simp [hpre]⟩

/-- The segments computed by `splitLines` are exactly the lines of the text. -/
theorem mem_splitLines_iff (cs t : List Char) : t ∈ splitLines cs ↔ IsLineOf cs t := by
  have h := isLineOf_joinLines (splitLines cs) (splitLines_ne_nil cs) (splitLines_no_lf cs) t
  rw [joinLines_splitLines] at h
  exact h.symm

/-- Dropping the final empty segment loses at most the empty line. -/
theorem mem_dropFinalEmpty (segs : List (List Char)) (t : List Char) (ht : t ≠ []) :
    t ∈ dropFinalEmpty segs ↔ t ∈ segs := by
  induction segs with
  | nil => simp [dropFinalEmpty]
  | cons l ls ih =>
    cases ls with
    | nil =>
      unfold dropFinalEmpty
      by_cases hl : l.isEmpty = true
      · have : l = [] := List.isEmpty_iff.mp hl
        subst this
        simp [ht]
      · simp [hl]
    | cons l2 ls2 =>
      have e : dropFinalEmpty (l :: l2 :: ls2) = l :: dropFinalEmpty (l2 :: ls2) := rfl
      rw [e, List.mem_cons, ih]
      simp

/-- What `dropFinalEmpty` keeps was a segment. -/
theorem dropFinalEmpty_subset (segs : List (List Char)) (t : List Char)
    (h : t ∈ dropFinalEmpty segs) : t ∈ segs := by
  induction segs with
  | nil => simp [dropFinalEmpty] at h
  | cons l ls ih =>
    cases ls with
    | nil =>
      unfold dropFinalEmpty at h
      by_cases hl : l.isEmpty = true
      · simp [hl] at h
      · simpa [hl] using h
    | cons l2 ls2 =>
      have e : dropFinalEmpty (l :: l2 :: ls2) = l :: dropFinalEmpty (l2 :: ls2) := rfl
      rw [e] at h
      rcases List.mem_cons.mp h with rfl | h
      · exact List.mem_cons_self _ _
      · exact List.mem_cons_of_mem _ (ih h)

/-! ## Properties of `NewIgnoredList` -/

/-- White space at the end of a text does not survive trimming. -/
theorem trimLeft_reverse_snoc (l : List Char) (c : Char) (hc : isSpace c = true) :
    trimLeft (trimLeft (l ++ [c])).reverse = trimLeft (trimLeft l).reverse := by
  induction l with
  | nil => simp [trimLeft, hc]
  | cons d l ih =>
    by_cases hd : isSpace d = true
    · simpa [trimLeft, hd] using ih
    · simp [trimLeft, hd, hc]

/-- The carriage return `dropCR` removes would be trimmed anyway. -/
theorem trimSpaceChars_dropCR (t : List Char) :
    trimSpaceChars (dropCR t) = trimSpaceChars t := by
  unfold dropCR
  split
  · rename_i h
    have ht : t.dropLast ++ ['\r'] = t := List.dropLast_append_getLast? _ h
    have hcr : isSpace '\r' = true := by decide
    conv_rhs => rw [← ht]
    unfold trimSpaceChars
    rw [trimLeft_reverse_snoc _ _ hcr]
  · rfl

/-- Membership after `entries[key] = true`. -/
theorem mem_setEntry (entries : List String) (key k : String) :
    k ∈ setEntry entries key ↔ k ∈ entries ∨ k = key := by
  unfold setEntry
  split
  · rename_i h
    constructor
    · exact Or.inl
    · rintro (h' | rfl)
      · exact h'
      · exact h
  · simp

/-- The keys present after the loading loop: those present before, and the
non-empty trimmed tokens. -/
theorem mem_foldl_loadLine (lines : List (List Char)) (acc : List String) (k : String) :
    k ∈ lines.foldl loadLine acc ↔
      k ∈ acc ∨ (k ≠ "" ∧ ∃ t ∈ lines, trimSpace (String.mk t) = k) := by
  induction lines generalizing acc with
  | nil => simp
  | cons t rest ih =>
    rw [List.foldl_cons, ih]
    unfold loadLine
    by_cases hline : trimSpace (String.mk t) = ""
    · simp only [hline, ne_eq, not_true_eq_false, if_false, List.mem_cons, exists_eq_or_imp]
      constructor
      · rintro (h | ⟨hk, h⟩)
        · exact Or.inl h
        · exact Or.inr ⟨hk, Or.inr h⟩
      · rintro (h | ⟨hk, h | h⟩)
        · exact Or.inl h
        · exact absurd h.symm hk
        · exact Or.inr ⟨hk, h⟩
    · simp only [ne_eq, hline, not_false_eq_true, if_true, mem_setEntry, List.mem_cons,
        exists_eq_or_imp]
      constructor
      · rintro ((h | h) | ⟨hk, h⟩)
        · exact Or.inl h
        · exact Or.inr ⟨by rw [h]; exact hline, Or.inl h.symm⟩
        · exact Or.inr ⟨hk, Or.inr h⟩
      · rintro (h | ⟨hk, h | h⟩)
        · exact Or.inl (Or.inl h)
        · exact Or.inl (Or.inr h.symm)
        · exact Or.inr ⟨hk, h⟩

/-- The non-empty trimmed tokens of the scanner are the non-empty trimmed
lines of the text. -/
theorem scanLines_tokens (cs : List Char) (lines : List (List Char))
    (h : scanLines cs = some lines) (k : String) (hk : k ≠ "") :
    (∃ t ∈ lines, trimSpace (String.mk t) = k) ↔
      ∃ line, IsLineOf cs line ∧ trimSpace (String.mk line) = k := by
  have hempty : trimSpace (String.mk []) = "" := by decide
  have htrim : ∀ t, trimSpace (String.mk (dropCR t)) = trimSpace (String.mk t) := by
    intro t
    simp only [trimSpace, String.toList]
    rw [trimSpaceChars_dropCR]
  unfold scanLines at h
  simp only [] at h
  split at h
  · injection h with h
    subst h
    constructor
    · rintro ⟨t, ht, hkt⟩
      obtain ⟨r, hr, rfl⟩ := List.mem_map.mp ht
      rw [htrim] at hkt
      exact ⟨r, (mem_splitLines_iff cs r).mp (dropFinalEmpty_subset _ _ hr), hkt⟩
    · rintro ⟨line, hline, hkl⟩
      have hne : line ≠ [] := by
        rintro rfl
        rw [hempty] at hkl
        exact hk hkl.symm
      refine ⟨dropCR line, List.mem_map.mpr ⟨line, ?_, rfl⟩, by rw [htrim]; exact hkl⟩
      exact (mem_dropFinalEmpty _ _ hne).mpr ((mem_splitLines_iff cs line).mpr hline)
  · cases h

/-- Claim C9. The list `NewIgnoredList` builds from a file contains `k` if and
only if `k` is the white-space-trimmed text of a line of the file that is not
blank; a list is built whenever every line is shorter than the scanner's
64 KiB token limit; and the list built when the file does not exist contains
no key. -/
theorem NewIgnoredList_Contains (taskDir content k : String) :
    (∀ l, NewIgnoredList taskDir (.opened content false) = .ok l →
        (l.Contains k = true ↔
          k ≠ "" ∧ ∃ line, IsLineOf content.toList line ∧ trimSpace (String.mk line) = k)) ∧
      ((∀ line, IsLineOf content.toList line → byteLength line < maxScanTokenSize) →
        ∃ l, NewIgnoredList taskDir (.opened content false) = .ok l) ∧
      (∃ l, NewIgnoredList taskDir .notExist = .ok l ∧ l.Contains k = false) := by
  refine ⟨?_, ?_, ?_⟩
  · intro l hl
    unfold NewIgnoredList at hl
    simp only [Bool.false_eq_true, if_false] at hl
    cases hs : scanLines content.toList with
    | none =>
      rw [hs] at hl
      cases hl
    | some lines =>
      rw [hs] at hl
      injection hl with hl
      subst hl
      simp only [IgnoredList.Contains, decide_eq_true_eq]
      rw [mem_foldl_loadLine]
      simp only [List.not_mem_nil, false_or]
      constructor
      · rintro ⟨hk, h⟩
        exact ⟨hk, (scanLines_tokens _ _ hs k hk).mp h⟩
      · rintro ⟨hk, h⟩
        exact ⟨hk, (scanLines_tokens _ _ hs k hk).mpr h⟩
  · intro hshort
    have hall : (dropFinalEmpty (splitLines content.toList)).all
        (fun l => decide (byteLength l < maxScanTokenSize)) = true := by
      rw [List.all_eq_true]
      intro l hl
      exact decide_eq_true
        (hshort l ((mem_splitLines_iff _ l).mp (dropFinalEmpty_subset _ _ hl)))
    have hscan : scanLines content.toList
        = some ((dropFinalEmpty (splitLines content.toList)).map dropCR) := by
      unfold scanLines
      simp only [hall, if_true]
    refine ⟨{ path := taskDir ++ "/ignored.log",
              entries := ((dropFinalEmpty (splitLines content.toList)).map dropCR).foldl
                loadLine [] }, ?_⟩
    unfold NewIgnoredList
    simp only [Bool.false_eq_true, if_false]
    rw [hscan]
  · exact ⟨_, rfl, by simp [IgnoredList.Contains]⟩

/-- Witness of C9: the file of the first `TestIgnoredList` case. -/
theorem NewIgnoredList_Contains_witness :
    NewIgnoredList "task" (.opened "file1.go\nfile2.go\n" false)
        = .ok ⟨"task/ignored.log", ["file1.go", "file2.go"]⟩ ∧
      ((⟨"task/ignored.log", ["file1.go", "file2.go"]⟩ : IgnoredList).Contains "file2.go" = true ↔
        "file2.go" ≠ "" ∧ ∃ line, IsLineOf "file1.go\nfile2.go\n".toList line ∧
          trimSpace (String.mk line) = "file2.go") :=
  ⟨rfl, (NewIgnoredList_Contains "task" "file1.go\nfile2.go\n" "file2.go").1 _ rfl⟩

/-! ## Properties of `IgnoredList.Add` -/

/-- `Contains` after `entries[key] = true`. -/
theorem Contains_setEntry (l : IgnoredList) (key k : String) :
    ({ l with entries := setEntry l.entries key } : IgnoredList).Contains k
      = (l.Contains k || decide (k = key)) := by
  simp only [IgnoredList.Contains]
  rw [Bool.eq_iff_iff]
  simp [mem_setEntry]

/-- For a key that is not contained, `Add` returns no error exactly when both
the open and the write succeed. -/
theorem Add_err_none (l : IgnoredList) (disk : Option String) (io : AppendIO) (key : String)
    (hnew : l.Contains key = false) :
    (l.Add disk io key).err = none ↔ io = .succeeds := by
  unfold IgnoredList.Add
  cases io <;> simp [hnew]

/-- Claim C10. `Add` in the only mode of the code. For a key not yet
contained, an `Add` that returns no error leaves the file equal to its earlier
content followed by the key and one line feed, makes `Contains key` true and
does not change `Contains` of any other key; such an `Add` exists (the one
whose open and write succeed). For a key already contained, `Add` returns no
error and changes neither the file nor the list. Hence a second `Add` of the
same key after a successful one changes nothing. -/
theorem Add_simple_mode (l : IgnoredList) (disk : Option String) (io : AppendIO)
    (key : String) :
    (l.Contains key = false → (l.Add disk io key).err = none →
        (l.Add disk io key).disk = some (disk.getD "" ++ (key ++ "\n")) ∧
        (l.Add disk io key).list.Contains key = true ∧
        ∀ k, k ≠ key → (l.Add disk io key).list.Contains k = l.Contains k) ∧
      (l.Add disk .succeeds key).err = none ∧
      (l.Contains key = true →
        l.Add disk io key = { err := none, list := l, disk := disk }) ∧
      ((l.Add disk io key).err = none → ∀ io2,
        (l.Add disk io key).list.Add (l.Add disk io key).disk io2 key
          = { err := none, list := (l.Add disk io key).list,
              disk := (l.Add disk io key).disk }) := by
  have hold : l.Contains key = true →
      l.Add disk io key = { err := none, list := l, disk := disk } := by
    intro h
    simp [IgnoredList.Add, h]
  have hnew : l.Contains key = false → (l.Add disk io key).err = none →
      l.Add disk io key = { err := none, list := { l with entries := setEntry l.entries key },
                            disk := some (disk.getD "" ++ (key ++ "\n")) } := by
    intro h herr
    have hio := (Add_err_none l disk io key h).mp herr
    subst hio
    simp [IgnoredList.Add, h]
  refine ⟨?_, ?_, hold, ?_⟩
  · intro h herr
    rw [hnew h herr]
    refine ⟨rfl, ?_, ?_⟩
    · simp [Contains_setEntry]
    · intro k hk
      simp [Contains_setEntry, hk]
  · cases h : l.Contains key <;> simp [IgnoredList.Add, h]
  · intro herr io2
    cases h : l.Contains key with
    | true =>
      rw [hold h]
      simp [IgnoredList.Add, h]
    | false =>
      rw [hnew h herr]
      have hc : ({ l with entries := setEntry l.entries key } : IgnoredList).Contains key
          = true := by simp [Contains_setEntry]
      simp only [IgnoredList.Add, hc, if_true]

/-- Witness of C10: the `add appends to file` test case, and a second `Add`
on a file that already has content. -/
theorem Add_simple_mode_witness :
    (IgnoredList.Add ⟨"task/ignored.log", []⟩ none .succeeds "newfile.go").disk
        = some "newfile.go\n" ∧
      (IgnoredList.Add ⟨"task/ignored.log", []⟩ none .succeeds "newfile.go").list.Contains
        "newfile.go" = true ∧
      IgnoredList.Add ⟨"task/ignored.log", ["a"]⟩ (some "a\n") .openFails "a"
        = { err := none, list := ⟨"task/ignored.log", ["a"]⟩, disk := some "a\n" } := by
  have h1 := (Add_simple_mode ⟨"task/ignored.log", []⟩ none .succeeds "newfile.go").1
    (by decide) (by decide)
  have h2 := (Add_simple_mode ⟨"task/ignored.log", ["a"]⟩ (some "a\n") .openFails "a").2.2.1
    (by decide)
  exact ⟨by rw [h1.1]; decide, h1.2.1, h2⟩

/-! ## The JSON parser never exhausts its recursion budget -/

/-- `consumes` is monotone in its bound. -/
theorem Parse.consumes_mono {α : Type} (r : Parse α) (m n : Nat) (h : r.consumes m)
    (hmn : m ≤ n) : r.consumes n := by
  cases r with
  | done v rest => exact Nat.lt_of_lt_of_le h hmn
  | syntaxError => trivial
  | outOfFuel => exact h

/-- Skipping whitespace does not lengthen the input. -/
theorem skipWs_length (cs : List Char) : (skipWs cs).length ≤ cs.length := by
  induction cs with
  | nil => simp [skipWs]
  | cons c cs ih =>
    unfold skipWs
    split
    · exact Nat.le_succ_of_le ih
    · exact Nat.le_refl _

/-- A string body read with a budget above the length of the input does not
run out of fuel, and consumes at least its closing quote. -/
theorem parseStringBody_consumes (fuel : Nat) (cs acc : List Char) (h : cs.length < fuel) :
    (parseStringBody fuel cs acc).consumes cs.length := by
  induction fuel generalizing cs acc with
  | zero => omega
  | succ fuel ih =>
    unfold parseStringBody
    split
    · trivial
    · simp [Parse.consumes]
    · rename_i a b c d rest
      simp only [List.length_cons] at h
      split
      · trivial
      · split
        · split
          · refine Parse.consumes_mono _ _ _ (ih (rest.drop 6) _ ?_) ?_
            · simp only [List.length_drop]; omega
            · simp only [List.length_drop, List.length_cons]; omega
          · refine Parse.consumes_mono _ _ _ (ih rest _ (by omega)) ?_
            simp only [List.length_cons]; omega
        · refine Parse.consumes_mono _ _ _ (ih rest _ (by omega)) ?_
          simp only [List.length_cons]; omega
    · rename_i e rest _
      simp only [List.length_cons] at h
      have hrec : ∀ acc2, (parseStringBody fuel rest acc2).consumes (rest.length + 1 + 1) :=
        fun acc2 => Parse.consumes_mono _ _ _ (ih rest acc2 (by omega)) (by omega)
      simp only [List.length_cons]
      repeat' split
      all_goals first | exact hrec _ | trivial
    · rename_i c rest _ _ _
      simp only [List.length_cons] at h
      split
      · trivial
      · split
        · trivial
        · refine Parse.consumes_mono _ _ _ (ih rest _ (by omega)) ?_
          simp only [List.length_cons]; omega

/-- The rest after a run of digits is not longer than the input. -/
theorem spanDigits_length (cs : List Char) : (spanDigits cs).2.length ≤ cs.length := by
  induction cs with
  | nil => simp [spanDigits]
  | cons c cs ih =>
    unfold spanDigits
    split
    · exact Nat.le_succ_of_le ih
    · exact Nat.le_refl _

/-- An integer part consumes at least one character. -/
theorem parseIntPart_length (cs i r : List Char) (h : parseIntPart cs = some (i, r)) :
    r.length < cs.length := by
  unfold parseIntPart at h
  split at h
  · injection h with h
    injection h with _ h
    subst h
    simp
  · split at h
    · injection h with h
      injection h with _ h
      subst h
      exact Nat.lt_succ_of_le (spanDigits_length _)
    · cases h
  · cases h

/-- A fraction part does not lengthen the input. -/
theorem parseFracPart_length (cs f r : List Char) (h : parseFracPart cs = some (f, r)) :
    r.length ≤ cs.length := by
  unfold parseFracPart at h
  split at h
  · rename_i rest
    have hl := spanDigits_length rest
    split at h
    · cases h
    · rename_i ds rest2 _ heq
      injection h with h
      injection h with _ h
      subst h
      rw [heq] at hl
      exact Nat.le_succ_of_le hl
  · injection h with h
    injection h with _ h
    subst h
    exact Nat.le_refl _

/-- The digits of an exponent do not lengthen the input. -/
theorem parseExpDigits_length (pre cs e r : List Char)
    (h : parseExpDigits pre cs = some (e, r)) : r.length ≤ cs.length := by
  unfold parseExpDigits at h
  have hl := spanDigits_length cs
  split at h
  · cases h
  · rename_i ds rest _ heq
    injection h with h
    injection h with _ h
    subst h
    rw [heq] at hl
    exact hl

/-- An exponent part does not lengthen the input. -/
theorem parseExpPart_length (cs e r : List Char) (h : parseExpPart cs = some (e, r)) :
    r.length ≤ cs.length := by
  unfold parseExpPart at h
  split at h
  · injection h with h
    injection h with _ h
    subst h
    exact Nat.le_refl _
  · rename_i c rest
    split at h
    · split at h
      · cases h
      · rename_i s rest2
        split at h
        · have := parseExpDigits_length _ _ _ _ h
          simp only [List.length_cons]
          omega
        · have := parseExpDigits_length _ _ _ _ h
          simp only [List.length_cons] at this ⊢
          omega
    · injection h with h
      injection h with _ h
      subst h
      exact Nat.le_refl _

/-- A number never runs out of fuel and consumes input. -/
theorem parseNumber_consumes (cs : List Char) : (parseNumber cs).consumes cs.length := by
  have body : ∀ (sign cs2 : List Char),
      (match parseIntPart cs2 with
        | none => (Parse.syntaxError : Parse JSON)
        | some (i, r1) =>
          match parseFracPart r1 with
          | none => .syntaxError
          | some (f, r2) =>
            match parseExpPart r2 with
            | none => .syntaxError
            | some (e, r3) => .done (.num (String.mk (sign ++ i ++ f ++ e))) r3).consumes
        cs2.length := by
    intro sign cs2
    cases hi : parseIntPart cs2 with
    | none => trivial
    | some p =>
      obtain ⟨i, r1⟩ := p
      have h1 := parseIntPart_length _ _ _ hi
      dsimp only
      cases hf : parseFracPart r1 with
      | none => trivial
      | some q =>
        obtain ⟨f, r2⟩ := q
        have h2 := parseFracPart_length _ _ _ hf
        dsimp only
        cases he : parseExpPart r2 with
        | none => trivial
        | some w =>
          obtain ⟨e, r3⟩ := w
          have h3 := parseExpPart_length _ _ _ he
          show r3.length < cs2.length
          omega
  unfold parseNumber
  split
  · rename_i rest
    exact Parse.consumes_mono _ _ _ (body ['-'] rest) (by simp)
  · exact body [] cs

/-- Unfolding of `parseValue` at a positive budget. -/
theorem parseValue_succ (fuel depth : Nat) (cs : List Char) :
    parseValue (fuel + 1) depth cs =
      match cs with
      | [] => .syntaxError
      | c :: rest =>
        if c = '"' then
          match parseStringBody (rest.length + 1) rest [] with
          | .done s rest' => .done (.str s) rest'
          | .syntaxError => .syntaxError
          | .outOfFuel => .outOfFuel
        else if c = '[' then
          if maxNestingDepth ≤ depth then .syntaxError
          else
            match skipWs rest with
            | ']' :: rest' => .done (.arr []) rest'
            | rest' => parseElements fuel (depth + 1) rest' []
        else if c = '{' then
          if maxNestingDepth ≤ depth then .syntaxError
          else
            match skipWs rest with
            | '}' :: rest' => .done (.obj []) rest'
            | rest' => parseMembers fuel (depth + 1) rest' []
        else if c = 't' then parseLiteral ['r', 'u', 'e'] (.bool true) rest
        else if c = 'f' then parseLiteral ['a', 'l', 's', 'e'] (.bool false) rest
        else if c = 'n' then parseLiteral ['u', 'l', 'l'] .null rest
        else parseNumber cs := by
  rfl

/-- Unfolding of `parseElements` at a positive budget. -/
theorem parseElements_succ (fuel depth : Nat) (cs : List Char) (acc : List JSON) :
    parseElements (fuel + 1) depth cs acc =
      match parseValue fuel depth cs with
      | .done v rest =>
        match skipWs rest with
        | ',' :: rest' => parseElements fuel depth (skipWs rest') (v :: acc)
        | ']' :: rest' => .done (.arr (v :: acc).reverse) rest'
        | _ => .syntaxError
      | .syntaxError => .syntaxError
      | .outOfFuel => .outOfFuel := by
  rfl

/-- Unfolding of `parseMembers` at a positive budget. -/
theorem parseMembers_succ (fuel depth : Nat) (cs : List Char) (acc : List (String × JSON)) :
    parseMembers (fuel + 1) depth cs acc =
      match cs with
      | '"' :: rest =>
        match parseStringBody (rest.length + 1) rest [] with
        | .done k rest1 =>
          match skipWs rest1 with
          | ':' :: rest2 =>
            match parseValue fuel depth (skipWs rest2) with
            | .done v rest3 =>
              match skipWs rest3 with
              | ',' :: rest4 => parseMembers fuel depth (skipWs rest4) ((k, v) :: acc)
              | '}' :: rest4 => .done (.obj ((k, v) :: acc).reverse) rest4
              | _ => .syntaxError
            | .syntaxError => .syntaxError
            | .outOfFuel => .outOfFuel
          | _ => .syntaxError
        | .syntaxError => .syntaxError
        | .outOfFuel => .outOfFuel
      | _ => .syntaxError := by
  rfl

/-- A character found after skipping whitespace is a character of the input. -/
theorem length_of_skipWs_eq (cs rest : List Char) (c : Char) (h : skipWs cs = c :: rest) :
    rest.length < cs.length := by
  have := skipWs_length cs
  rw [h] at this
  exact this

/-- A literal name never runs out of fuel and does not lengthen the input. -/
theorem parseLiteral_consumes (word : List Char) (v : JSON) (cs : List Char) :
    (parseLiteral word v cs).consumes (cs.length + 1) := by
  unfold parseLiteral
  split
  · show (cs.drop word.length).length < cs.length + 1
    simp only [List.length_drop]
    omega
  · trivial

/-- Induction step of `parse_consumes` for `parseValue`. -/
theorem parseValue_step (fuel : Nat)
    (ihE : ∀ depth cs acc, 2 * cs.length + 2 ≤ fuel →
        (parseElements fuel depth cs acc).consumes cs.length)
    (ihM : ∀ depth cs acc, 2 * cs.length + 2 ≤ fuel →
        (parseMembers fuel depth cs acc).consumes cs.length)
    (depth : Nat) (cs : List Char) (h : 2 * cs.length + 1 ≤ fuel + 1) :
    (parseValue (fuel + 1) depth cs).consumes cs.length := by
  rw [parseValue_succ]
  cases cs with
  | nil => trivial
  | cons c rest =>
    simp only [List.length_cons] at h ⊢
    split
    · have hs := parseStringBody_consumes (rest.length + 1) rest [] (by omega)
      cases hr : parseStringBody (rest.length + 1) rest [] with
      | done s rest2 =>
        rw [hr] at hs
        exact Nat.lt_succ_of_lt hs
      | syntaxError => trivial
      | outOfFuel =>
        rw [hr] at hs
        exact hs
    · split
      · split
        · trivial
        · split
          · rename_i rest2 heq
            have := length_of_skipWs_eq _ _ _ heq
            show rest2.length < rest.length + 1
            omega
          · have hl := skipWs_length rest
            exact Parse.consumes_mono _ _ _ (ihE _ (skipWs rest) [] (by omega)) (by omega)
      · split
        · split
          · trivial
          · split
            · rename_i rest2 heq
              have := length_of_skipWs_eq _ _ _ heq
              show rest2.length < rest.length + 1
              omega
            · have hl := skipWs_length rest
              exact Parse.consumes_mono _ _ _ (ihM _ (skipWs rest) [] (by omega)) (by omega)
        · split
          · exact parseLiteral_consumes _ _ _
          · split
            · exact parseLiteral_consumes _ _ _
            · split
              · exact parseLiteral_consumes _ _ _
              · exact Parse.consumes_mono _ _ _ (parseNumber_consumes (c :: rest))
                  (by simp)

/-- Induction step of `parse_consumes` for `parseElements`. -/
theorem parseElements_step (fuel : Nat)
    (ihV : ∀ depth cs, 2 * cs.length + 1 ≤ fuel → (parseValue fuel depth cs).consumes cs.length)
    (ihE : ∀ depth cs acc, 2 * cs.length + 2 ≤ fuel →
        (parseElements fuel depth cs acc).consumes cs.length)
    (depth : Nat) (cs : List Char) (acc : List JSON) (h : 2 * cs.length + 2 ≤ fuel + 1) :
    (parseElements (fuel + 1) depth cs acc).consumes cs.length := by
  rw [parseElements_succ]
  have hv := ihV depth cs (by omega)
  cases hr : parseValue fuel depth cs with
  | done v rest =>
    rw [hr] at hv
    have hv : rest.length < cs.length := hv
    dsimp only
    split
    · rename_i rest2 heq
      have h1 := length_of_skipWs_eq _ _ _ heq
      have h2 := skipWs_length rest2
      exact Parse.consumes_mono _ _ _ (ihE _ (skipWs rest2) _ (by omega)) (by omega)
    · rename_i rest2 heq
      have h1 := length_of_skipWs_eq _ _ _ heq
      show rest2.length < cs.length
      omega
    · trivial
  | syntaxError => trivial
  | outOfFuel =>
    rw [hr] at hv
    exact hv

/-- Induction step of `parse_consumes` for `parseMembers`. -/
theorem parseMembers_step (fuel : Nat)
    (ihV : ∀ depth cs, 2 * cs.length + 1 ≤ fuel → (parseValue fuel depth cs).consumes cs.length)
    (ihM : ∀ depth cs acc, 2 * cs.length + 2 ≤ fuel →
        (parseMembers fuel depth cs acc).consumes cs.length)
    (depth : Nat) (cs : List Char) (acc : List (String × JSON))
    (h : 2 * cs.length + 2 ≤ fuel + 1) :
    (parseMembers (fuel + 1) depth cs acc).consumes cs.length := by
  rw [parseMembers_succ]
  split
  · rename_i rest
    simp only [List.length_cons] at h ⊢
    have hs := parseStringBody_consumes (rest.length + 1) rest [] (by omega)
    cases hr : parseStringBody (rest.length + 1) rest [] with
    | done k rest1 =>
      rw [hr] at hs
      have hs : rest1.length < rest.length := hs
      dsimp only
      split
      · rename_i rest2 heq
        have h1 := length_of_skipWs_eq _ _ _ heq
        have h2 := skipWs_length rest2
        have hv := ihV depth (skipWs rest2) (by omega)
        cases hr2 : parseValue fuel depth (skipWs rest2) with
        | done v rest3 =>
          rw [hr2] at hv
          have hv : rest3.length < (skipWs rest2).length := hv
          dsimp only
          split
          · rename_i rest4 heq4
            have h3 := length_of_skipWs_eq _ _ _ heq4
            have h4 := skipWs_length rest4
            exact Parse.consumes_mono _ _ _ (ihM _ (skipWs rest4) _ (by omega)) (by omega)
          · rename_i rest4 heq4
            have h3 := length_of_skipWs_eq _ _ _ heq4
            show rest4.length < rest.length + 1
            omega
          · trivial
        | syntaxError => trivial
        | outOfFuel =>
          rw [hr2] at hv
          exact hv
      · trivial
    | syntaxError => trivial
    | outOfFuel =>
      rw [hr] at hs
      exact hs
  · trivial

/-- With a budget of at least twice the length of the input the parser does
not run out of fuel, and a parsed value has consumed input. -/
theorem parse_consumes (fuel : Nat) :
    (∀ depth cs, 2 * cs.length + 1 ≤ fuel → (parseValue fuel depth cs).consumes cs.length) ∧
      (∀ depth cs acc, 2 * cs.length + 2 ≤ fuel →
        (parseElements fuel depth cs acc).consumes cs.length) ∧
      (∀ depth cs acc, 2 * cs.length + 2 ≤ fuel →
        (parseMembers fuel depth cs acc).consumes cs.length) := by
  induction fuel with
  | zero =>
    exact ⟨fun _ _ h => absurd h (by omega), fun _ _ _ h => absurd h (by omega),
      fun _ _ _ h => absurd h (by omega)⟩
  | succ fuel ih =>
    exact ⟨parseValue_step fuel ih.2.1 ih.2.2, parseElements_step fuel ih.1 ih.2.1,
      parseMembers_step fuel ih.1 ih.2.2⟩

/-- The recursion budget of `parseDocument` is never exhausted. -/
theorem parseDocument_fuel (cs : List Char) : parseDocument cs ≠ .outOfFuel := by
  unfold parseDocument
  have hl := skipWs_length cs
  have hv := Parse.consumes_mono _ _ cs.length
    ((parse_consumes (2 * cs.length + 2)).1 0 (skipWs cs) (by omega)) hl
  cases hr : parseValue (2 * cs.length + 2) 0 (skipWs cs) with
  | done v rest =>
    dsimp only
    split <;> simp
  | syntaxError => simp
  | outOfFuel =>
    rw [hr] at hv
    exact absurd hv (by simp [Parse.consumes])

/-! ## Errors of `NewIgnoredList` -/

/-- Claim C11. `NewIgnoredList` returns an empty list and no error when the
file does not exist, and an error and no list for every other failure: an
open error other than "does not exist", an I/O error while reading, or a line
that exceeds the scanner's buffer. -/
theorem NewIgnoredList_failures (taskDir : String) :
    (∃ l, NewIgnoredList taskDir .notExist = .ok l ∧ l.entries = []) ∧
      NewIgnoredList taskDir .openError = .error .open_ ∧
      (∀ content readError, readError = true ∨ scanLines content.toList = none →
        NewIgnoredList taskDir (.opened content readError) = .error .read) := by
  refine ⟨⟨_, rfl, rfl⟩, rfl, ?_⟩
  rintro content readError (h | h)
  · simp [NewIgnoredList, h]
  · unfold NewIgnoredList
    cases readError
    · simp only [Bool.false_eq_true, if_false]
      rw [h]
    · simp

/-- Witness of C11: a read that fails on a file with content. -/
theorem NewIgnoredList_failures_witness :
    NewIgnoredList "task" (.opened "file1.go\n" true) = .error .read :=
  (NewIgnoredList_failures "task").2.2 "file1.go\n" true (Or.inl rfl)

/-! ## Properties of `SelectCandidate` -/

/-- Claim C13. `SelectCandidate cs L` is the candidate at the least index whose
key `L` does not contain, and it is `none` (nil) exactly when `L` contains the
key of every candidate of `cs`. -/
theorem SelectCandidate_first (cs : List Candidate) (L : IgnoredList) :
    (∀ c, SelectCandidate cs L = some c ↔
        ∃ i, ∃ h : i < cs.length, cs.get ⟨i, h⟩ = c ∧ L.Contains c.Key = false ∧
          ∀ j, ∀ hj : j < cs.length, j < i → L.Contains (cs.get ⟨j, hj⟩).Key = true) ∧
      (SelectCandidate cs L = none ↔ ∀ c ∈ cs, L.Contains c.Key = true) := by
  induction cs with
  | nil =>
    refine ⟨fun c => ?_, by simp [SelectCandidate]⟩
    simp only [SelectCandidate, List.length_nil]
    constructor
    · intro h
      cases h
    · rintro ⟨i, h, -⟩
      exact absurd h (Nat.not_lt_zero i)
  | cons d rest ih =>
    obtain ⟨ihsome, ihnone⟩ := ih
    cases hd : L.Contains d.Key with
    | false =>
      refine ⟨fun c => ?_, ?_⟩
      · simp only [SelectCandidate, hd, Bool.not_false, if_true, Option.some.injEq]
        constructor
        · rintro rfl
          exact ⟨0, by simp, rfl, hd, fun j _ hj => absurd hj (Nat.not_lt_zero j)⟩
        · rintro ⟨i, h, hget, -, hbefore⟩
          cases i with
          | zero => simpa using hget
          | succ i =>
            have := hbefore 0 (by simp) (Nat.succ_pos i)
            simp only [List.get_eq_getElem, List.getElem_cons_zero] at this
            rw [hd] at this
            cases this
      · simp only [SelectCandidate, hd, Bool.not_false, if_true]
        constructor
        · intro h
          cases h
        · intro h
          have := h d (List.mem_cons_self _ _)
          rw [hd] at this
          cases this
    | true =>
      have hstep : SelectCandidate (d :: rest) L = SelectCandidate rest L := by
        simp [SelectCandidate, hd]
      refine ⟨fun c => ?_, ?_⟩
      · rw [hstep, ihsome c]
        constructor
        · rintro ⟨i, h, hget, hc, hbefore⟩
          refine ⟨i + 1, by simpa using h, by simpa using hget, hc, ?_⟩
          intro j hj hji
          cases j with
          | zero => simpa using hd
          | succ j =>
            have := hbefore j (by simpa using hj) (by omega)
            simpa using this
        · rintro ⟨i, h, hget, hc, hbefore⟩
          cases i with
          | zero =>
            simp only [List.get_eq_getElem, List.getElem_cons_zero] at hget
            rw [← hget, hd] at hc
            cases hc
          | succ i =>
            refine ⟨i, by simpa using h, by simpa using hget, hc, ?_⟩
            intro j hj hji
            have := hbefore (j + 1) (by simpa using hj) (by omega)
            simpa using this
      · rw [hstep, ihnone]
        constructor
        · intro h c hc
          rcases List.mem_cons.mp hc with rfl | hc
          · exact hd
          · exact h c hc
        · intro h c hc
          exact h c (List.mem_cons_of_mem _ hc)

/-- The candidate selected in the first `TestSelectCandidate` case. -/
theorem SelectCandidate_example :
    SelectCandidate [⟨"file1.go", []⟩, ⟨"file2.go", []⟩, ⟨"file3.go", []⟩, ⟨"file4.go", []⟩]
        ⟨"task/ignored.log", ["file1.go", "file2.go"]⟩ = some ⟨"file3.go", []⟩ ∧
      SelectCandidate [⟨"file1.go", []⟩, ⟨"file2.go", []⟩]
        ⟨"task/ignored.log", ["file1.go", "file2.go"]⟩ = none := by
  decide

/-! ## The repeat mode of the tracker -/

/-- Claim C12. In the tracker modelled from the specification, after
`SetMaxRepeat 3` a key that was not loaded is not contained; it is still not
contained after one and after two `Add` calls, which return no error and leave
the file as it was; the third `Add` makes it contained and appends it to the
file; and every key that was loaded is contained as soon as `SetMaxRepeat 3`
has been called. -/
theorem Tracker_repeat_mode (l : IgnoredList) (disk : Option String) (key : String)
    (io1 io2 : AppendIO) (t0 : Tracker) (r1 r2 r3 : TrackerResult)
    (hnew : l.Contains key = false)
    (h0 : t0 = (Tracker.ofList l).SetMaxRepeat 3)
    (h1 : r1 = t0.Add disk io1 key)
    (h2 : r2 = r1.tracker.Add r1.disk io2 key)
    (h3 : r3 = r2.tracker.Add r2.disk .succeeds key) :
    t0.Contains key = false ∧
      (r1.err = none ∧ r1.tracker.Contains key = false ∧ r1.disk = disk) ∧
      (r2.err = none ∧ r2.tracker.Contains key = false ∧ r2.disk = disk) ∧
      (r3.err = none ∧ r3.tracker.Contains key = true ∧
        r3.disk = some (disk.getD "" ++ (key ++ "\n"))) ∧
      (∀ k, l.Contains k = true → t0.Contains k = true) := by
  have hadd : l.Add disk .succeeds key
      = { err := none, list := { l with entries := setEntry l.entries key },
          disk := some (disk.getD "" ++ (key ++ "\n")) } := by
    simp [IgnoredList.Add, hnew]
  subst h0
  have f1 : r1.err = none ∧ r1.disk = disk ∧ r1.tracker.maxRepeat = 3 ∧
      r1.tracker.attempts key = 1 ∧ r1.tracker.list = l := by
    subst h1
    simp [Tracker.Add, Tracker.SetMaxRepeat, Tracker.ofList, hnew]
  obtain ⟨f1e, f1d, f1m, f1a, f1l⟩ := f1
  have f2 : r2.err = none ∧ r2.disk = disk ∧ r2.tracker.maxRepeat = 3 ∧
      r2.tracker.attempts key = 2 ∧ r2.tracker.list = l := by
    subst h2
    simp [Tracker.Add, f1d, f1m, f1a, f1l]
  obtain ⟨f2e, f2d, f2m, f2a, f2l⟩ := f2
  have f3 : r3.err = none ∧ r3.disk = some (disk.getD "" ++ (key ++ "\n")) ∧
      r3.tracker.maxRepeat = 3 ∧ r3.tracker.attempts key = 3 := by
    subst h3
    simp [Tracker.Add, f2d, f2m, f2a, f2l, hadd]
  obtain ⟨f3e, f3d, f3m, f3a⟩ := f3
  refine ⟨?_, ⟨f1e, ?_, f1d⟩, ⟨f2e, ?_, f2d⟩, ⟨f3e, ?_, f3d⟩, ?_⟩
  · simp [Tracker.Contains, Tracker.SetMaxRepeat, Tracker.ofList, hnew]
  · simp [Tracker.Contains, f1m, f1a]
  · simp [Tracker.Contains, f2m, f2a]
  · simp [Tracker.Contains, f3m, f3a]
  · intro k hk
    simp [Tracker.Contains, Tracker.SetMaxRepeat, Tracker.ofList, hk]

/-- Witness of C12: the list loaded from a file with two keys, and a new key
added three times. -/
theorem Tracker_repeat_mode_witness :
    ((Tracker.ofList ⟨"task/ignored.log", ["func1", "func2"]⟩).SetMaxRepeat 3).Contains
        "newFunc" = false ∧
      ((((((Tracker.ofList ⟨"task/ignored.log", ["func1", "func2"]⟩).SetMaxRepeat 3).Add
          (some "func1\nfunc2\n") .openFails "newFunc").tracker.Add
          (some "func1\nfunc2\n") .openFails "newFunc").tracker.Add
          (some "func1\nfunc2\n") .succeeds "newFunc").disk
        = some ("func1\nfunc2\n" ++ ("newFunc" ++ "\n"))) :=
  have h := Tracker_repeat_mode ⟨"task/ignored.log", ["func1", "func2"]⟩
    (some "func1\nfunc2\n") "newFunc" .openFails .openFails _ _ _ _ (by decide) rfl rfl rfl rfl
  ⟨h.1, h.2.2.2.1.2.2⟩

/-! ## `strings.ReplaceAll` around placeholders -/

/-- Unfolding of the scan at the end of the text. -/
theorem replaceAux_nil (old new : List Char) (skip : Nat) : replaceAux old new skip [] = [] := by
  cases skip <;> rfl

/-- Unfolding of the scan while a match is passed over. -/
theorem replaceAux_succ_cons (old new : List Char) (skip : Nat) (c : Char) (cs : List Char) :
    replaceAux old new (skip + 1) (c :: cs) = replaceAux old new skip cs :=
  rfl

/-- Unfolding of the scan at a character. -/
theorem replaceAux_zero_cons (old new : List Char) (c : Char) (cs : List Char) :
    replaceAux old new 0 (c :: cs) =
      if old.isPrefixOf (c :: cs) then new ++ replaceAux old new (old.length - 1) cs
      else c :: replaceAux old new 0 cs :=
  rfl

/-- A text without `$` is a prefix of a text continued by `$` only if it is a
prefix of the part before the `$`. -/
theorem isPrefixOf_append_dollar (o x t : List Char) (ho : '$' ∉ o) :
    o.isPrefixOf (x ++ '$' :: t) = o.isPrefixOf x := by
  induction o generalizing x with
  | nil => simp [List.isPrefixOf]
  | cons a o ih =>
    have ha : a ≠ '$' := fun h => ho (by simp [h])
    have ho' : '$' ∉ o := fun h => ho (List.mem_cons_of_mem _ h)
    cases x with
    | nil => simp [List.isPrefixOf, ha]
    | cons b x => simp [List.isPrefixOf, ih x ho']

/-- A match has the length of `old` at most. -/
theorem length_le_of_isPrefixOf (old cs : List Char) (h : old.isPrefixOf cs = true) :
    old.length ≤ cs.length :=
  (List.isPrefixOf_iff_prefix.mp h).length_le

/-- A scan for a placeholder does not look across a following `$`: the text
before it and the text from it on are scanned independently. -/
theorem replaceAux_barrier (o new a t : List Char) (ho : '$' ∉ o) (skip : Nat)
    (hskip : skip ≤ a.length) :
    replaceAux ('$' :: o) new skip (a ++ '$' :: t)
      = replaceAux ('$' :: o) new skip a ++ replaceAux ('$' :: o) new 0 ('$' :: t) := by
  induction a generalizing skip with
  | nil =>
    have : skip = 0 := by simpa using hskip
    subst this
    simp [replaceAux_nil]
  | cons c cs ih =>
    cases skip with
    | succ k =>
      rw [List.cons_append, replaceAux_succ_cons, replaceAux_succ_cons]
      exact ih k (by simpa using hskip)
    | zero =>
      have hp : ('$' :: o).isPrefixOf (c :: (cs ++ '$' :: t))
          = ('$' :: o).isPrefixOf (c :: cs) := by
        simp [List.isPrefixOf, isPrefixOf_append_dollar o cs t ho]
      rw [List.cons_append, replaceAux_zero_cons, replaceAux_zero_cons, hp]
      by_cases hm : ('$' :: o).isPrefixOf (c :: cs) = true
      · have hl := length_le_of_isPrefixOf _ _ hm
        simp only [List.length_cons] at hl
        simp only [hm, if_true, List.length_cons, Nat.add_sub_cancel, List.append_assoc]
        rw [ih o.length (by omega)]
      · simp only [hm, if_false, Bool.false_eq_true, List.cons_append]
        rw [ih 0 (Nat.zero_le _)]

/-- The characters still to be passed over are passed over. -/
theorem replaceAux_skip (old new x b : List Char) :
    replaceAux old new x.length (x ++ b) = replaceAux old new 0 b := by
  induction x with
  | nil => rfl
  | cons c x ih =>
    rw [List.cons_append, List.length_cons, replaceAux_succ_cons]
    exact ih

/-- An occurrence of `old` at the head of the text is replaced by `new`, and
the scan goes on after it. -/
theorem replaceAux_self (c : Char) (o new b : List Char) :
    replaceAux (c :: o) new 0 (c :: o ++ b) = new ++ replaceAux (c :: o) new 0 b := by
  have hp : (c :: o).isPrefixOf (c :: (o ++ b)) = true :=
    List.isPrefixOf_iff_prefix.mpr (List.prefix_append (c :: o) b)
  rw [List.cons_append, replaceAux_zero_cons, hp]
  simp only [if_true, List.length_cons, Nat.add_sub_cancel]
  rw [replaceAux_skip]

/-- Text without `$` is copied by a scan for a placeholder. -/
theorem replaceAux_no_dollar (o new x b : List Char) (hx : '$' ∉ x) :
    replaceAux ('$' :: o) new 0 (x ++ b) = x ++ replaceAux ('$' :: o) new 0 b := by
  induction x with
  | nil => rfl
  | cons c x ih =>
    have hc : c ≠ '$' := fun h => hx (by simp [h])
    have hx' : '$' ∉ x := fun h => hx (List.mem_cons_of_mem _ h)
    have hp : ('$' :: o).isPrefixOf (c :: (x ++ b)) = false := by
      simp [List.isPrefixOf, Ne.symm hc]
    rw [List.cons_append, replaceAux_zero_cons, hp]
    simp only [Bool.false_eq_true, if_false, List.cons_append]
    rw [ih hx']

/-- A token that begins with `$` and another second character than the
placeholder searched for is copied, and the scan goes on after it. -/
theorem replaceAux_foreign (a b : Char) (o new t rest : List Char) (hab : a ≠ b)
    (ht : '$' ∉ b :: t) :
    replaceAux ('$' :: a :: o) new 0 ('$' :: b :: t ++ rest)
      = '$' :: b :: t ++ replaceAux ('$' :: a :: o) new 0 rest := by
  have hp : ('$' :: a :: o).isPrefixOf ('$' :: (b :: t ++ rest)) = false := by
    simp [List.isPrefixOf, hab]
  rw [List.cons_append, replaceAux_zero_cons, hp]
  simp only [Bool.false_eq_true, if_false, List.cons_append]
  have := replaceAux_no_dollar (a :: o) new (b :: t) rest ht
  simp only [List.cons_append] at this
  rw [this]

/-- `strings.ReplaceAll` for a placeholder that begins with `$`, on lists. -/
theorem replaceAll_dollar (s old new : String) (o : List Char) (hold : old.data = '$' :: o) :
    replaceAll s old new = String.mk (replaceAux ('$' :: o) new.data 0 s.data) := by
  simp [replaceAll, replaceAllChars, hold]

/-- Replacing in the empty text gives the empty text. -/
theorem replaceAll_empty (old new : String) (o : List Char) (hold : old.data = '$' :: o) :
    replaceAll "" old new = "" := by
  rw [replaceAll_dollar _ _ _ o hold]
  rfl

/-- A token with another second character than the placeholder is left as it
is by `ReplaceAll`, and the texts before and after it are replaced in
independently. -/
theorem replaceAll_split_foreign (old tok : String) (a b : Char) (o t : List Char)
    (hold : old.data = '$' :: a :: o) (ho : '$' ∉ a :: o)
    (htok : tok.data = '$' :: b :: t) (ht : '$' ∉ b :: t) (hab : a ≠ b)
    (pre post new : String) :
    replaceAll (pre ++ tok ++ post) old new
      = replaceAll pre old new ++ tok ++ replaceAll post old new := by
  rw [replaceAll_dollar _ _ _ _ hold, replaceAll_dollar _ _ _ _ hold,
    replaceAll_dollar _ _ _ _ hold]
  apply String.ext
  have h1 := replaceAux_barrier (a :: o) new.data pre.data (b :: t ++ post.data) ho 0
    (Nat.zero_le _)
  have h2 := replaceAux_foreign a b o new.data t post.data hab ht
  simp only [String.data_append, htok, List.append_assoc, List.cons_append] at h1 h2 ⊢
  rw [h1, h2]

/-- An occurrence of the placeholder is replaced, and the texts before and
after it are replaced in independently. -/
theorem replaceAll_split_self (old : String) (o : List Char)
    (hold : old.data = '$' :: o) (ho : '$' ∉ o) (pre post new : String) :
    replaceAll (pre ++ old ++ post) old new
      = replaceAll pre old new ++ new ++ replaceAll post old new := by
  rw [replaceAll_dollar _ _ _ _ hold, replaceAll_dollar _ _ _ _ hold,
    replaceAll_dollar _ _ _ _ hold]
  apply String.ext
  have h1 := replaceAux_barrier o new.data pre.data (o ++ post.data) ho 0 (Nat.zero_le _)
  have h2 := replaceAux_self '$' o new.data post.data
  simp only [String.data_append, hold, List.append_assoc, List.cons_append] at h1 h2 ⊢
  rw [h1, h2]

/-- A beginning of the text without `$` is copied by `ReplaceAll` of a
placeholder. -/
theorem replaceAll_no_dollar (old : String) (o : List Char) (hold : old.data = '$' :: o)
    (pre rest new : String) (hpre : '$' ∉ pre.data) :
    replaceAll (pre ++ rest) old new = pre ++ replaceAll rest old new := by
  rw [replaceAll_dollar _ _ _ _ hold, replaceAll_dollar _ _ _ _ hold]
  apply String.ext
  have h1 := replaceAux_no_dollar o new.data pre.data rest.data hpre
  simp only [String.data_append] at h1 ⊢
  rw [h1]

/-- A text without `$` is left as it is by `ReplaceAll` of a placeholder. -/
theorem replaceAll_id (old : String) (o : List Char) (hold : old.data = '$' :: o)
    (s new : String) (hs : '$' ∉ s.data) : replaceAll s old new = s := by
  have h := replaceAll_no_dollar old o hold s "" new hs
  rw [replaceAll_empty old new o hold] at h
  simpa using h

/-- A decimal digit is not `$`. -/
theorem digitChar_ne_dollar (d : Nat) (hd : d < 10) : Nat.digitChar d ≠ '$' := by
  interval_cases d <;> decide

/-- The digits produced by `toDigitsCore` are not `$`. -/
theorem toDigitsCore_no_dollar (fuel n : Nat) (acc : List Char) (hacc : '$' ∉ acc) :
    '$' ∉ Nat.toDigitsCore 10 fuel n acc := by
  induction fuel generalizing n acc with
  | zero => simpa [Nat.toDigitsCore] using hacc
  | succ fuel ih =>
    have hd : '$' ∉ Nat.digitChar (n % 10) :: acc := by
      intro h
      rcases List.mem_cons.mp h with h | h
      · exact digitChar_ne_dollar _ (Nat.mod_lt _ (by decide)) h.symm
      · exact hacc h
    simp only [Nat.toDigitsCore]
    split
    · exact hd
    · exact ih _ _ hd

/-- The decimal text of a number has no `$`. -/
theorem repr_no_dollar (n : Nat) : '$' ∉ (Nat.repr n).data := by
  simp only [Nat.repr, List.asString, Nat.toDigits]
  exact toDigitsCore_no_dollar _ _ _ (by simp)

/-- The placeholder `$ARGUMENT_n` begins with `$A` and has no other `$`. -/
theorem argumentPlaceholder_data (n : Nat) :
    ∃ o, (argumentPlaceholder n).data = '$' :: 'A' :: o ∧ '$' ∉ 'A' :: o := by
  refine ⟨"RGUMENT_".data ++ (Nat.repr n).data, ?_, ?_⟩
  · simp [argumentPlaceholder, String.data_append]
  · intro h
    rcases List.mem_cons.mp h with h | h
    · exact absurd h (by decide)
    · rcases List.mem_append.mp h with h | h
      · exact absurd h (by decide)
      · exact repr_no_dollar n h

/-- A scan for a text that does not occur copies the text. -/
theorem replaceAux_absent (old new s : List Char) (h : occursIn old s = false) :
    replaceAux old new 0 s = s := by
  induction s with
  | nil => rfl
  | cons c cs ih =>
    simp only [occursIn, Bool.or_eq_false_iff] at h
    rw [replaceAux_zero_cons, h.1]
    simp only [Bool.false_eq_true, if_false]
    rw [ih h.2]

/-- `ReplaceAll` of a placeholder that does not occur returns the text. -/
theorem replaceAll_absent (s old new : String) (o : List Char) (hold : old.data = '$' :: o)
    (h : occursIn old.data s.data = false) : replaceAll s old new = s := by
  rw [replaceAll_dollar _ _ _ o hold]
  apply String.ext
  rw [hold] at h
  exact replaceAux_absent _ _ _ h

/-- What holds of a text holds of the text without its first characters. -/
theorem strayDollarsInert_drop (s : List Char) (k : Nat) (h : strayDollarsInert s = true) :
    strayDollarsInert (s.drop k) = true := by
  induction s generalizing k with
  | nil => simpa using h
  | cons c cs ih =>
    cases k with
    | zero => simpa using h
    | succ k =>
      simp only [strayDollarsInert, Bool.and_eq_true] at h
      simpa using ih k h.2

/-- A text without `$` before a text in which no placeholder begins. -/
theorem dollarsInert_append (a b : List Char) (ha : '$' ∉ a) (hb : dollarsInert b = true) :
    dollarsInert (a ++ b) = true := by
  induction a with
  | nil => exact hb
  | cons c a ih =>
    have hc : c ≠ '$' := fun h => ha (by simp [h])
    have ha' : '$' ∉ a := fun h => ha (List.mem_cons_of_mem _ h)
    simp only [List.cons_append, dollarsInert, Bool.and_eq_true, Bool.or_eq_true, bne_iff_ne,
      ne_eq]
    exact ⟨Or.inl hc, ih ha'⟩

/-- After the occurrences of `$ARGUMENT` have been replaced by a text without
`$`, no placeholder begins in the result if every other `$` of the text was
inert. -/
theorem replaceAux_inert (new : List Char) (hnew : '$' ∉ new) (s : List Char) (skip : Nat)
    (h : strayDollarsInert (s.drop skip) = true) :
    dollarsInert (replaceAux "$ARGUMENT".data new skip s) = true := by
  induction s generalizing skip with
  | nil =>
    rw [replaceAux_nil]
    rfl
  | cons c cs ih =>
    cases skip with
    | succ k =>
      rw [replaceAux_succ_cons]
      exact ih k (by simpa using h)
    | zero =>
      rw [replaceAux_zero_cons]
      simp only [List.drop_zero, strayDollarsInert, Bool.and_eq_true, Bool.or_eq_true,
        bne_iff_ne, ne_eq] at h
      by_cases hm : "$ARGUMENT".data.isPrefixOf (c :: cs) = true
      · rw [if_pos hm]
        exact dollarsInert_append _ _ hnew (ih _ (strayDollarsInert_drop _ _ h.2))
      · rw [if_neg hm]
        have hrest := ih 0 (by simpa using h.2)
        simp only [dollarsInert, Bool.and_eq_true, Bool.or_eq_true, bne_iff_ne, ne_eq]
        refine ⟨?_, hrest⟩
        by_cases hc : c = '$'
        · right
          cases cs with
          | nil =>
            rw [replaceAux_nil]
          | cons d ds =>
            have hnext : (d != 'A' && d != 'R' && d != '$') = true := by
              rcases h.1 with (h1 | h1) | h1
              · exact absurd hc h1
              · exact absurd h1 hm
              · exact h1
            simp only [Bool.and_eq_true, bne_iff_ne, ne_eq] at hnext
            have hp : "$ARGUMENT".data.isPrefixOf (d :: ds) = false := by
              have hd : ¬ '$' = d := fun e => hnext.2 e.symm
              simp [List.isPrefixOf, hd]
            rw [replaceAux_zero_cons, hp]
            simp only [Bool.false_eq_true, if_false, Bool.and_eq_true, bne_iff_ne, ne_eq]
            exact hnext.1
        · exact Or.inl hc

/-- A placeholder, which begins with `$A` or `$R`, does not occur in a text in
which no placeholder begins. -/
theorem dollarsInert_not_occurs (b : Char) (o r : List Char) (hb : b = 'A' ∨ b = 'R')
    (h : dollarsInert r = true) : occursIn ('$' :: b :: o) r = false := by
  induction r with
  | nil => rfl
  | cons c cs ih =>
    simp only [dollarsInert, Bool.and_eq_true, Bool.or_eq_true, bne_iff_ne, ne_eq] at h
    simp only [occursIn, Bool.or_eq_false_iff]
    refine ⟨?_, ih h.2⟩
    rcases h.1 with h1 | h1
    · have : ¬ '$' = c := fun e => h1 e.symm
      simp [List.isPrefixOf, this]
    · cases cs with
      | nil => simp [List.isPrefixOf]
      | cons d ds =>
        simp only [Bool.and_eq_true, bne_iff_ne, ne_eq] at h1
        have hd : ¬ b = d := by
          rcases hb with rfl | rfl
          · exact fun e => h1.1 e.symm
          · exact fun e => h1.2 e.symm
        simp [List.isPrefixOf, hd]

/-! ## Properties of `InterpolatePrompt` -/

/-- The placeholder loop, split at a token that does not begin with `$A`. -/
theorem argumentLoop_split_foreign (tok : String) (b : Char) (t : List Char)
    (htok : tok.data = '$' :: b :: t) (ht : '$' ∉ b :: t) (hb : 'A' ≠ b)
    (elems : List String) (i : Nat) (pre post : String) :
    argumentLoop i elems (pre ++ tok ++ post)
      = argumentLoop i elems pre ++ tok ++ argumentLoop i elems post := by
  induction elems generalizing i pre post with
  | nil => rfl
  | cons elem rest ih =>
    obtain ⟨o, hold, ho⟩ := argumentPlaceholder_data (i + 1)
    simp only [argumentLoop]
    rw [replaceAll_split_foreign _ tok 'A' b o t hold ho htok ht hb, ih]

/-- The placeholder loop copies a beginning of the text without `$`. -/
theorem argumentLoop_no_dollar (elems : List String) (i : Nat) (pre rest : String)
    (hpre : '$' ∉ pre.data) :
    argumentLoop i elems (pre ++ rest) = pre ++ argumentLoop i elems rest := by
  induction elems generalizing i rest with
  | nil => rfl
  | cons elem more ih =>
    obtain ⟨o, hold, -⟩ := argumentPlaceholder_data (i + 1)
    simp only [argumentLoop]
    rw [replaceAll_no_dollar _ _ hold _ _ _ hpre, ih]

/-- The placeholder loop leaves the empty text empty. -/
theorem argumentLoop_empty (elems : List String) (i : Nat) : argumentLoop i elems "" = "" := by
  induction elems generalizing i with
  | nil => rfl
  | cons elem more ih =>
    obtain ⟨o, hold, -⟩ := argumentPlaceholder_data (i + 1)
    simp only [argumentLoop]
    rw [replaceAll_empty _ _ _ hold, ih]

/-- `InterpolatePrompt` as its three stages; the text put for
`$REMAINING_ARGUMENTS` is in both branches the join of the elements after the
first. -/
theorem InterpolatePrompt_eq (template : String) (c : Candidate) :
    InterpolatePrompt template c =
      replaceAll
        (argumentLoop 0 c.Elements
          (match c.Elements with
            | first :: _ => replaceAll template "$ARGUMENT" first
            | [] => template))
        "$REMAINING_ARGUMENTS" (stringsJoin (c.Elements.drop 1) ", ") := by
  unfold InterpolatePrompt
  rcases hE : c.Elements with _ | ⟨e0, _ | ⟨e1, rest⟩⟩
  · simp [stringsJoin]
  · simp [stringsJoin]
  · simp

/-- A token that begins with `$` followed by a character other than `A` and
`R` is copied to the output, and the texts before and after it are
interpolated independently. -/
theorem InterpolatePrompt_split_foreign (tok : String) (b : Char) (t : List Char)
    (htok : tok.data = '$' :: b :: t) (ht : '$' ∉ b :: t) (hA : 'A' ≠ b) (hR : 'R' ≠ b)
    (pre post : String) (c : Candidate) :
    InterpolatePrompt (pre ++ tok ++ post) c
      = InterpolatePrompt pre c ++ tok ++ InterpolatePrompt post c := by
  have hArg : "$ARGUMENT".data = '$' :: 'A' :: "RGUMENT".data := rfl
  have hArg' : '$' ∉ 'A' :: "RGUMENT".data := by decide
  have hRem : "$REMAINING_ARGUMENTS".data = '$' :: 'R' :: "EMAINING_ARGUMENTS".data := rfl
  have hRem' : '$' ∉ 'R' :: "EMAINING_ARGUMENTS".data := by decide
  rw [InterpolatePrompt_eq, InterpolatePrompt_eq, InterpolatePrompt_eq]
  cases c.Elements with
  | nil =>
    simp only []
    rw [argumentLoop_split_foreign tok b t htok ht hA,
      replaceAll_split_foreign _ tok 'R' b _ t hRem hRem' htok ht hR]
  | cons e0 rest =>
    simp only []
    rw [replaceAll_split_foreign _ tok 'A' b _ t hArg hArg' htok ht hA,
      argumentLoop_split_foreign tok b t htok ht hA,
      replaceAll_split_foreign _ tok 'R' b _ t hRem hRem' htok ht hR]

/-- An occurrence of `$REMAINING_ARGUMENTS` is replaced by the join of the
elements after the first, and the texts before and after it are interpolated
independently. -/
theorem InterpolatePrompt_split_remaining (pre post : String) (c : Candidate) :
    InterpolatePrompt (pre ++ "$REMAINING_ARGUMENTS" ++ post) c
      = InterpolatePrompt pre c ++ stringsJoin (c.Elements.drop 1) ", "
        ++ InterpolatePrompt post c := by
  have hArg : "$ARGUMENT".data = '$' :: 'A' :: "RGUMENT".data := rfl
  have hArg' : '$' ∉ 'A' :: "RGUMENT".data := by decide
  have hRem : "$REMAINING_ARGUMENTS".data = '$' :: 'R' :: "EMAINING_ARGUMENTS".data := rfl
  have hRem' : '$' ∉ 'R' :: "EMAINING_ARGUMENTS".data := by decide
  have hAR : 'A' ≠ 'R' := by decide
  rw [InterpolatePrompt_eq, InterpolatePrompt_eq, InterpolatePrompt_eq]
  cases c.Elements with
  | nil =>
    simp only []
    rw [argumentLoop_split_foreign _ 'R' _ hRem hRem' hAR,
      replaceAll_split_self _ _ hRem hRem']
  | cons e0 rest =>
    simp only []
    rw [replaceAll_split_foreign _ _ 'A' 'R' _ _ hArg hArg' hRem hRem' hAR,
      argumentLoop_split_foreign _ 'R' _ hRem hRem' hAR,
      replaceAll_split_self _ _ hRem hRem']

/-- A beginning of the template without `$` is copied to the output. -/
theorem InterpolatePrompt_no_dollar (pre rest : String) (c : Candidate)
    (hpre : '$' ∉ pre.data) :
    InterpolatePrompt (pre ++ rest) c = pre ++ InterpolatePrompt rest c := by
  have hArg : "$ARGUMENT".data = '$' :: "ARGUMENT".data := rfl
  have hRem : "$REMAINING_ARGUMENTS".data = '$' :: "REMAINING_ARGUMENTS".data := rfl
  rw [InterpolatePrompt_eq, InterpolatePrompt_eq]
  cases c.Elements with
  | nil =>
    simp only []
    rw [argumentLoop_no_dollar _ _ _ _ hpre, replaceAll_no_dollar _ _ hRem _ _ _ hpre]
  | cons e0 rest =>
    simp only []
    rw [replaceAll_no_dollar _ _ hArg _ _ _ hpre, argumentLoop_no_dollar _ _ _ _ hpre,
      replaceAll_no_dollar _ _ hRem _ _ _ hpre]

/-- The empty template is interpolated to the empty text. -/
theorem InterpolatePrompt_empty (c : Candidate) : InterpolatePrompt "" c = "" := by
  have hArg : "$ARGUMENT".data = '$' :: "ARGUMENT".data := rfl
  have hRem : "$REMAINING_ARGUMENTS".data = '$' :: "REMAINING_ARGUMENTS".data := rfl
  rw [InterpolatePrompt_eq]
  cases c.Elements with
  | nil =>
    simp only []
    rw [argumentLoop_empty, replaceAll_empty _ _ _ hRem]
  | cons e0 rest =>
    simp only []
    rw [replaceAll_empty _ _ _ hArg, argumentLoop_empty, replaceAll_empty _ _ _ hRem]

/-- The placeholder loop leaves a text without `$` as it is. -/
theorem argumentLoop_id (elems : List String) (i : Nat) (s : String) (hs : '$' ∉ s.data) :
    argumentLoop i elems s = s := by
  have h := argumentLoop_no_dollar elems i s "" hs
  rw [argumentLoop_empty] at h
  simpa using h

/-- For every candidate whose first element has no `$` and for every `n`, the
template `$ARGUMENT_n` is interpolated to the first element followed by `_n`:
the numbered placeholder is never found. -/
theorem InterpolatePrompt_numbered_general (c : Candidate) (first : String)
    (rest : List String) (n : Nat) (hE : c.Elements = first :: rest)
    (hfirst : '$' ∉ first.data) :
    InterpolatePrompt (argumentPlaceholder n) c = first ++ ("_" ++ Nat.repr n) := by
  have hArg : "$ARGUMENT".data = '$' :: "ARGUMENT".data := rfl
  have hArg' : '$' ∉ "ARGUMENT".data := by decide
  have hRem : "$REMAINING_ARGUMENTS".data = '$' :: "REMAINING_ARGUMENTS".data := rfl
  have hsuffix : '$' ∉ ("_" ++ Nat.repr n).data := by
    simp only [String.data_append, List.mem_append, not_or]
    exact ⟨by decide, repr_no_dollar n⟩
  have hclean : '$' ∉ (first ++ ("_" ++ Nat.repr n)).data := by
    simp only [String.data_append, List.mem_append, not_or] at hsuffix ⊢
    exact ⟨hfirst, hsuffix⟩
  have hsplit : argumentPlaceholder n = "" ++ "$ARGUMENT" ++ ("_" ++ Nat.repr n) := by
    apply String.ext
    simp [argumentPlaceholder]
  have hpass : replaceAll (argumentPlaceholder n) "$ARGUMENT" first
      = first ++ ("_" ++ Nat.repr n) := by
    rw [hsplit, replaceAll_split_self _ _ hArg hArg', replaceAll_empty _ _ _ hArg,
      replaceAll_id _ _ hArg _ _ hsuffix]
    simp
  rw [InterpolatePrompt_eq, hE]
  simp only []
  rw [hpass, argumentLoop_id _ _ _ hclean, replaceAll_id _ _ hRem _ _ hclean]

/-- Claim C14, the code at the failing inputs. The first replacement, of
`$ARGUMENT`, also hits the beginning of every `$ARGUMENT_N`, so that the
numbered placeholders are never found: the two test cases of
`TestInterpolatePrompt` on numbered arguments give `a_1:a_2:a_3` instead of
`a:b:c` and `File: main.go_1, Line: main.go_2` instead of
`File: main.go, Line: 42`. -/
theorem InterpolatePrompt_numbered_corrupted :
    InterpolatePrompt "$ARGUMENT_1:$ARGUMENT_2:$ARGUMENT_3" ⟨"test-key", ["a", "b", "c"]⟩
        = "a_1:a_2:a_3" ∧
      InterpolatePrompt "File: $ARGUMENT_1, Line: $ARGUMENT_2" ⟨"test-key", ["main.go", "42"]⟩
        = "File: main.go_1, Line: main.go_2" ∧
      InterpolatePrompt "$ARGUMENT_1:$ARGUMENT_2:$ARGUMENT_3" ⟨"test-key", ["a", "b", "c"]⟩
        ≠ "a:b:c" := by
  decide

/-- The placeholder loop leaves a text as it is in which none of its
placeholders occurs. -/
theorem argumentLoop_absent (elems : List String) (i : Nat) (s : String)
    (h : ∀ k, k < elems.length → occursIn (argumentPlaceholder (i + k + 1)).data s.data = false) :
    argumentLoop i elems s = s := by
  induction elems generalizing i with
  | nil => rfl
  | cons elem more ih =>
    obtain ⟨o, hold, -⟩ := argumentPlaceholder_data (i + 1)
    simp only [argumentLoop]
    rw [replaceAll_absent _ _ _ _ hold (h 0 (by simp))]
    apply ih
    intro k hk
    have := h (k + 1) (by simpa using hk)
    rw [show i + (k + 1) + 1 = i + 1 + k + 1 by omega] at this
    exact this

/-- Counterexample to C15 as stated. The only placeholder of the template
`Total: $$ARGUMENT` is `$ARGUMENT`, and the elements `ARGUMENT_2` and `x`
contain no `$`; the template with `$ARGUMENT` replaced by the first element is
`Total: $ARGUMENT_2`, but the inserted element and the `$` before it make up a
placeholder that the following replacements expand: the result is
`Total: x`. -/
theorem InterpolatePrompt_argument_only_counterexample :
    InterpolatePrompt "Total: $$ARGUMENT" ⟨"ARGUMENT_2", ["ARGUMENT_2", "x"]⟩ = "Total: x" ∧
      replaceAll "Total: $$ARGUMENT" "$ARGUMENT" "ARGUMENT_2" = "Total: $ARGUMENT_2" ∧
      InterpolatePrompt "Total: $$ARGUMENT" ⟨"ARGUMENT_2", ["ARGUMENT_2", "x"]⟩
        ≠ replaceAll "Total: $$ARGUMENT" "$ARGUMENT" "ARGUMENT_2" := by
  decide

/-- Claim C15, amended. For every template and every candidate with at least
one element, the result is the template with every occurrence of `$ARGUMENT`
replaced by the first element, provided that text contains no `$ARGUMENT_N`
with `N` from 1 to the number of elements and no `$REMAINING_ARGUMENTS`. The
proviso holds whenever the first element has no `$` and every `$` of the
template that does not begin `$ARGUMENT` is its last character or is followed
by a character other than `A`, `R` and `$`. For a candidate without elements
a template without `$REMAINING_ARGUMENTS` is returned as it is, `$ARGUMENT`
left verbatim. -/
theorem InterpolatePrompt_argument_only (template : String) (c : Candidate) :
    (∀ first rest, c.Elements = first :: rest →
        (∀ n, 1 ≤ n → n ≤ c.Elements.length →
          occursIn (argumentPlaceholder n).toList
            (replaceAll template "$ARGUMENT" first).toList = false) →
        occursIn "$REMAINING_ARGUMENTS".toList
          (replaceAll template "$ARGUMENT" first).toList = false →
        InterpolatePrompt template c = replaceAll template "$ARGUMENT" first) ∧
      (∀ first rest, c.Elements = first :: rest → '$' ∉ first.toList →
        strayDollarsInert template.toList = true →
        InterpolatePrompt template c = replaceAll template "$ARGUMENT" first) ∧
      (c.Elements = [] → occursIn "$REMAINING_ARGUMENTS".toList template.toList = false →
        InterpolatePrompt template c = template) := by
  have hArg : "$ARGUMENT".data = '$' :: 'A' :: "RGUMENT".data := rfl
  have hRem : "$REMAINING_ARGUMENTS".data = '$' :: 'R' :: "EMAINING_ARGUMENTS".data := rfl
  have hgen : ∀ first rest, c.Elements = first :: rest →
      (∀ n, 1 ≤ n → n ≤ c.Elements.length →
        occursIn (argumentPlaceholder n).data
          (replaceAll template "$ARGUMENT" first).data = false) →
      occursIn "$REMAINING_ARGUMENTS".data
        (replaceAll template "$ARGUMENT" first).data = false →
      InterpolatePrompt template c = replaceAll template "$ARGUMENT" first := by
    intro first rest hE hnum hrem
    have hloop : argumentLoop 0 c.Elements (replaceAll template "$ARGUMENT" first)
        = replaceAll template "$ARGUMENT" first := by
      apply argumentLoop_absent
      intro k hk
      exact hnum (0 + k + 1) (by omega) (by omega)
    rw [InterpolatePrompt_eq]
    rw [hE] at hloop ⊢
    simp only []
    rw [hloop, replaceAll_absent _ _ _ _ hRem hrem]
  refine ⟨hgen, ?_, ?_⟩
  · intro first rest hE hfirst hT
    have hfirst' : '$' ∉ first.data := hfirst
    have hT' : strayDollarsInert template.data = true := hT
    have hinert : dollarsInert (replaceAll template "$ARGUMENT" first).data = true := by
      rw [replaceAll_dollar _ _ _ _ hArg]
      exact replaceAux_inert _ hfirst' _ 0 (by simpa using hT')
    refine hgen first rest hE ?_ ?_
    · intro n _ _
      obtain ⟨o, hold, -⟩ := argumentPlaceholder_data n
      rw [hold]
      exact dollarsInert_not_occurs 'A' _ _ (Or.inl rfl) hinert
    · rw [hRem]
      exact dollarsInert_not_occurs 'R' _ _ (Or.inr rfl) hinert
  · intro hE hrem
    rw [InterpolatePrompt_eq, hE]
    simp only [argumentLoop]
    exact replaceAll_absent _ _ _ _ hRem hrem

/-- Witness of C15 amended: the first and the sixth case of
`TestInterpolatePrompt`, and a template with a `$` that is no placeholder. -/
theorem InterpolatePrompt_argument_only_witness :
    InterpolatePrompt "Fix this: $ARGUMENT" ⟨"test-key", ["error.go"]⟩ = "Fix this: error.go" ∧
      InterpolatePrompt "Price $5: $ARGUMENT" ⟨"x", ["x", "y"]⟩ = "Price $5: x" ∧
      InterpolatePrompt "Nothing: $ARGUMENT" ⟨"test-key", []⟩ = "Nothing: $ARGUMENT" :=
  ⟨((InterpolatePrompt_argument_only "Fix this: $ARGUMENT" ⟨"test-key", ["error.go"]⟩).1
      "error.go" [] rfl
      (fun n h1 h2 => by
        have hn : n = 1 := Nat.le_antisymm h2 h1
        subst hn
        decide)
      (by decide)).trans (by decide),
   ((InterpolatePrompt_argument_only "Price $5: $ARGUMENT" ⟨"x", ["x", "y"]⟩).2.1
      "x" ["y"] rfl (by decide) (by decide)).trans (by decide),
   (InterpolatePrompt_argument_only "Nothing: $ARGUMENT" ⟨"test-key", []⟩).2.2 rfl
      (by decide)⟩

/-- Claim C16. Each occurrence of `$REMAINING_ARGUMENTS` in a template is
replaced by the elements from the second onward joined with `, `, the texts
before and after it being interpolated on their own; for a candidate with at
most one element the occurrence is replaced by the empty string. This holds
for every candidate, also one whose elements contain `$`. -/
theorem InterpolatePrompt_remaining (pre post : String) (c : Candidate) :
    InterpolatePrompt (pre ++ "$REMAINING_ARGUMENTS" ++ post) c
        = InterpolatePrompt pre c ++ stringsJoin (c.Elements.drop 1) ", "
          ++ InterpolatePrompt post c ∧
      (c.Elements.length ≤ 1 →
        InterpolatePrompt (pre ++ "$REMAINING_ARGUMENTS" ++ post) c
          = InterpolatePrompt pre c ++ InterpolatePrompt post c) := by
  refine ⟨InterpolatePrompt_split_remaining pre post c, fun h => ?_⟩
  rw [InterpolatePrompt_split_remaining]
  have hd : c.Elements.drop 1 = [] := by
    rcases hE : c.Elements with _ | ⟨e0, _ | ⟨e1, rest⟩⟩
    · rfl
    · rfl
    · rw [hE] at h
      simp at h
  rw [hd]
  simp [stringsJoin]

/-- Witness of C16: the two `$REMAINING_ARGUMENTS` cases of
`TestInterpolatePrompt`. -/
theorem InterpolatePrompt_remaining_witness :
    InterpolatePrompt ("Main: $ARGUMENT, Others: " ++ "$REMAINING_ARGUMENTS" ++ "")
        ⟨"test-key", ["first", "second", "third"]⟩ = "Main: first, Others: second, third" ∧
      InterpolatePrompt ("File: $ARGUMENT, Extras: " ++ "$REMAINING_ARGUMENTS" ++ "")
        ⟨"test-key", ["only.go"]⟩ = "File: only.go, Extras: " :=
  ⟨(InterpolatePrompt_remaining "Main: $ARGUMENT, Others: " ""
      ⟨"test-key", ["first", "second", "third"]⟩).1.trans (by decide),
   ((InterpolatePrompt_remaining "File: $ARGUMENT, Extras: " ""
      ⟨"test-key", ["only.go"]⟩).2 (by decide)).trans (by decide)⟩

/-- Counterexample to C17 as stated: a first element equal to
`$REMAINING_ARGUMENTS` or to `$ARGUMENT_2` does not appear verbatim in the
output; the later replacements expand it. -/
theorem InterpolatePrompt_rescan_counterexample :
    InterpolatePrompt "$ARGUMENT" ⟨"k", ["$REMAINING_ARGUMENTS", "x", "y"]⟩ = "x, y" ∧
      InterpolatePrompt "$ARGUMENT" ⟨"k", ["$ARGUMENT_2", "x"]⟩ = "x" ∧
      InterpolatePrompt "$ARGUMENT" ⟨"k", ["$REMAINING_ARGUMENTS", "x", "y"]⟩
        ≠ "$REMAINING_ARGUMENTS" := by
  decide

/-- Claim C17, amended. Interpolation is a sequence of replacements, each over
the whole text, and text inserted by one replacement is scanned by those that
follow: for every template with an occurrence of `$ARGUMENT` and every
candidate with a first element, the result is what the later replacements
(`$ARGUMENT_N` for each element, then `$REMAINING_ARGUMENTS`) make of the text
in which the first element stands for that occurrence; so a first element
equal to `$REMAINING_ARGUMENTS` does not appear verbatim: at every occurrence
of `$ARGUMENT` the output has the join of the remaining elements. Only the
text inserted by the last replacement is never scanned again: at every
occurrence of `$REMAINING_ARGUMENTS` the output has the join of the remaining
elements, verbatim, whatever placeholder text they contain. In each case the
texts before and after the occurrence are interpolated on their own. -/
theorem InterpolatePrompt_rescan (pre post : String) (c : Candidate) :
    (∀ first rest, c.Elements = first :: rest →
        InterpolatePrompt (pre ++ "$ARGUMENT" ++ post) c
          = replaceAll
              (argumentLoop 0 c.Elements
                (replaceAll pre "$ARGUMENT" first ++ first ++ replaceAll post "$ARGUMENT" first))
              "$REMAINING_ARGUMENTS" (stringsJoin rest ", ")) ∧
      (∀ rest, c.Elements = "$REMAINING_ARGUMENTS" :: rest →
        InterpolatePrompt (pre ++ "$ARGUMENT" ++ post) c
          = InterpolatePrompt pre c ++ stringsJoin rest ", " ++ InterpolatePrompt post c) ∧
      InterpolatePrompt (pre ++ "$REMAINING_ARGUMENTS" ++ post) c
        = InterpolatePrompt pre c ++ stringsJoin (c.Elements.drop 1) ", "
          ++ InterpolatePrompt post c := by
  have hArg : "$ARGUMENT".data = '$' :: "ARGUMENT".data := rfl
  have hArg' : '$' ∉ "ARGUMENT".data := by decide
  have hRem : "$REMAINING_ARGUMENTS".data = '$' :: 'R' :: "EMAINING_ARGUMENTS".data := rfl
  have hRem' : '$' ∉ 'R' :: "EMAINING_ARGUMENTS".data := by decide
  refine ⟨?_, ?_, InterpolatePrompt_split_remaining pre post c⟩
  · intro first rest hE
    rw [InterpolatePrompt_eq, hE]
    simp only [List.drop_succ_cons, List.drop_zero]
    rw [replaceAll_split_self _ _ hArg hArg']
  · intro rest hE
    rw [InterpolatePrompt_eq, InterpolatePrompt_eq, InterpolatePrompt_eq, hE]
    simp only [List.drop_succ_cons, List.drop_zero]
    rw [replaceAll_split_self _ _ hArg hArg',
      argumentLoop_split_foreign _ 'R' _ hRem hRem' (by decide),
      replaceAll_split_self _ _ hRem hRem']

/-- Witness of C17 amended: `$ARGUMENT` in the middle of a template, and the
join inserted verbatim. -/
theorem InterpolatePrompt_rescan_witness :
    InterpolatePrompt ("x " ++ "$ARGUMENT" ++ " y") ⟨"k", ["$REMAINING_ARGUMENTS", "a", "b"]⟩
        = "x a, b y" ∧
      InterpolatePrompt ("x " ++ "$REMAINING_ARGUMENTS" ++ " y")
          ⟨"k", ["first", "$ARGUMENT", "$ARGUMENT_1"]⟩
        = "x $ARGUMENT, $ARGUMENT_1 y" :=
  ⟨((InterpolatePrompt_rescan "x " " y" ⟨"k", ["$REMAINING_ARGUMENTS", "a", "b"]⟩).2.1
      ["a", "b"] rfl).trans (by decide),
   (InterpolatePrompt_rescan "x " " y" ⟨"k", ["first", "$ARGUMENT", "$ARGUMENT_1"]⟩).2.2.trans
      (by decide)⟩

/-- Claim C18, the code at the failing inputs. `$ARGUMENT_3` for a candidate
with two elements and `$ARGUMENTX` are not copied unchanged: their beginning
`$ARGUMENT` is replaced by the first element. Only for a candidate without
elements does `$ARGUMENT` stay. -/
theorem InterpolatePrompt_unknown_corrupted :
    InterpolatePrompt "$ARGUMENT_3" ⟨"k", ["a", "b"]⟩ = "a_3" ∧
      InterpolatePrompt "$ARGUMENTX" ⟨"k", ["a"]⟩ = "aX" ∧
      InterpolatePrompt "Nothing: $ARGUMENT" ⟨"k", []⟩ = "Nothing: $ARGUMENT" := by
  decide

/-- Counterexample to C19 as stated: `$INPUT` is not replaced by the string of
a string candidate. -/
theorem InterpolatePrompt_input_counterexample :
    InterpolatePrompt "Say: $INPUT" ⟨"hello", ["hello"]⟩ = "Say: $INPUT" ∧
      InterpolatePrompt "Say: $INPUT" ⟨"hello", ["hello"]⟩ ≠ "Say: hello" := by
  decide

/-- Claim C19, amended. `$INPUT` is not a placeholder of `InterpolatePrompt`:
every occurrence of `$INPUT` is copied unchanged to the output, whatever the
candidate, the texts before and after it being interpolated on their own. -/
theorem InterpolatePrompt_input (pre post : String) (c : Candidate) :
    InterpolatePrompt (pre ++ "$INPUT" ++ post) c
      = InterpolatePrompt pre c ++ "$INPUT" ++ InterpolatePrompt post c :=
  InterpolatePrompt_split_foreign "$INPUT" 'I' "NPUT".data rfl (by decide) (by decide)
    (by decide) pre post c

/-! ## Properties of `InterpolateCommand` -/

/-- Counterexample to C20 as stated: the key is inserted as it is, without
quotes and without escaping. -/
theorem InterpolateCommand_unquoted_counterexample :
    InterpolateCommand "echo $CANDIDATE" ⟨"file.go:10", []⟩ "lint" = "echo file.go:10" ∧
      InterpolateCommand "echo $CANDIDATE" ⟨"O'Reilly", []⟩ "test" = "echo O'Reilly" ∧
      InterpolateCommand "echo $CANDIDATE" ⟨"file.go:10", []⟩ "lint"
        ≠ "echo " ++ shellQuote "file.go:10" ∧
      shellQuote "O'Reilly" = "'O'\"'\"'Reilly'" := by
  decide

/-- Claim C20, amended. `InterpolateCommand` puts the key itself, neither
quoted nor escaped, for `$CANDIDATE` and the task name for `$TASK_NAME`: an
occurrence of `$TASK_NAME` is replaced by the task name, the texts before and
after it being interpolated on their own; an occurrence of `$CANDIDATE` after
a text without `$` is replaced by the key (a key without `$`), the text after
it being interpolated on its own; and a text without `$` is left as it is. -/
theorem InterpolateCommand_verbatim (pre post : String) (c : Candidate) (taskName : String) :
    InterpolateCommand (pre ++ "$TASK_NAME" ++ post) c taskName
        = InterpolateCommand pre c taskName ++ taskName
          ++ InterpolateCommand post c taskName ∧
      ('$' ∉ pre.toList → '$' ∉ c.Key.toList →
        InterpolateCommand (pre ++ "$CANDIDATE" ++ post) c taskName
          = pre ++ c.Key ++ InterpolateCommand post c taskName) ∧
      ('$' ∉ pre.toList → InterpolateCommand pre c taskName = pre) := by
  have hCand : "$CANDIDATE".data = '$' :: 'C' :: "ANDIDATE".data := rfl
  have hCand' : '$' ∉ 'C' :: "ANDIDATE".data := by decide
  have hTask : "$TASK_NAME".data = '$' :: 'T' :: "ASK_NAME".data := rfl
  have hTask' : '$' ∉ 'T' :: "ASK_NAME".data := by decide
  refine ⟨?_, ?_, ?_⟩
  · unfold InterpolateCommand
    simp only []
    rw [replaceAll_split_foreign _ _ 'C' 'T' _ _ hCand hCand' hTask hTask' (by decide),
      replaceAll_split_self _ _ hTask hTask']
  · intro hpre hkey
    have hpre' : '$' ∉ pre.data := hpre
    have hkey' : '$' ∉ c.Key.data := hkey
    have hpk : '$' ∉ (pre ++ c.Key).data := by
      simp only [String.data_append, List.mem_append, not_or]
      exact ⟨hpre', hkey'⟩
    unfold InterpolateCommand
    simp only []
    rw [replaceAll_split_self _ _ hCand hCand', replaceAll_id _ _ hCand _ _ hpre',
      replaceAll_no_dollar _ _ hTask _ _ _ hpk]
  · intro hpre
    have hpre' : '$' ∉ pre.data := hpre
    unfold InterpolateCommand
    simp only []
    rw [replaceAll_id _ _ hCand _ _ hpre', replaceAll_id _ _ hTask _ _ hpre']

/-- Witness of C20 amended: the three cases of `TestInterpolateCommand`. -/
theorem InterpolateCommand_verbatim_witness :
    InterpolateCommand ("echo " ++ "$CANDIDATE" ++ "") ⟨"file.go:10", []⟩ "lint"
        = "echo file.go:10" ∧
      InterpolateCommand ("run-" ++ "$TASK_NAME" ++ ".sh") ⟨"test", []⟩ "build"
        = "run-build.sh" ∧
      InterpolateCommand "fix: error" ⟨"error", []⟩ "fix" = "fix: error" :=
  ⟨((InterpolateCommand_verbatim "echo " "" ⟨"file.go:10", []⟩ "lint").2.1 (by decide)
      (by decide)).trans (by decide),
   (InterpolateCommand_verbatim "run-" ".sh" ⟨"test", []⟩ "build").1.trans (by decide),
   (InterpolateCommand_verbatim "fix: error" "" ⟨"error", []⟩ "fix").2.2 (by decide)⟩

/-! ## The select-then-record loop cannot spin -/

/-- A selected candidate is one of the list whose key is not contained. -/
theorem SelectCandidate_some (cs : List Candidate) (l : IgnoredList) (c : Candidate)
    (h : SelectCandidate cs l = some c) : c ∈ cs ∧ l.Contains c.Key = false := by
  induction cs with
  | nil => cases h
  | cons d rest ih =>
    unfold SelectCandidate at h
    by_cases hd : l.Contains d.Key = true
    · simp only [hd, Bool.not_true, Bool.false_eq_true, if_false] at h
      exact ⟨List.mem_cons_of_mem _ (ih h).1, (ih h).2⟩
    · simp only [Bool.not_eq_true] at hd
      simp only [hd, Bool.not_false, if_true] at h
      injection h with h
      subst h
      exact ⟨List.mem_cons_self _ _, hd⟩

/-- Nothing is selected exactly when no candidate is pending. -/
theorem SelectCandidate_none_iff (cs : List Candidate) (l : IgnoredList) :
    SelectCandidate cs l = none ↔ pendingCount cs l = 0 := by
  induction cs with
  | nil => simp [SelectCandidate, pendingCount]
  | cons d rest ih =>
    unfold SelectCandidate
    by_cases hd : l.Contains d.Key = true
    · simp only [hd, Bool.not_true, Bool.false_eq_true, if_false]
      rw [ih]
      simp [pendingCount, hd]
    · simp only [Bool.not_eq_true] at hd
      simp [pendingCount, hd]

/-- A list that contains more leaves fewer candidates pending; strictly fewer
when it contains the key of a candidate that was pending. -/
theorem pendingCount_lt (cs : List Candidate) (l l' : IgnoredList) (c : Candidate)
    (hsub : ∀ k, l.Contains k = true → l'.Contains k = true)
    (hc : c ∈ cs) (hold : l.Contains c.Key = false) (hnew : l'.Contains c.Key = true) :
    pendingCount cs l' < pendingCount cs l := by
  unfold pendingCount
  induction cs with
  | nil => cases hc
  | cons d rest ih =>
    have hle : ∀ xs : List Candidate,
        (xs.filter (fun c => !l'.Contains c.Key)).length
          ≤ (xs.filter (fun c => !l.Contains c.Key)).length := by
      intro xs
      induction xs with
      | nil => simp
      | cons x xs ihx =>
        by_cases hx : l.Contains x.Key = true
        · simp [List.filter_cons, hx, hsub _ hx, ihx]
        · simp only [Bool.not_eq_true] at hx
          by_cases hx' : l'.Contains x.Key = true
          · simp only [List.filter_cons, hx, hx', Bool.not_true, Bool.false_eq_true, if_false,
              Bool.not_false, if_true, List.length_cons]
            omega
          · simp only [Bool.not_eq_true] at hx'
            simp only [List.filter_cons, hx, hx', Bool.not_false, if_true, List.length_cons]
            omega
    rcases List.mem_cons.mp hc with rfl | hmem
    · have := hle rest
      simp only [List.filter_cons, hold, hnew, Bool.not_true, Bool.false_eq_true, if_false,
        Bool.not_false, if_true, List.length_cons]
      omega
    · have := ih hmem
      by_cases hx : l.Contains d.Key = true
      · simp only [List.filter_cons, hx, hsub _ hx, Bool.not_true, Bool.false_eq_true, if_false]
        exact this
      · simp only [Bool.not_eq_true] at hx
        by_cases hx' : l'.Contains d.Key = true
        · simp only [List.filter_cons, hx, hx', Bool.not_true, Bool.false_eq_true, if_false,
            Bool.not_false, if_true, List.length_cons]
          omega
        · simp only [Bool.not_eq_true] at hx'
          simp only [List.filter_cons, hx, hx', Bool.not_false, if_true, List.length_cons]
          omega

/-- A successful `Add` of a new key yields a list that contains what the list
contained, and the key. -/
theorem Add_succeeds_Contains (l : IgnoredList) (disk : Option String) (io : AppendIO)
    (key : String) (hnew : l.Contains key = false) (hadd : (l.Add disk io key).err = none) :
    (l.Add disk io key).list.Contains key = true ∧
      ∀ k, l.Contains k = true → (l.Add disk io key).list.Contains k = true := by
  have hio := (Add_err_none l disk io key hnew).mp hadd
  subst hio
  unfold IgnoredList.Add
  simp only [hnew, Bool.false_eq_true, if_false]
  constructor
  · rw [Contains_setEntry]
    simp
  · intro k hk
    rw [Contains_setEntry, hk]
    rfl

/-- With `n` candidates pending at most, the loop is exhausted within `n`
rounds. -/
theorem exhaustedWithin_of_pending (cs : List Candidate) (n : Nat) (l : IgnoredList)
    (disk : Option String) (h : pendingCount cs l ≤ n) : exhaustedWithin cs n l disk = true := by
  induction n generalizing l disk with
  | zero =>
    unfold exhaustedWithin
    rw [(SelectCandidate_none_iff cs l).mpr (by omega)]
    rfl
  | succ n ih =>
    unfold exhaustedWithin
    cases hsel : SelectCandidate cs l with
    | none => rfl
    | some c =>
      simp only []
      have hc := SelectCandidate_some cs l c hsel
      have hadd : (l.Add disk .succeeds c.Key).err = none :=
        (Add_err_none l disk .succeeds c.Key hc.2).mpr rfl
      have hcont := Add_succeeds_Contains l disk .succeeds c.Key hc.2 hadd
      have hlt := pendingCount_lt cs l _ c hcont.2 hc.1 hc.2 hcont.1
      exact ih _ _ (by omega)

/-- Claim C26. If `SelectCandidate cs L` returns a candidate `c` and the `Add`
of its key returns no error, then on the list after the `Add`, and on every
list that contains at least what that list contains (the list only grows),
`SelectCandidate cs` never returns a candidate with the key of `c`; the number
of candidates of `cs` the list does not contain has strictly decreased; and
select-then-`Add` repeated over `cs` reaches nil within `cs.length` rounds,
whatever the list and the file at the start. -/
theorem select_then_Add_exhausts (cs : List Candidate) (L : IgnoredList)
    (disk : Option String) (io : AppendIO) (c : Candidate)
    (hsel : SelectCandidate cs L = some c) (hadd : (L.Add disk io c.Key).err = none) :
    (∀ L2 : IgnoredList,
        (∀ k, (L.Add disk io c.Key).list.Contains k = true → L2.Contains k = true) →
        ∀ d, SelectCandidate cs L2 = some d → d.Key ≠ c.Key) ∧
      pendingCount cs (L.Add disk io c.Key).list < pendingCount cs L ∧
      (∀ (L0 : IgnoredList) (disk0 : Option String),
        exhaustedWithin cs cs.length L0 disk0 = true) := by
  have hc := SelectCandidate_some cs L c hsel
  have hcont := Add_succeeds_Contains L disk io c.Key hc.2 hadd
  refine ⟨?_, pendingCount_lt cs L _ c hcont.2 hc.1 hc.2 hcont.1, ?_⟩
  · intro L2 hsub d hd hkey
    have h2 := (SelectCandidate_some cs L2 d hd).2
    rw [hkey, hsub _ hcont.1] at h2
    cases h2
  · intro L0 disk0
    apply exhaustedWithin_of_pending
    unfold pendingCount
    exact List.length_filter_le _ _

/-- Witness of C26: the first round over three candidates, `b` being recorded
already. -/
theorem select_then_Add_exhausts_witness :
    SelectCandidate [⟨"b", ["b"]⟩, ⟨"a", ["a"]⟩, ⟨"c", ["c"]⟩] ⟨"t/ignored.log", ["b"]⟩
        = some ⟨"a", ["a"]⟩ ∧
      pendingCount [⟨"b", ["b"]⟩, ⟨"a", ["a"]⟩, ⟨"c", ["c"]⟩]
          ((⟨"t/ignored.log", ["b"]⟩ : IgnoredList).Add (some "b\n") .succeeds "a").list
        < pendingCount [⟨"b", ["b"]⟩, ⟨"a", ["a"]⟩, ⟨"c", ["c"]⟩] ⟨"t/ignored.log", ["b"]⟩ :=
  ⟨by decide,
   (select_then_Add_exhausts [⟨"b", ["b"]⟩, ⟨"a", ["a"]⟩, ⟨"c", ["c"]⟩]
      ⟨"t/ignored.log", ["b"]⟩ (some "b\n") .succeeds ⟨"a", ["a"]⟩ (by decide) (by decide)).2.1⟩

/-- Claim C27. `Add` is atomic on failure: for a key not yet contained, when
the open or the write fails, `Add` returns an error and the list in memory is
the list before the call, so that `Contains` of the key is still false and
`Contains` of every key is unchanged. -/
theorem Add_failure_atomic (l : IgnoredList) (disk : Option String) (io : AppendIO)
    (key : String) (hnew : l.Contains key = false) (hfail : io ≠ .succeeds) :
    (l.Add disk io key).err ≠ none ∧ (l.Add disk io key).list = l ∧
      (l.Add disk io key).list.Contains key = false ∧
      ∀ k, (l.Add disk io key).list.Contains k = l.Contains k := by
  have hlist : (l.Add disk io key).list = l := by
    unfold IgnoredList.Add
    cases io with
    | openFails => simp [hnew]
    | writeFails n => simp [hnew]
    | succeeds => exact absurd rfl hfail
  refine ⟨?_, hlist, by rw [hlist]; exact hnew, fun k => by rw [hlist]⟩
  intro h
  exact hfail ((Add_err_none l disk io key hnew).mp h)

/-- Witness of C27: a write that fails after two characters. -/
theorem Add_failure_atomic_witness :
    ((⟨"t/ignored.log", ["a"]⟩ : IgnoredList).Add (some "a\n") (.writeFails 2) "key").err
        = some .write ∧
      ((⟨"t/ignored.log", ["a"]⟩ : IgnoredList).Add (some "a\n") (.writeFails 2) "key").list
        = ⟨"t/ignored.log", ["a"]⟩ :=
  ⟨by decide,
   (Add_failure_atomic ⟨"t/ignored.log", ["a"]⟩ (some "a\n") (.writeFails 2) "key"
      (by decide) (by decide)).2.1⟩

/-! ## The partition of `FilterByHash` is the parity of the MD5 digest -/

/-- `leBytes n` gives `n` bytes. -/
theorem leBytes_length (n x : Nat) : (leBytes n x).length = n := by
  induction n generalizing x with
  | zero => rfl
  | succ n ih => simp [leBytes, ih]

/-- The bytes of `leBytes` are bytes. -/
theorem leBytes_lt (n x : Nat) : ∀ b ∈ leBytes n x, b < 256 := by
  induction n generalizing x with
  | zero => simp [leBytes]
  | succ n ih =>
    intro b hb
    simp only [leBytes, List.mem_cons] at hb
    rcases hb with rfl | hb
    · exact Nat.mod_lt _ (by decide)
    · exact ih _ b hb

/-- The digest has 16 bytes. -/
theorem md5Sum_length (data : List Nat) : (md5Sum data).length = 16 := by
  simp [md5Sum, leBytes_length]

/-- The bytes of the digest are bytes. -/
theorem md5Sum_lt (data : List Nat) : ∀ b ∈ md5Sum data, b < 256 := by
  intro b hb
  simp only [md5Sum, List.mem_append] at hb
  rcases hb with ((hb | hb) | hb) | hb <;> exact leBytes_lt _ _ b hb

/-- `SetBytes` of a byte list with one more byte at the end. -/
theorem bigIntSetBytes_concat (b : List Nat) (x : Nat) :
    bigIntSetBytes (b ++ [x]) = bigIntSetBytes b * 256 + x := by
  simp [bigIntSetBytes, List.foldl_append]

/-- The parity of the integer is the parity of the last byte. -/
theorem bigIntSetBytes_mod_two (b : List Nat) :
    bigIntSetBytes b % 2 = b.getLast?.getD 0 % 2 := by
  induction b using List.reverseRecOn with
  | nil => rfl
  | append_singleton xs x _ =>
    rw [bigIntSetBytes_concat]
    have hl : (xs ++ [x]).getLast?.getD 0 = x := by simp
    rw [hl]
    omega

/-- Bytes read as a big-endian integer stay below `256 ^ length`. -/
theorem bigIntSetBytes_lt (b : List Nat) (h : ∀ x ∈ b, x < 256) :
    bigIntSetBytes b < 256 ^ b.length := by
  induction b using List.reverseRecOn with
  | nil => simp [bigIntSetBytes]
  | append_singleton xs x ih =>
    rw [bigIntSetBytes_concat, List.length_append, List.length_singleton, pow_succ]
    have h1 := ih (fun y hy => h y (List.mem_append_left _ hy))
    have h2 := h x (List.mem_append_right _ (List.mem_singleton_self x))
    nlinarith

/-- The local `isEven` in terms of the integer. -/
theorem isEven_iff (c : Candidate) :
    isEven c = true ↔ bigIntSetBytes (md5Sum (stringBytes c.Key)) % 2 = 0 := by
  simp [isEven, bigIntBit]

/-- Claim C29. `FilterByHash` with `HashFilterEvens` keeps exactly the
candidates of the input whose MD5 digest of the `Key`, read as a big-endian
unsigned integer of 128 bits, is congruent to 0 modulo 2, and with
`HashFilterOdds` exactly those congruent to 1; the digest has 16 bytes, the
integer is below `2 ^ 128` and its parity is that of the last digest byte; so
for every filter value two candidates with equal keys are kept or dropped
together, whatever their other fields and whatever lists they stand in. -/
theorem FilterByHash_md5_parity (cs : List Candidate) (c : Candidate) :
    (c ∈ FilterByHash cs HashFilterEvens ↔
        c ∈ cs ∧ bigIntSetBytes (md5Sum (stringBytes c.Key)) % 2 = 0) ∧
      (c ∈ FilterByHash cs HashFilterOdds ↔
        c ∈ cs ∧ bigIntSetBytes (md5Sum (stringBytes c.Key)) % 2 = 1) ∧
      (md5Sum (stringBytes c.Key)).length = 16 ∧
      bigIntSetBytes (md5Sum (stringBytes c.Key)) < 2 ^ 128 ∧
      bigIntSetBytes (md5Sum (stringBytes c.Key)) % 2
        = (md5Sum (stringBytes c.Key)).getLast?.getD 0 % 2 ∧
      (∀ (cs2 : List Candidate) (d : Candidate) ( filter : HashFilter),
        d.Key = c.Key → c ∈ cs → d ∈ cs2 →
          (c ∈ FilterByHash cs filter ↔ d ∈ FilterByHash cs2 filter)) := by
  refine ⟨?_, ?_, md5Sum_length _, ?_, bigIntSetBytes_mod_two _, ?_⟩
  · rw [FilterByHash_evens, List.mem_filter, isEven_iff]
  · rw [FilterByHash_odds, List.mem_filter]
    have h := isEven_iff c
    cases he : isEven c
    · rw [he] at h
      simp only [Bool.false_eq_true, false_iff] at h
      simp only [Bool.not_false, and_true]
      constructor
      · intro hc
        exact ⟨hc, by omega⟩
      · exact fun hc => hc.1
    · rw [he] at h
      simp only [true_iff] at h
      simp only [Bool.not_true, Bool.false_eq_true, and_false, false_iff, not_and]
      intro _
      omega
  · have h := bigIntSetBytes_lt _ (md5Sum_lt (stringBytes c.Key))
    rw [md5Sum_length] at h
    exact h
  · intro cs2 d filter hkey hc hd
    have he := isEven_congr d c hkey
    unfold FilterByHash
    by_cases hf : ( filter == HashFilterNone) = true
    · simp [hf, hc, hd]
    · simp only [hf, if_false, List.mem_filter, hc, hd, true_and, keeps, he, Bool.false_eq_true]

/-- Witness of C29: two candidates with the key `a` and different elements,
in different lists. -/
theorem FilterByHash_md5_parity_witness :
    (⟨"a", ["a"]⟩ : Candidate) ∈ FilterByHash [⟨"a", ["a"]⟩, ⟨"e", ["e"]⟩] HashFilterOdds ↔
      (⟨"a", ["a", "x"]⟩ : Candidate) ∈ FilterByHash [⟨"a", ["a", "x"]⟩] HashFilterOdds :=
  (FilterByHash_md5_parity [⟨"a", ["a"]⟩, ⟨"e", ["e"]⟩] ⟨"a", ["a"]⟩).2.2.2.2.2
    [⟨"a", ["a", "x"]⟩] ⟨"a", ["a", "x"]⟩ HashFilterOdds rfl (by decide) (by decide)

/-! ## The key of a candidate is its first element -/

/-- The loop of `ParseCandidates` only appends candidates whose `Key` is the
first of their `Elements`. -/
theorem parseItems_head (items : List JSON) (acc cs : List Candidate)
    (h : parseItems items acc = .ok cs) (hacc : ∀ c ∈ acc, c.Elements.head? = some c.Key) :
    ∀ c ∈ cs, c.Elements.head? = some c.Key := by
  induction items generalizing acc with
  | nil =>
    simp only [parseItems] at h
    injection h with h
    subst h
    exact hacc
  | cons item rest ih =>
    unfold parseItems at h
    cases hs : unmarshalString item with
    | some str =>
      rw [hs] at h
      refine ih _ h ?_
      intro c hc
      rcases List.mem_append.mp hc with hc | hc
      · exact hacc c hc
      · rw [List.mem_singleton.mp hc]
        rfl
    | none =>
      rw [hs] at h
      cases ha : unmarshalStringSlice item with
      | none => rw [ha] at h; cases h
      | some arr =>
        rw [ha] at h
        cases arr with
        | nil => exact ih _ h hacc
        | cons first more =>
          refine ih _ h ?_
          intro c hc
          rcases List.mem_append.mp hc with hc | hc
          · exact hacc c hc
          · rw [List.mem_singleton.mp hc]
            rfl

/-- An item that makes the loop append the candidate `c` contributes `c`
between the candidates of the items before it and those of the items after
it. -/
theorem parseItems_element (pre post : List JSON) (item : JSON) (c : Candidate)
    (cs : List Candidate)
    (hitem : ∀ acc, parseItems (item :: post) acc = parseItems post (acc ++ [c]))
    (h : parseItems (pre ++ item :: post) [] = .ok cs) :
    ∃ before after, parseItems pre [] = .ok before ∧ parseItems post [] = .ok after ∧
      cs = before ++ c :: after := by
  rw [parseItems_append] at h
  cases hb : parseItems pre [] with
  | error e => rw [hb] at h; cases h
  | ok before =>
    rw [hb] at h
    simp only [Except.bind] at h
    rw [hitem, parseItems_acc] at h
    cases ha : parseItems post [] with
    | error e => rw [ha] at h; cases h
    | ok after =>
      rw [ha] at h
      simp only [Except.map] at h
      injection h with h
      exact ⟨before, after, rfl, rfl, by rw [← h]; simp⟩

/-- Claim C28. On every input on which `ParseCandidates` succeeds, every
returned candidate has a non-empty `Elements` list whose first member is its
`Key`; an element of the input array that is a JSON string contributes, in its
place, the candidate whose `Elements` is the one-element list of that string,
and an element that is a non-empty array of JSON strings contributes the
candidate whose `Elements` are the strings of the array in order. -/
theorem ParseCandidates_key_is_first_element (jsonData : String) (cs : List Candidate)
    (h : ParseCandidates jsonData = .ok cs) :
    (∀ c ∈ cs, c.Elements ≠ [] ∧ c.Elements.head? = some c.Key) ∧
      (∀ (pre post : List JSON) (s : String),
        jsonDecode jsonData = some (.arr (pre ++ JSON.str s :: post)) →
        ∃ before after, parseItems pre [] = .ok before ∧ parseItems post [] = .ok after ∧
          cs = before ++ { Key := s, Elements := [s] } :: after) ∧
      (∀ (pre post : List JSON) (first : String) (more : List String),
        jsonDecode jsonData
          = some (.arr (pre ++ JSON.arr ((first :: more).map JSON.str) :: post)) →
        ∃ before after, parseItems pre [] = .ok before ∧ parseItems post [] = .ok after ∧
          cs = before ++ { Key := first, Elements := first :: more } :: after) := by
  refine ⟨?_, ?_, ?_⟩
  · have hhead : ∀ c ∈ cs, c.Elements.head? = some c.Key := by
      unfold ParseCandidates at h
      cases hraw : (jsonDecode jsonData).bind unmarshalRawMessages with
      | none => rw [hraw] at h; cases h
      | some raw =>
        rw [hraw] at h
        exact parseItems_head raw [] cs h (by simp)
    intro c hc
    refine ⟨?_, hhead c hc⟩
    intro hnil
    have := hhead c hc
    rw [hnil] at this
    cases this
  · intro pre post s hdec
    simp only [ParseCandidates, hdec, unmarshalRawMessages, Option.bind] at h
    refine parseItems_element pre post (JSON.str s) _ cs ?_ h
    intro acc
    rw [parseItems]
    simp only [unmarshalString]
  · intro pre post first more hdec
    simp only [ParseCandidates, hdec, unmarshalRawMessages, Option.bind] at h
    refine parseItems_element pre post _ _ cs ?_ h
    intro acc
    have hu := unmarshalStrings_strings (first :: more)
    rw [parseItems]
    simp only [unmarshalString, unmarshalStringSlice, hu]

/-- Witness of C28: the mixed-format case of `TestParseCandidates`. -/
theorem ParseCandidates_key_is_first_element_witness :
    ParseCandidates "[\"simple.go\", [\"complex.go\", \"extra\", \"data\"]]"
        = .ok [⟨"simple.go", ["simple.go"]⟩, ⟨"complex.go", ["complex.go", "extra", "data"]⟩] ∧
      ∀ c ∈ [(⟨"simple.go", ["simple.go"]⟩ : Candidate),
          ⟨"complex.go", ["complex.go", "extra", "data"]⟩],
        c.Elements ≠ [] ∧ c.Elements.head? = some c.Key :=
  ⟨rfl,
   (ParseCandidates_key_is_first_element "[\"simple.go\", [\"complex.go\", \"extra\", \"data\"]]"
      [⟨"simple.go", ["simple.go"]⟩, ⟨"complex.go", ["complex.go", "extra", "data"]⟩] rfl).1⟩

/-! ## Persistence round trip of the ignored list -/

/-- Unfolding of `splitLines` at a character. -/
theorem splitLines_cons (c : Char) (cs : List Char) :
    splitLines (c :: cs) =
      if c = '\n' then [] :: splitLines cs
      else
        match splitLines cs with
        | [] => [[c]]
        | l :: ls => (c :: l) :: ls := rfl

/-- The segments of a text cut at a line feed are those of the two parts. -/
theorem splitLines_append_lf (a b : List Char) :
    splitLines (a ++ '\n' :: b) = splitLines a ++ splitLines b := by
  induction a with
  | nil => simp [splitLines]
  | cons c a ih =>
    by_cases hc : c = '\n'
    · subst hc
      simp [splitLines, ih]
    · rw [List.cons_append, splitLines_cons, splitLines_cons, if_neg hc, if_neg hc, ih]
      cases hs : splitLines a with
      | nil => exact absurd hs (splitLines_ne_nil a)
      | cons l ls => rfl

/-- A text without line feed is one segment. -/
theorem splitLines_of_no_lf (l : List Char) (h : '\n' ∉ l) : splitLines l = [l] := by
  induction l with
  | nil => rfl
  | cons c l ih =>
    have hc : c ≠ '\n' := fun e => h (by rw [e]; exact List.mem_cons_self _ _)
    have hl : '\n' ∉ l := fun e => h (List.mem_cons_of_mem _ e)
    simp [splitLines, hc, ih hl]

/-- The empty segment after a final line feed is no token. -/
theorem dropFinalEmpty_concat_nil (ys : List (List Char)) :
    dropFinalEmpty (ys ++ [[]]) = ys := by
  induction ys with
  | nil => rfl
  | cons y ys ih =>
    cases ys with
    | nil => rfl
    | cons y2 ys =>
      simp only [List.cons_append] at ih ⊢
      rw [dropFinalEmpty, ih]
      simp

/-- The tokens of a text that is empty or ends in a line feed, with one more
line appended. -/
theorem scanLines_append_line (old key : List Char) (lines0 : List (List Char))
    (h0 : scanLines old = some lines0) (hfin : old = [] ∨ ∃ o, old = o ++ ['\n'])
    (hlf : '\n' ∉ key) (hlen : byteLength key < maxScanTokenSize) :
    scanLines (old ++ (key ++ ['\n'])) = some (lines0 ++ [dropCR key]) := by
  have hraw : dropFinalEmpty (splitLines (old ++ (key ++ ['\n'])))
      = dropFinalEmpty (splitLines old) ++ [key] := by
    rcases hfin with rfl | ⟨o, rfl⟩
    · have h1 : splitLines (key ++ ['\n']) = [key] ++ [[]] := by
        rw [splitLines_append_lf, splitLines_of_no_lf key hlf]
        rfl
      rw [List.nil_append, h1, dropFinalEmpty_concat_nil]
      rfl
    · have h1 : splitLines (o ++ ['\n'] ++ (key ++ ['\n'])) = (splitLines o ++ [key]) ++ [[]] := by
        rw [List.append_assoc, List.singleton_append, splitLines_append_lf,
          splitLines_append_lf, splitLines_of_no_lf key hlf]
        simp [splitLines]
      have h2 : splitLines (o ++ ['\n']) = splitLines o ++ [[]] := by
        rw [splitLines_append_lf]
        rfl
      rw [h1, h2, dropFinalEmpty_concat_nil, dropFinalEmpty_concat_nil]
  unfold scanLines at h0 ⊢
  simp only [] at h0 ⊢
  rw [hraw]
  split at h0
  · rename_i hall
    injection h0 with h0
    subst h0
    have hall2 : ((dropFinalEmpty (splitLines old) ++ [key]).all
        (fun l => decide (byteLength l < maxScanTokenSize))) = true := by
      rw [List.all_append, hall]
      simp [hlen]
    rw [if_pos hall2]
    simp
  · cases h0

/-- Trimming what `dropCR` leaves of a trimmed key gives the key. -/
theorem trimSpace_dropCR_key (key : String) (htrim : trimSpace key = key) :
    trimSpace (String.mk (dropCR key.toList)) = key := by
  have h : trimSpace (String.mk (dropCR key.toList)) = trimSpace key := by
    simp only [trimSpace, String.toList]
    rw [trimSpaceChars_dropCR]
  rw [h, htrim]

/-- A line of `n` letters with `n` at least the token limit stops the scanner:
the file left by the `Add` of such a key does not load. -/
theorem scanLines_long_line (n : Nat) (hn : maxScanTokenSize ≤ n) :
    scanLines (List.replicate n 'a' ++ ['\n']) = none := by
  have hlf : '\n' ∉ List.replicate n 'a' := by
    intro h
    exact absurd (List.eq_of_mem_replicate h) (by decide)
  have h1 : splitLines (List.replicate n 'a' ++ ['\n']) = [List.replicate n 'a'] ++ [[]] := by
    rw [splitLines_append_lf, splitLines_of_no_lf _ hlf]
    rfl
  have hb : byteLength (List.replicate n 'a') = n := by
    have hu : Char.utf8Size 'a' = 1 := by decide
    simp [byteLength, hu]
  unfold scanLines
  simp only []
  rw [h1, dropFinalEmpty_concat_nil]
  simp only [List.all_cons, List.all_nil, Bool.and_true, hb, decide_eq_true_eq]
  rw [if_neg (by omega)]

/-- Counterexample to C30 as stated. After a successful `Add` of the empty
key, of a key with leading white space or of a key with a line break, the list
loaded from the resulting file does not contain the key; after the `Add` of a
key to a file whose last line has no line feed the key is not contained
either. -/
theorem Add_NewIgnoredList_round_trip_counterexample :
    (((⟨"t/ignored.log", []⟩ : IgnoredList).Add none .succeeds "").err = none ∧
        ((⟨"t/ignored.log", []⟩ : IgnoredList).Add none .succeeds "").disk = some "\n" ∧
        NewIgnoredList "t" (.opened "\n" false) = .ok ⟨"t/ignored.log", []⟩ ∧
        (⟨"t/ignored.log", []⟩ : IgnoredList).Contains "" = false) ∧
      (((⟨"t/ignored.log", []⟩ : IgnoredList).Add none .succeeds " a").err = none ∧
        ((⟨"t/ignored.log", []⟩ : IgnoredList).Add none .succeeds " a").disk = some " a\n" ∧
        NewIgnoredList "t" (.opened " a\n" false) = .ok ⟨"t/ignored.log", ["a"]⟩ ∧
        (⟨"t/ignored.log", ["a"]⟩ : IgnoredList).Contains " a" = false) ∧
      (((⟨"t/ignored.log", []⟩ : IgnoredList).Add none .succeeds "a\nb").err = none ∧
        ((⟨"t/ignored.log", []⟩ : IgnoredList).Add none .succeeds "a\nb").disk
          = some "a\nb\n" ∧
        NewIgnoredList "t" (.opened "a\nb\n" false) = .ok ⟨"t/ignored.log", ["a", "b"]⟩ ∧
        (⟨"t/ignored.log", ["a", "b"]⟩ : IgnoredList).Contains "a\nb" = false) ∧
      (NewIgnoredList "t" (.opened "x" false) = .ok ⟨"t/ignored.log", ["x"]⟩ ∧
        ((⟨"t/ignored.log", ["x"]⟩ : IgnoredList).Add (some "x") .succeeds "k").err = none ∧
        ((⟨"t/ignored.log", ["x"]⟩ : IgnoredList).Add (some "x") .succeeds "k").disk
          = some "xk\n" ∧
        NewIgnoredList "t" (.opened "xk\n" false) = .ok ⟨"t/ignored.log", ["xk"]⟩ ∧
        (⟨"t/ignored.log", ["xk"]⟩ : IgnoredList).Contains "k" = false) := by
  decide

/-- Claim C30, amended. Let the key be non-empty, without line break, without
leading or trailing white space and shorter than the scanner's limit of 64 KiB,
and let the file before the call load without error, into a list that holds
the key if the list in memory does, and be absent, empty or ended by a line
feed. If `Add` of the key returns no error, the list `NewIgnoredList` builds
from the resulting file loads without error and contains the key. -/
theorem Add_NewIgnoredList_round_trip (taskDir : String) (l l0 : IgnoredList)
    (disk : Option String) (io : AppendIO) (key : String)
    (hne : key ≠ "") (hlf : '\n' ∉ key.toList) (htrim : trimSpace key = key)
    (hlen : byteLength key.toList < maxScanTokenSize)
    (hload : NewIgnoredList taskDir (onDisk disk) = .ok l0)
    (hsync : l.Contains key = true → l0.Contains key = true)
    (hfinal : ∀ content, disk = some content → content = "" ∨ ∃ o : String, content = o ++ "\n")
    (hadd : (l.Add disk io key).err = none) :
    ∃ l1, NewIgnoredList taskDir (onDisk (l.Add disk io key).disk) = .ok l1 ∧
      l1.Contains key = true := by
  by_cases hc : l.Contains key = true
  · refine ⟨l0, ?_, hsync hc⟩
    simp only [IgnoredList.Add, hc, if_true]
    exact hload
  · simp only [Bool.not_eq_true] at hc
    have hio := (Add_err_none l disk io key hc).mp hadd
    subst hio
    have hdisk : (l.Add disk .succeeds key).disk = some (disk.getD "" ++ (key ++ "\n")) := by
      simp [IgnoredList.Add, hc]
    have hold : ∃ lines0, scanLines (disk.getD "").toList = some lines0 := by
      cases disk with
      | none => exact ⟨[], rfl⟩
      | some content =>
        simp only [onDisk, NewIgnoredList, Bool.false_eq_true, if_false] at hload
        cases hs : scanLines content.toList with
        | none => rw [hs] at hload; cases hload
        | some lines0 => exact ⟨lines0, hs⟩
    have hfin : (disk.getD "").toList = [] ∨ ∃ o, (disk.getD "").toList = o ++ ['\n'] := by
      cases disk with
      | none => exact Or.inl rfl
      | some content =>
        rcases hfinal content rfl with h | ⟨o, h⟩
        · left
          rw [Option.getD_some, h]
          rfl
        · right
          refine ⟨o.toList, ?_⟩
          rw [Option.getD_some, h]
          simp
    obtain ⟨lines0, h0⟩ := hold
    have hscan := scanLines_append_line _ _ lines0 h0 hfin hlf hlen
    have hdata : (disk.getD "" ++ (key ++ "\n")).toList
        = (disk.getD "").toList ++ (key.toList ++ ['\n']) := by
      simp
    rw [hdisk]
    simp only [onDisk, NewIgnoredList, Bool.false_eq_true, if_false]
    rw [hdata, hscan]
    refine ⟨_, rfl, ?_⟩
    simp only [IgnoredList.Contains, decide_eq_true_eq]
    rw [mem_foldl_loadLine]
    right
    exact ⟨hne, dropCR key.toList, by simp, trimSpace_dropCR_key key htrim⟩

/-- Witness of C30 amended: a second key recorded after the first. -/
theorem Add_NewIgnoredList_round_trip_witness :
    ∃ l1, NewIgnoredList "t"
        (onDisk ((⟨"t/ignored.log", ["a.go"]⟩ : IgnoredList).Add (some "a.go\n") .succeeds
          "b.go").disk) = .ok l1 ∧ l1.Contains "b.go" = true :=
  Add_NewIgnoredList_round_trip "t" ⟨"t/ignored.log", ["a.go"]⟩ ⟨"t/ignored.log", ["a.go"]⟩
    (some "a.go\n") .succeeds "b.go" (by decide) (by decide) (by decide) (by decide) rfl
    (fun h => h) (fun content h => Or.inr ⟨"a.go", by injection h with h; rw [← h]; rfl⟩)
    (by decide)

/-! ## `shellQuote` -/

/-- Replacing a one-character `old` replaces each of its occurrences. -/
theorem replaceAux_char (q : Char) (new cs : List Char) :
    replaceAux [q] new 0 cs = cs.flatMap (fun c => if c = q then new else [c]) := by
  induction cs with
  | nil => rfl
  | cons c cs ih =>
    rw [replaceAux_zero_cons, List.flatMap_cons]
    by_cases hc : c = q
    · subst hc
      simp [List.isPrefixOf, ih]
    · have hq : ¬ q = c := fun h => hc h.symm
      simp [List.isPrefixOf, hq, hc, ih]

/-- Inside single quotes, the text `shellQuote` makes of `cs`, closed by a
single quote, reads as `cs`. -/
theorem readQuoted_quoted (cs acc : List Char) :
    readQuoted .single
        (cs.flatMap (fun c => if c = '\'' then "'\"'\"'".toList else [c]) ++ ['\'']) acc
      = some (acc ++ cs) := by
  induction cs generalizing acc with
  | nil => simp [readQuoted]
  | cons c cs ih =>
    rw [List.flatMap_cons]
    by_cases hc : c = '\''
    · subst hc
      simp only [if_true]
      have h := ih (acc ++ ['\''])
      simp only [List.append_assoc, List.singleton_append] at h
      simpa [readQuoted] using h
    · simp only [hc, if_false, List.singleton_append, List.cons_append]
      rw [readQuoted]
      simp only [hc, if_false, List.nil_append]
      rw [ih]
      simp

/-- Claim C21. For every string `s`, `shellQuote s` is `s` between two single
quotes with each single quote of `s` replaced by the five characters
`'"'"'`, and read under the POSIX quoting rules it is one word whose value is
`s`. -/
theorem shellQuote_round_trip (s : String) :
    shellQuote s
        = "'" ++ String.mk (s.toList.flatMap
            (fun c => if c = '\'' then "'\"'\"'".toList else [c])) ++ "'" ∧
      shellWord (shellQuote s) = some s := by
  have hq : shellQuote s
      = "'" ++ String.mk (s.toList.flatMap
          (fun c => if c = '\'' then "'\"'\"'".toList else [c])) ++ "'" := by
    have h := replaceAux_char '\'' "'\"'\"'".toList s.toList
    unfold shellQuote replaceAll replaceAllChars
    have he : ("'" : String).toList.isEmpty = false := rfl
    have hl : ("'" : String).toList = ['\''] := rfl
    rw [he, hl]
    simp only [Bool.false_eq_true, if_false]
    rw [h]
  refine ⟨hq, ?_⟩
  rw [hq]
  have hdata : ("'" ++ String.mk (s.toList.flatMap
      (fun c => if c = '\'' then "'\"'\"'".toList else [c])) ++ "'").toList
      = '\'' :: (s.toList.flatMap
          (fun c => if c = '\'' then "'\"'\"'".toList else [c]) ++ ['\'']) := by
    simp [String.toList]
  unfold shellWord
  rw [hdata]
  simp only []
  rw [readQuoted]
  simp only [if_true]
  rw [readQuoted_quoted]
  simp

/-- The quoting of `it's`, as the shell reads it. -/
theorem shellQuote_example :
    shellQuote "it's" = "'it'\"'\"'s'" ∧ shellWord "'it'\"'\"'s'" = some "it's" ∧
      shellQuote "" = "''" ∧ shellWord "''" = some "" ∧ shellWord "it's" = none := by
  decide

/-! ## The `--shard` flag -/

/-- Unfolding of `stringsSplit` at a character. -/
theorem stringsSplit_cons (sep c : Char) (cs : List Char) :
    stringsSplit sep (c :: cs) =
      if c = sep then [] :: stringsSplit sep cs
      else
        match stringsSplit sep cs with
        | [] => [[c]]
        | l :: ls => (c :: l) :: ls := rfl

/-- A split has a part at least. -/
theorem stringsSplit_ne_nil (sep : Char) (cs : List Char) : stringsSplit sep cs ≠ [] := by
  cases cs with
  | nil => simp [stringsSplit]
  | cons c cs =>
    rw [stringsSplit_cons]
    split
    · simp
    · split <;> simp

/-- A text that splits into one part has no separator and is that part. -/
theorem stringsSplit_one (sep : Char) (cs b : List Char) (h : stringsSplit sep cs = [b]) :
    cs = b ∧ sep ∉ b := by
  induction cs generalizing b with
  | nil =>
    simp only [stringsSplit, List.cons.injEq, and_true] at h
    subst h
    simp
  | cons c cs ih =>
    rw [stringsSplit_cons] at h
    by_cases hc : c = sep
    · rw [if_pos hc] at h
      injection h with _ h2
      exact absurd h2 (stringsSplit_ne_nil sep cs)
    · rw [if_neg hc] at h
      cases hs : stringsSplit sep cs with
      | nil => exact absurd hs (stringsSplit_ne_nil sep cs)
      | cons l ls =>
        rw [hs] at h
        simp only [List.cons.injEq] at h
        obtain ⟨h1, h2⟩ := h
        subst h1 h2
        obtain ⟨e1, e2⟩ := ih l hs
        subst e1
        refine ⟨rfl, ?_⟩
        intro hm
        rcases List.mem_cons.mp hm with e | e
        · exact hc e.symm
        · exact e2 e

/-- A text that splits into two parts is the two parts around one separator. -/
theorem stringsSplit_two (sep : Char) (cs a b : List Char) (h : stringsSplit sep cs = [a, b]) :
    cs = a ++ sep :: b ∧ sep ∉ a ∧ sep ∉ b := by
  induction cs generalizing a with
  | nil => simp [stringsSplit] at h
  | cons c cs ih =>
    rw [stringsSplit_cons] at h
    by_cases hc : c = sep
    · rw [if_pos hc] at h
      simp only [List.cons.injEq] at h
      obtain ⟨h1, h2⟩ := h
      subst h1
      obtain ⟨e1, e2⟩ := stringsSplit_one sep cs b h2
      subst e1 hc
      exact ⟨rfl, by simp, e2⟩
    · rw [if_neg hc] at h
      cases hs : stringsSplit sep cs with
      | nil => exact absurd hs (stringsSplit_ne_nil sep cs)
      | cons l ls =>
        rw [hs] at h
        simp only [List.cons.injEq] at h
        obtain ⟨h1, h2⟩ := h
        subst h1 h2
        obtain ⟨e1, e2, e3⟩ := ih l hs
        refine ⟨by rw [e1]; rfl, ?_, e3⟩
        intro hm
        rcases List.mem_cons.mp hm with e | e
        · exact hc e.symm
        · exact e2 e

/-- A text without separator is one part. -/
theorem stringsSplit_of_not_mem (sep : Char) (l : List Char) (h : sep ∉ l) :
    stringsSplit sep l = [l] := by
  induction l with
  | nil => rfl
  | cons c l ih =>
    have hc : c ≠ sep := fun e => h (by rw [e]; exact List.mem_cons_self _ _)
    have hl : sep ∉ l := fun e => h (List.mem_cons_of_mem _ e)
    rw [stringsSplit_cons, if_neg hc, ih hl]

/-- Two parts around one separator split into the two parts. -/
theorem stringsSplit_append (sep : Char) (a b : List Char) (ha : sep ∉ a) (hb : sep ∉ b) :
    stringsSplit sep (a ++ sep :: b) = [a, b] := by
  induction a with
  | nil =>
    rw [List.nil_append, stringsSplit_cons, if_pos rfl, stringsSplit_of_not_mem sep b hb]
  | cons c a ih =>
    have hc : c ≠ sep := fun e => ha (by rw [e]; exact List.mem_cons_self _ _)
    have hl : sep ∉ a := fun e => ha (List.mem_cons_of_mem _ e)
    rw [List.cons_append, stringsSplit_cons, if_neg hc, ih hl]

/-- The shard flag whose text splits into the two parts `a` and `b`. -/
theorem shardPartition_two (noFilter : HashPartition) (shardFlag : String) (a b : List Char)
    (hne : shardFlag ≠ "") (hsplit : stringsSplit '/' shardFlag.toList = [a, b]) :
    shardPartition noFilter shardFlag =
      match Atoi (trimSpace (String.mk a)), Atoi (trimSpace (String.mk b)) with
      | some index, some total =>
        if total < 1 ∨ index < 1 ∨ index > total then .error .values
        else .ok { WorkerCount := total, WorkerIndex := index - 1 }
      | _, _ => .error .values := by
  unfold shardPartition
  rw [if_pos hne, hsplit]
  rfl

/-- The shard flag whose text does not split into two parts. -/
theorem shardPartition_format (noFilter : HashPartition) (shardFlag : String)
    (hne : shardFlag ≠ "") (hsplit : (stringsSplit '/' shardFlag.toList).length ≠ 2) :
    shardPartition noFilter shardFlag = .error .format := by
  unfold shardPartition
  rw [if_pos hne]
  simp only [List.length_map]
  rw [if_pos hsplit]

/-- Claim C22. A non-empty `--shard` value is accepted if and only if it
splits on `/` into exactly two parts that, trimmed of white space, parse as
integers `index` and `total` with `1 ≤ index ≤ total`; the partition is then
`WorkerCount = total`, `WorkerIndex = index - 1`, so that every accepted
partition has `0 ≤ WorkerIndex < WorkerCount`; every other value is a startup
error. -/
theorem shardPartition_accepts (noFilter : HashPartition) (shardFlag : String)
    (hne : shardFlag ≠ "") :
    (∀ p, shardPartition noFilter shardFlag = .ok p ↔
        ∃ index total, IsShardSpec shardFlag index total ∧ 1 ≤ index ∧ index ≤ total ∧
          p = { WorkerCount := total, WorkerIndex := index - 1 }) ∧
      (∀ p, shardPartition noFilter shardFlag = .ok p →
        0 ≤ p.WorkerIndex ∧ p.WorkerIndex < p.WorkerCount) ∧
      ((¬ ∃ index total, IsShardSpec shardFlag index total ∧ 1 ≤ index ∧ index ≤ total) →
        ∃ e, shardPartition noFilter shardFlag = .error e) := by
  have hiff : ∀ p, shardPartition noFilter shardFlag = .ok p ↔
      ∃ index total, IsShardSpec shardFlag index total ∧ 1 ≤ index ∧ index ≤ total ∧
        p = { WorkerCount := total, WorkerIndex := index - 1 } := by
    intro p
    constructor
    · intro h
      by_cases hlen : (stringsSplit '/' shardFlag.toList).length = 2
      · obtain ⟨a, b, hab⟩ := List.length_eq_two.mp hlen
        rw [shardPartition_two noFilter shardFlag a b hne hab] at h
        obtain ⟨e1, e2, e3⟩ := stringsSplit_two '/' _ a b hab
        cases hi : Atoi (trimSpace (String.mk a)) with
        | none => rw [hi] at h; cases h
        | some index =>
          cases ht : Atoi (trimSpace (String.mk b)) with
          | none => rw [hi, ht] at h; cases h
          | some total =>
            rw [hi, ht] at h
            simp only [] at h
            split at h
            · cases h
            · rename_i hcond
              injection h with h
              exact ⟨index, total, ⟨a, b, e1, e2, e3, hi, ht⟩, by omega, by omega, h.symm⟩
      · rw [shardPartition_format noFilter shardFlag hne hlen] at h
        cases h
    · rintro ⟨index, total, ⟨a, b, e1, e2, e3, hi, ht⟩, h1, h2, rfl⟩
      have hab : stringsSplit '/' shardFlag.toList = [a, b] := by
        rw [e1]
        exact stringsSplit_append '/' a b e2 e3
      rw [shardPartition_two noFilter shardFlag a b hne hab, hi, ht]
      simp only []
      rw [if_neg (by omega)]
  refine ⟨hiff, ?_, ?_⟩
  · intro p hp
    obtain ⟨index, total, _, h1, h2, rfl⟩ := (hiff p).mp hp
    simp only []
    constructor <;> omega
  · intro hnot
    cases hr : shardPartition noFilter shardFlag with
    | error e => exact ⟨e, rfl⟩
    | ok p =>
      obtain ⟨index, total, hs, h1, h2, _⟩ := (hiff p).mp hr
      exact absurd ⟨index, total, hs, h1, h2⟩ hnot

/-- Witness of C22: the second of four workers. -/
theorem shardPartition_accepts_witness :
    shardPartition ⟨1, 0⟩ "2/4" = .ok ⟨4, 1⟩ ∧
      (0 : Int) ≤ (⟨4, 1⟩ : HashPartition).WorkerIndex ∧
      (⟨4, 1⟩ : HashPartition).WorkerIndex < (⟨4, 1⟩ : HashPartition).WorkerCount :=
  ⟨by decide, (shardPartition_accepts ⟨1, 0⟩ "2/4" (by decide)).2.1 ⟨4, 1⟩ (by decide)⟩

/-- Shard values of the flag: accepted with white space and a sign, refused
for an index outside `1 .. total`, for text that is no integer, for an integer
outside the range of `int` and for another number of parts than two. -/
theorem shardPartition_examples :
    shardPartition ⟨1, 0⟩ "1/4" = .ok ⟨4, 0⟩ ∧
      shardPartition ⟨1, 0⟩ " 4 / 4 " = .ok ⟨4, 3⟩ ∧
      shardPartition ⟨1, 0⟩ "+1/1" = .ok ⟨1, 0⟩ ∧
      shardPartition ⟨1, 0⟩ "0/4" = .error .values ∧
      shardPartition ⟨1, 0⟩ "5/4" = .error .values ∧
      shardPartition ⟨1, 0⟩ "-1/4" = .error .values ∧
      shardPartition ⟨1, 0⟩ "a/4" = .error .values ∧
      shardPartition ⟨1, 0⟩ "1/" = .error .values ∧
      shardPartition ⟨1, 0⟩ "1/9223372036854775808" = .error .values ∧
      shardPartition ⟨1, 0⟩ "1/9223372036854775807" = .ok ⟨9223372036854775807, 0⟩ ∧
      shardPartition ⟨1, 0⟩ "1" = .error .format ∧
      shardPartition ⟨1, 0⟩ "1/2/3" = .error .format ∧
      shardPartition ⟨1, 0⟩ "" = .ok ⟨1, 0⟩ := by
  decide

/-! ## Backoff -/

/-- From level 4 on the delay is the cap. -/
theorem calculateBackoff_cap (level : Nat) (h : 4 ≤ level) : calculateBackoff level = hour := by
  have hp : 2 ^ 4 ≤ 2 ^ level := Nat.pow_le_pow_right (by decide) h
  unfold calculateBackoff
  simp only []
  rw [if_pos]
  show hour < 5 * minute * 2 ^ level
  have h1 : hour < 5 * minute * 2 ^ 4 := by decide
  exact Nat.lt_of_lt_of_le h1 (Nat.mul_le_mul_left _ hp)

/-- The delay as the smaller of the doubled base and the cap. -/
theorem calculateBackoff_eq_min (level : Nat) :
    calculateBackoff level = min (5 * minute * 2 ^ level) hour := by
  unfold calculateBackoff
  simp only []
  split
  · rw [Nat.min_eq_right]
    omega
  · rw [Nat.min_eq_left]
    omega

/-- Claim C23. `calculateBackoff level` is the smaller of 5 minutes times
`2 ^ level` and 1 hour: 5, 10, 20 and 40 minutes at the levels 0 to 3, 1 hour
at level 4 and at every level from 4 on; it never decreases when the level
grows and never exceeds 1 hour. -/
theorem calculateBackoff_spec (level : Nat) :
    calculateBackoff level = min (5 * minute * 2 ^ level) hour ∧
      calculateBackoff 0 = 5 * minute ∧ calculateBackoff 1 = 10 * minute ∧
      calculateBackoff 2 = 20 * minute ∧ calculateBackoff 3 = 40 * minute ∧
      calculateBackoff 4 = hour ∧
      (4 ≤ level → calculateBackoff level = hour) ∧
      (∀ higher, level ≤ higher → calculateBackoff level ≤ calculateBackoff higher) ∧
      calculateBackoff level ≤ hour := by
  refine ⟨calculateBackoff_eq_min level, by decide, by decide, by decide, by decide, by decide,
    calculateBackoff_cap level, ?_, ?_⟩
  · intro higher hle
    rw [calculateBackoff_eq_min, calculateBackoff_eq_min]
    have hp : 2 ^ level ≤ 2 ^ higher := Nat.pow_le_pow_right (by decide) hle
    have hm : 5 * minute * 2 ^ level ≤ 5 * minute * 2 ^ higher := Nat.mul_le_mul_left _ hp
    omega
  · rw [calculateBackoff_eq_min]
    exact Nat.min_le_right _ _

/-- Witness of C23: the levels of `TestCalculateBackoff` above 4. -/
theorem calculateBackoff_spec_witness :
    calculateBackoff 5 = hour ∧ calculateBackoff 10 = hour ∧
      calculateBackoff 3 ≤ calculateBackoff 10 :=
  ⟨(calculateBackoff_spec 5).2.2.2.2.2.2.1 (by decide),
   (calculateBackoff_spec 10).2.2.2.2.2.2.1 (by decide),
   (calculateBackoff_spec 3).2.2.2.2.2.2.2.1 10 (by decide)⟩

/-! ## The streaming classifier -/

/-- The observer and the log receive the same at every event. -/
theorem processEvent_same (st : StreamState) (e : StreamEvent)
    (h : st.streamed = st.logged) : (processEvent st e).streamed = (processEvent st e).logged := by
  cases e with
  | contentBlockDelta text =>
    unfold processEvent
    by_cases ht : text = ""
    · simp [ht, h]
    · simp [ht, h]
  | messageStop =>
    unfold processEvent
    cases st.messageHasContent <;> simp [h]
  | other => exact h

/-- The same over a run of events. -/
theorem foldl_processEvent_same (events : List StreamEvent) (st : StreamState)
    (h : st.streamed = st.logged) :
    (events.foldl processEvent st).streamed = (events.foldl processEvent st).logged := by
  induction events generalizing st with
  | nil => exact h
  | cons e rest ih => exact ih _ (processEvent_same st e h)

/-- Within a message the deltas are appended to what was forwarded, and the
message has content once a non-empty delta was forwarded. -/
theorem foldl_processEvent_message (msg : List StreamEvent) (st : StreamState)
    (hmsg : StreamEvent.messageStop ∉ msg) :
    (msg.foldl processEvent st).streamed = st.streamed ++ deltaText msg ∧
      (msg.foldl processEvent st).messageHasContent
        = (st.messageHasContent || decide (deltaText msg ≠ "")) := by
  induction msg generalizing st with
  | nil => simp [deltaText]
  | cons e rest ih =>
    have hrest : StreamEvent.messageStop ∉ rest := fun h => hmsg (List.mem_cons_of_mem _ h)
    rw [List.foldl_cons]
    cases e with
    | contentBlockDelta text =>
      obtain ⟨h1, h2⟩ := ih (processEvent st (.contentBlockDelta text)) hrest
      rw [h1, h2]
      unfold processEvent
      by_cases ht : text = ""
      · subst ht
        simp [deltaText]
      · have hne : text ++ deltaText rest ≠ "" := by
          intro h
          apply ht
          have hl := congrArg String.length h
          simp only [String.length_append] at hl
          have h0 : text.length = 0 := by
            have : ("" : String).length = 0 := rfl
            omega
          exact String.ext (List.length_eq_zero.mp h0)
        simp [ht, deltaText, hne, String.append_assoc]
    | messageStop => exact absurd (List.mem_cons_self _ _) hmsg
    | other =>
      obtain ⟨h1, h2⟩ := ih (processEvent st .other) hrest
      rw [h1, h2]
      simp [processEvent, deltaText]

/-- What was forwarded before a run of events stays in front. -/
theorem foldl_processEvent_streamed (events : List StreamEvent) (st : StreamState) :
    (events.foldl processEvent st).streamed
      = st.streamed
        ++ (events.foldl processEvent { st with streamed := "", logged := "" }).streamed := by
  induction events generalizing st with
  | nil => simp
  | cons e rest ih =>
    rw [List.foldl_cons, List.foldl_cons, ih, ih (processEvent { st with streamed := "", logged := "" } e)]
    cases e with
    | contentBlockDelta text =>
      unfold processEvent
      by_cases ht : text = ""
      · simp [ht]
      · simp [ht, String.append_assoc]
    | messageStop =>
      unfold processEvent
      cases st.messageHasContent <;> simp [String.append_assoc]
    | other => simp [processEvent]

/-- Claim C24. Over every sequence of stream events the streaming observer and
the log receive the same text. The text of a message (a stretch of events
without `message_stop`) is the texts of its deltas in order, the empty ones
adding nothing; the `message_stop` that ends it adds one line feed if and only
if that text is not empty, that is, if a non-empty delta was forwarded since
the previous `message_stop` or the start; then the following events are
processed in the same way. The events of `TestStreamingWithEmptyMessages`
yield `Hello World`, a line feed, `!` and a line feed. -/
theorem processEvents_messages (events : List StreamEvent) :
    (processEvents events).streamed = (processEvents events).logged ∧
      (∀ msg rest, StreamEvent.messageStop ∉ msg → events = msg ++ .messageStop :: rest →
        (processEvents events).streamed
          = deltaText msg ++ (if deltaText msg ≠ "" then "\n" else "")
            ++ (processEvents rest).streamed) ∧
      (StreamEvent.messageStop ∉ events → (processEvents events).streamed = deltaText events) ∧
      (processEvents [.contentBlockDelta "Hello ", .contentBlockDelta "World", .messageStop,
        .messageStop, .contentBlockDelta "!", .messageStop]).streamed = "Hello World\n!\n" := by
  refine ⟨foldl_processEvent_same events _ rfl, ?_, ?_, by decide⟩
  · intro msg rest hmsg hev
    subst hev
    unfold processEvents
    rw [List.foldl_append, List.foldl_cons]
    obtain ⟨h1, h2⟩ := foldl_processEvent_message msg
      { messageHasContent := false, streamed := "", logged := "" } hmsg
    rw [foldl_processEvent_streamed]
    generalize hst : msg.foldl processEvent
      { messageHasContent := false, streamed := "", logged := "" } = st at h1 h2
    simp only [Bool.false_or, String.empty_append] at h1 h2
    by_cases hd : deltaText msg = ""
    · have hc : st.messageHasContent = false := by rw [h2]; simp [hd]
      simp [processEvent, hc, h1, hd]
    · have hc : st.messageHasContent = true := by rw [h2]; simp [hd]
      simp [processEvent, hc, h1, hd]
  · intro hmsg
    obtain ⟨h1, _⟩ := foldl_processEvent_message events
      { messageHasContent := false, streamed := "", logged := "" } hmsg
    unfold processEvents
    rw [h1]
    simp

/-- Witness of C24: a message of two deltas, one of them empty, then an empty
message. -/
theorem processEvents_messages_witness :
    (processEvents [.contentBlockDelta "a", .contentBlockDelta "", .other, .messageStop,
        .messageStop]).streamed
      = deltaText [.contentBlockDelta "a", .contentBlockDelta "", .other]
        ++ (if deltaText [.contentBlockDelta "a", .contentBlockDelta "", .other] ≠ "" then "\n"
            else "")
        ++ (processEvents [.messageStop]).streamed :=
  (processEvents_messages [.contentBlockDelta "a", .contentBlockDelta "", .other, .messageStop,
      .messageStop]).2.1
    [.contentBlockDelta "a", .contentBlockDelta "", .other] [.messageStop] (by decide) rfl

/-! ## `reorderArgs` -/

/-- Unfolding of the loop at the last argument. -/
theorem reorderLoop_one (arg : String) (flags positional : List String) :
    reorderLoop [arg] flags positional =
      if hasPrefix arg "-" then (flags ++ [arg], positional)
      else (flags, positional ++ [arg]) := rfl

/-- Unfolding of the loop at an argument that has a successor. -/
theorem reorderLoop_two (arg next : String) (rest flags positional : List String) :
    reorderLoop (arg :: next :: rest) flags positional =
      if hasPrefix arg "-" then
        if !hasPrefix next "-" && takesValue arg then
          reorderLoop rest (flags ++ [arg] ++ [next]) positional
        else reorderLoop (next :: rest) (flags ++ [arg]) positional
      else reorderLoop (next :: rest) flags (positional ++ [arg]) := rfl

/-- Unfolding of `positionalArgs`. -/
theorem positionalArgs_cons (after : Bool) (arg : String) (rest : List String) :
    positionalArgs after (arg :: rest) =
      if !hasPrefix arg "-" && !after then arg :: positionalArgs (takesValue arg) rest
      else positionalArgs (takesValue arg) rest := rfl

/-- Unfolding of `flagArgs`. -/
theorem flagArgs_cons (after : Bool) (arg : String) (rest : List String) :
    flagArgs after (arg :: rest) =
      if !hasPrefix arg "-" && !after then flagArgs (takesValue arg) rest
      else arg :: flagArgs (takesValue arg) rest := rfl

/-- The flags that take a value begin with `-`. -/
theorem takesValue_dash (arg : String) (h : takesValue arg = true) :
    hasPrefix arg "-" = true := by
  unfold takesValue at h
  simp only [decide_eq_true_eq, List.mem_cons, List.mem_nil_iff, or_false] at h
  rcases h with h | h | h | h | h | h | h | h | h | h <;> subst h <;> decide

/-- An argument that does not begin with `-` takes no value. -/
theorem takesValue_of_no_dash (arg : String) (h : hasPrefix arg "-" = false) :
    takesValue arg = false := by
  cases ht : takesValue arg with
  | false => rfl
  | true => rw [takesValue_dash arg ht] at h; cases h

/-- The loop appends the flags and the positional arguments the specification
speaks of, when it is not entered right after a flag whose value is still to
come. -/
theorem reorderLoop_eq (n : Nat) (args : List String) (hn : args.length ≤ n) (after : Bool)
    (flags positional : List String)
    (hafter : after = true → ∀ a rest, args = a :: rest → hasPrefix a "-" = true) :
    reorderLoop args flags positional
      = (flags ++ flagArgs after args, positional ++ positionalArgs after args) := by
  induction n generalizing args after flags positional with
  | zero =>
    have : args = [] := List.length_eq_zero.mp (Nat.le_zero.mp hn)
    subst this
    simp [reorderLoop, flagArgs, positionalArgs]
  | succ n ih =>
    cases args with
    | nil => simp [reorderLoop, flagArgs, positionalArgs]
    | cons arg rest =>
      have hpos : ∀ b : Bool, hasPrefix arg "-" = false → after = false := by
        intro _ hd
        cases ha : after with
        | false => rfl
        | true => rw [hafter ha arg rest rfl] at hd; cases hd
      cases rest with
      | nil =>
        rw [reorderLoop_one, flagArgs_cons, positionalArgs_cons]
        cases hd : hasPrefix arg "-" with
        | true => simp [flagArgs, positionalArgs]
        | false => simp [hpos true hd, flagArgs, positionalArgs]
      | cons next rest =>
        have hlen : (next :: rest).length ≤ n := by
          simp only [List.length_cons] at hn ⊢
          omega
        have hlen2 : rest.length ≤ n := by
          simp only [List.length_cons] at hn
          omega
        rw [reorderLoop_two, flagArgs_cons, positionalArgs_cons]
        cases hd : hasPrefix arg "-" with
        | true =>
          simp only [if_true, Bool.not_true, Bool.false_and, Bool.false_eq_true, if_false]
          by_cases hcond : (!hasPrefix next "-" && takesValue arg) = true
          · rw [if_pos hcond]
            simp only [Bool.and_eq_true, Bool.not_eq_true'] at hcond
            rw [ih rest hlen2 false _ _ (fun h => by cases h), flagArgs_cons, positionalArgs_cons,
              hcond.2, hcond.1, takesValue_of_no_dash next hcond.1]
            simp
          · rw [if_neg hcond]
            rw [ih (next :: rest) hlen (takesValue arg) _ _ ?_]
            · simp
            · intro ht a r har
              injection har with h1 _
              subst h1
              simp only [Bool.and_eq_true, Bool.not_eq_true', not_and, Bool.not_eq_true] at hcond
              cases hnx : hasPrefix next "-" with
              | true => rfl
              | false => rw [hcond hnx] at ht; cases ht
        | false =>
          simp only [Bool.false_eq_true, if_false, hpos true hd, Bool.not_false, Bool.and_self,
            if_true]
          rw [ih (next :: rest) hlen (takesValue arg) _ _ ?_]
          · simp
          · intro ht
            rw [takesValue_of_no_dash arg hd] at ht
            cases ht

/-- The result of `reorderArgs` in the terms of the specification. -/
theorem reorderArgs_eq (args : List String) :
    reorderArgs args = flagArgs false args ++ positionalArgs false args := by
  unfold reorderArgs
  rw [reorderLoop_eq args.length args (Nat.le_refl _) false [] [] (fun h => by cases h)]
  simp

/-- The flags followed by the positional arguments are a rearrangement of the
arguments. -/
theorem flagArgs_positionalArgs_perm (after : Bool) (args : List String) :
    List.Perm (flagArgs after args ++ positionalArgs after args) args := by
  induction args generalizing after with
  | nil => simp [flagArgs, positionalArgs]
  | cons arg rest ih =>
    rw [flagArgs_cons, positionalArgs_cons]
    split
    · exact List.perm_middle.trans (List.Perm.cons _ (ih _))
    · exact List.Perm.cons _ (ih _)

/-- The positional arguments stand in their input order. -/
theorem positionalArgs_sublist (after : Bool) (args : List String) :
    List.Sublist (positionalArgs after args) args := by
  induction args generalizing after with
  | nil => simp [positionalArgs]
  | cons arg rest ih =>
    rw [positionalArgs_cons]
    split
    · exact List.Sublist.cons₂ _ (ih _)
    · exact List.Sublist.cons _ (ih _)

/-- The flags and their values stand in their input order. -/
theorem flagArgs_sublist (after : Bool) (args : List String) :
    List.Sublist (flagArgs after args) args := by
  induction args generalizing after with
  | nil => simp [flagArgs]
  | cons arg rest ih =>
    rw [flagArgs_cons]
    split
    · exact List.Sublist.cons _ (ih _)
    · exact List.Sublist.cons₂ _ (ih _)

/-- The positional arguments of a list cut after the argument `x`. -/
theorem positionalArgs_append (after : Bool) (pre : List String) (x : String)
    (post : List String) :
    positionalArgs after (pre ++ x :: post)
      = positionalArgs after (pre ++ [x]) ++ positionalArgs (takesValue x) post := by
  induction pre generalizing after with
  | nil =>
    simp only [List.nil_append, positionalArgs_cons]
    split <;> simp [positionalArgs]
  | cons a pre ih =>
    simp only [List.cons_append, positionalArgs_cons]
    split
    · rw [ih]
      rfl
    · rw [ih]

/-- The flags of a list cut after the argument `x`. -/
theorem flagArgs_append (after : Bool) (pre : List String) (x : String) (post : List String) :
    flagArgs after (pre ++ x :: post)
      = flagArgs after (pre ++ [x]) ++ flagArgs (takesValue x) post := by
  induction pre generalizing after with
  | nil =>
    simp only [List.nil_append, flagArgs_cons]
    split <;> simp [flagArgs]
  | cons a pre ih =>
    simp only [List.cons_append, flagArgs_cons]
    split
    · rw [ih]
    · rw [ih]
      rfl

/-- A flag that ends a list is the last of its flags. -/
theorem flagArgs_concat_dash (after : Bool) (pre : List String) (x : String)
    (hx : hasPrefix x "-" = true) :
    ∃ before, flagArgs after (pre ++ [x]) = before ++ [x] := by
  induction pre generalizing after with
  | nil => exact ⟨[], by simp [flagArgs, hx]⟩
  | cons a pre ih =>
    obtain ⟨before, hb⟩ := ih (takesValue a)
    simp only [List.cons_append, flagArgs_cons]
    split
    · exact ⟨before, hb⟩
    · exact ⟨a :: before, by rw [hb]; rfl⟩

/-- A list without positional arguments has none when it is continued by an
argument that begins with `-` or follows a flag that takes a value. -/
theorem positionalArgs_concat (after : Bool) (pre : List String) (x : String) :
    positionalArgs after (pre ++ [x])
      = positionalArgs after pre
        ++ (if !hasPrefix x "-" && !((pre.getLast?.map takesValue).getD after) then [x]
            else []) := by
  induction pre generalizing after with
  | nil => simp [positionalArgs]
  | cons a pre ih =>
    have hlast : ((a :: pre).getLast?.map takesValue).getD after
        = (pre.getLast?.map takesValue).getD (takesValue a) := by
      cases pre with
      | nil => rfl
      | cons b pre =>
        rw [List.getLast?_cons_cons]
        cases hl : (b :: pre).getLast? with
        | none => exact absurd (List.getLast?_eq_none_iff.mp hl) (by simp)
        | some y => rfl
    simp only [List.cons_append, positionalArgs_cons]
    rw [ih, hlast]
    split <;> simp

/-- Claim C25. For every argument list the result of `reorderArgs` is `F ++ P`,
where `P` holds exactly the arguments that neither begin with `-` nor directly
follow a flag that takes a value (`-limit`, `-time-limit`, `-task-timeout`,
`-claude-command`, `-shard`, with one dash or two) and `F` all the others, each
in input order; a value that directly follows such a flag stands directly
after it in `F`; the result is a permutation of the input; and the first
positional argument of the input is the first argument after the flags. -/
theorem reorderArgs_flags_first (args : List String) :
    reorderArgs args = flagArgs false args ++ positionalArgs false args ∧
      List.Sublist (flagArgs false args) args ∧
      List.Sublist (positionalArgs false args) args ∧
      (∀ pre flag value post, args = pre ++ flag :: value :: post →
        takesValue flag = true → hasPrefix value "-" = false →
        ∃ before, flagArgs false args = before ++ flag :: value :: flagArgs false post) ∧
      List.Perm (reorderArgs args) args ∧
      (∀ pre task post, args = pre ++ task :: post → positionalArgs false pre = [] →
        hasPrefix task "-" = false → (pre.getLast?.map takesValue).getD false = false →
        reorderArgs args = flagArgs false args ++ task :: positionalArgs false post) := by
  have heq := reorderArgs_eq args
  refine ⟨heq, flagArgs_sublist _ _, positionalArgs_sublist _ _, ?_, ?_, ?_⟩
  · intro pre flag value post hargs hflag hvalue
    subst hargs
    obtain ⟨before, hb⟩ := flagArgs_concat_dash false pre flag (takesValue_dash flag hflag)
    refine ⟨before, ?_⟩
    rw [flagArgs_append, hb, flagArgs_cons, hflag, hvalue, takesValue_of_no_dash value hvalue]
    simp
  · rw [heq]
    exact flagArgs_positionalArgs_perm false args
  · intro pre task post hargs hpre htask hlast
    subst hargs
    rw [heq, positionalArgs_append, positionalArgs_concat, hpre, htask, hlast,
      takesValue_of_no_dash task htask]
    simp

/-- Witness of C25: flags after the task name, one of them with a value. -/
theorem reorderArgs_flags_first_witness :
    reorderArgs ["-verbose", "mytask", "-limit", "5", "extra", "--dry-run"]
      = flagArgs false ["-verbose", "mytask", "-limit", "5", "extra", "--dry-run"]
        ++ "mytask" :: positionalArgs false ["-limit", "5", "extra", "--dry-run"] :=
  (reorderArgs_flags_first ["-verbose", "mytask", "-limit", "5", "extra", "--dry-run"]).2.2.2.2.2
    ["-verbose"] "mytask" ["-limit", "5", "extra", "--dry-run"] rfl (by decide) (by decide)
    (by decide)

/-- The arguments of the witness, reordered. -/
theorem reorderArgs_example :
    reorderArgs ["-verbose", "mytask", "-limit", "5", "extra", "--dry-run"]
        = ["-verbose", "-limit", "5", "--dry-run", "mytask", "extra"] ∧
      reorderArgs ["mytask", "--shard", "--limit", "3", "-x", "y"]
        = ["--shard", "--limit", "3", "-x", "mytask", "y"] ∧
      reorderArgs ["mytask", "-limit"] = ["-limit", "mytask"] := by
  decide

end Nigel
